import Mathlib

/-!
Verification of the Virtual-Memory-Manager simulator (two engines:
a shared-pool "Global" engine in global.cpp and a statically partitioned
"Local" engine in local.cpp) against its natural-language specification.

The C++ code is embedded shallowly:
- an access record (process_id, page_number) becomes a pair of naturals;
- the frame pool (vector of pairs, with first = -1 marking a free frame)
  becomes a list of Option (Nat × Nat), none marking a free frame;
- each per-process page table (unordered_map from page to frame) becomes a
  function Nat → Option Nat, and the vector of 4 page tables a function
  Nat → Nat → Option Nat;
- the C++ rand() stream is an explicit parameter rands : Nat → Nat consumed
  through a counter in the state, so every possible draw sequence is covered;
- the replacement policy stays a String, e.g. "fifo", exactly as the code
  dispatches on string equality.
-/

namespace VMM

/-- An access record: (process_id, page_number). -/
abbrev Access := Nat × Nat

/-- A trace is valid when every process id addresses one of the four
hardcoded page tables (indexing page_tables out of range is UB in the C++). -/
def ValidTrace (t : List Access) : Prop := ∀ a ∈ t, a.1 < 4

instance (t : List Access) : Decidable (ValidTrace t) :=
  List.decidableBAll _ t

/-- Insert page ↦ f into the table of process pid
(page_tables[pid].page_to_frame[page] = f). -/
def ptInsert (pts : Nat → Nat → Option Nat) (pid page f : Nat) :
    Nat → Nat → Option Nat :=
  fun q pg => if q = pid then (if pg = page then some f else pts q pg) else pts q pg

/-- Remove page from the table of process pid
(page_tables[pid].page_to_frame.erase(page)). -/
def ptErase (pts : Nat → Nat → Option Nat) (pid page : Nat) :
    Nat → Nat → Option Nat :=
  fun q pg => if q = pid then (if pg = page then none else pts q pg) else pts q pg

/-- State of the Global (shared pool) engine, global.cpp: the FrameStatus
fields plus the VirtualMemoryManager counters and page tables. -/
structure GState where
  memoryFrames : Nat
  memory : List (Option (Nat × Nat))
  nextFrame : Nat
  lruList : List Nat
  pageTables : Nat → Nat → Option Nat
  faultCounts : Nat → Nat
  globalFaults : Nat
  randIdx : Nat

namespace G

/-- Initial Global state for num_frames = nf: all frames free
(memory initialized to {-1, 0}), cursor 0, empty tables and counters. -/
def init (nf : Nat) : GState :=
  { memoryFrames := nf
    memory := List.replicate nf none
    nextFrame := 0
    lruList := []
    pageTables := fun _ _ => none
    faultCounts := fun _ => 0
    globalFaults := 0
    randIdx := 0 }

/-- FrameStatus::allocateFrame (global.cpp): if memory[nextFrame] is free,
assign it to (pid, page), push it on the LRU list, advance the cursor
modulo memoryFrames and return the frame; otherwise return -1 (none). -/
def allocateFrame (s : GState) (pid page : Nat) : Option Nat × GState :=
  if s.memory[s.nextFrame]? = some none then
    let f := s.nextFrame
    (some f,
      { s with memory := s.memory.set f (some (pid, page))
               lruList := s.lruList ++ [f]
               nextFrame := (f + 1) % s.memoryFrames })
  else
    (none, s)

/-- FrameStatus::releaseFrame (global.cpp): reset the frame to free and drop
it from the LRU list (list::remove erases every occurrence). -/
def releaseFrame (s : GState) (f : Nat) : GState :=
  { s with memory := s.memory.set f none
           lruList := s.lruList.filter (fun x => x ≠ f) }

/-- FrameStatus::fifoReplacement (global.cpp): evict the frame at the cursor,
advance the cursor modulo memoryFrames, install the new pair in the evicted
frame and return (old_pid, old_page_no, frame_id).  The C++ reads the
occupant directly; a free frame there would give the sentinel (-1, 0),
modelled as none. -/
def fifoReplacement (s : GState) (pid page : Nat) :
    (Option (Nat × Nat) × Nat) × GState :=
  let f := s.nextFrame
  let old := (s.memory[f]?).join
  let s1 := releaseFrame s f
  let s2 := { s1 with nextFrame := (f + 1) % s1.memoryFrames }
  let s3 := { s2 with memory := s2.memory.set f (some (pid, page)) }
  ((old, f), s3)

/-- FrameStatus::lruReplacement (global.cpp): evict the frame at the front of
the LRU list, install the new pair there and push the frame to the back.
Calling front() on an empty list is UB in the C++ (unreachable: the list
holds every occupied frame and replacement runs only on a full pool);
the embedding returns the state unchanged with a dummy result there. -/
def lruReplacement (s : GState) (pid page : Nat) :
    (Option (Nat × Nat) × Nat) × GState :=
  match s.lruList with
  | [] => ((none, 0), s)
  | f :: rest =>
    let old := (s.memory[f]?).join
    let s1 := { s with lruList := rest }
    let s2 := releaseFrame s1 f
    let s3 := { s2 with memory := s2.memory.set f (some (pid, page))
                        lruList := s2.lruList ++ [f] }
    ((old, f), s3)

end G

/-- The occupant of frame i of pool mem (none when free, i.e. first = -1). -/
def occAt (mem : List (Option (Nat × Nat))) (i : Nat) : Option (Nat × Nat) :=
  (mem[i]?).join

/-- The inner scan of optimalReplacement: the first index j > cur with
trace[j] equal to the given pair, as an absolute trace index. -/
def nextUseIdx (trace : List Access) (cur : Nat) (pr : Access) : Option Nat :=
  match (trace.drop (cur + 1)).findIdx? (fun a => a = pr) with
  | some k => some (cur + 1 + k)
  | none => none

namespace G

/-- The frame loop of FrameStatus::optimalReplacement (global.cpp), iterating
the given frame indices in order while tracking (farthest_index,
farthest_frame, old occupant), both initially -1/none.  A frame whose
occupant has no next use in the future trace is returned immediately
(the loop breaks).  A free frame holds the sentinel (-1, 0), which matches
no trace entry of the embedding, so it also triggers the break. -/
def optimalLoop (mem : List (Option (Nat × Nat))) (trace : List Access)
    (cur : Nat) :
    List Nat → Int → Int → Option (Nat × Nat) → Int × Option (Nat × Nat)
  | [], _, ff, old => (ff, old)
  | i :: rest, fi, ff, old =>
    match occAt mem i with
    | none => ((i : Int), none)
    | some pr =>
      match nextUseIdx trace cur pr with
      | some j =>
        if fi < (j : Int) then optimalLoop mem trace cur rest (j : Int) (i : Int) (some pr)
        else optimalLoop mem trace cur rest fi ff old
      | none => ((i : Int), some pr)

/-- FrameStatus::optimalReplacement (global.cpp): select the victim frame by
the loop over frames 0..memoryFrames-1, evict it, install the new pair and
return the evicted identity.  The C++ indexes memory[farthest_frame];
farthest_frame stays -1 only when memoryFrames = 0 (out-of-bounds UB there),
modelled by toNat. -/
def optimalReplacement (s : GState) (pid page : Nat) (trace : List Access)
    (cur : Nat) : (Option (Nat × Nat) × Nat) × GState :=
  let r := optimalLoop s.memory trace cur (List.range s.memoryFrames) (-1) (-1) none
  let f := r.1.toNat
  let s1 := releaseFrame s f
  let s2 := { s1 with memory := s1.memory.set f (some (pid, page)) }
  ((r.2, f), s2)

/-- FrameStatus::randomReplacement (global.cpp): evict frame rand() %
memoryFrames (the draw stream is explicit; memoryFrames = 0 would be a
division by zero in the C++), install the new pair, return the evicted
identity. -/
def randomReplacement (rands : Nat → Nat) (s : GState) (pid page : Nat) :
    (Option (Nat × Nat) × Nat) × GState :=
  let f := rands s.randIdx % s.memoryFrames
  let old := (s.memory[f]?).join
  let s1 := { s with randIdx := s.randIdx + 1 }
  let s2 := releaseFrame s1 f
  let s3 := { s2 with memory := s2.memory.set f (some (pid, page)) }
  ((old, f), s3)

/-- FrameStatus::updateLRU (global.cpp): move the frame to the back of the
LRU list. -/
def updateLRU (s : GState) (f : Nat) : GState :=
  { s with lruList := (s.lruList.filter (fun x => x ≠ f)) ++ [f] }

/-- The common tail of every eviction branch of handleAccess (global.cpp):
erase the displaced page from the displaced process's table and install the
new mapping.  When the evicted frame was free the C++ would index
page_tables[-1] (UB, unreachable on a full pool); the embedding skips the
erase there. -/
def applyEvict (s : GState) (pid page : Nat) (old : Option (Nat × Nat))
    (f : Nat) : GState :=
  let s1 :=
    match old with
    | some (opid, opg) => { s with pageTables := ptErase s.pageTables opid opg }
    | none => s
  { s1 with pageTables := ptInsert s1.pageTables pid page f }

/-- The fault-counting part of handleAccess (global.cpp): increment the
global counter and the counter of process pid. -/
def bump (pid : Nat) (s : GState) : GState :=
  { s with globalFaults := s.globalFaults + 1
           faultCounts := fun q =>
             if q = pid then s.faultCounts q + 1 else s.faultCounts q }

/-- The page-fault part of handleAccess (global.cpp), after the counters have
been incremented: allocate a free frame, or dispatch on the policy string to
evict one; an unrecognized policy string falls through all branches. -/
def missDispatch (policy : String) (rands : Nat → Nat) (trace : List Access)
    (cur : Nat) (pid page : Nat) (s : GState) : GState :=
  match G.allocateFrame s pid page with
  | (some f, s1) => { s1 with pageTables := ptInsert s1.pageTables pid page f }
  | (none, s1) =>
    if policy = "fifo" then
      let r := fifoReplacement s1 pid page
      applyEvict r.2 pid page r.1.1 r.1.2
    else if policy = "lru" then
      let r := lruReplacement s1 pid page
      applyEvict r.2 pid page r.1.1 r.1.2
    else if policy = "optimal" then
      let r := optimalReplacement s1 pid page trace cur
      applyEvict r.2 pid page r.1.1 r.1.2
    else if policy = "random" then
      let r := randomReplacement rands s1 pid page
      applyEvict r.2 pid page r.1.1 r.1.2
    else s1

/-- VirtualMemoryManager::handleAccess (global.cpp): on a hit only the LRU
order may change; on a miss both fault counters are incremented and the
fault is dispatched. -/
def handleAccess (policy : String) (rands : Nat → Nat) (trace : List Access)
    (cur : Nat) (pid page : Nat) (s : GState) : GState :=
  match s.pageTables pid page with
  | some f => if policy = "lru" then updateLRU s f else s
  | none => missDispatch policy rands trace cur pid page (bump pid s)

/-- The access loop of VirtualMemoryManager::runSimulation (global.cpp) over
the still-unprocessed suffix, where cur is the index of its head in the full
trace (passed to handleAccess for the optimal lookahead). -/
def runFrom (policy : String) (rands : Nat → Nat) (trace : List Access) :
    Nat → List Access → GState → GState
  | _, [], s => s
  | cur, a :: rest, s =>
    runFrom policy rands trace (cur + 1) rest
      (handleAccess policy rands trace cur a.1 a.2 s)

/-- The state after processing the first n accesses of the trace. -/
def runPrefix (policy : String) (rands : Nat → Nat) (nf : Nat)
    (trace : List Access) (n : Nat) : GState :=
  runFrom policy rands trace 0 (trace.take n) (init nf)

/-- VirtualMemoryManager::runSimulation (global.cpp): process the whole
trace from the initial state. -/
def runSimulation (policy : String) (rands : Nat → Nat) (nf : Nat)
    (trace : List Access) : GState :=
  runFrom policy rands trace 0 trace (init nf)

end G



/-- Pointwise update of a function at one index. -/
def upd {α : Type} (f : Nat → α) (i : Nat) (v : α) : Nat → α :=
  fun j => if j = i then v else f j

/-- State of the Local (statically partitioned) engine, local.cpp: per-process
partitions, cursors and LRU lists, with the same counters and page tables.
The err flag is an embedding-only marker set exactly where the C++ would
index a partition out of bounds or take a modulus by zero (both UB). -/
structure LState where
  memoryFramesPerProcess : Nat
  memory : Nat → List (Option (Nat × Nat))
  nextFrame : Nat → Nat
  lruList : Nat → List Nat
  pageTables : Nat → Nat → Option Nat
  faultCounts : Nat → Nat
  globalFaults : Nat
  randIdx : Nat
  err : Bool

namespace L

/-- Initial Local state: FrameStatus(nf, 4) gives each process a partition of
nf / 4 free frames (integer division; remainder frames are never created). -/
def init (nf : Nat) : LState :=
  { memoryFramesPerProcess := nf / 4
    memory := fun _ => List.replicate (nf / 4) none
    nextFrame := fun _ => 0
    lruList := fun _ => []
    pageTables := fun _ _ => none
    faultCounts := fun _ => 0
    globalFaults := 0
    randIdx := 0
    err := false }

/-- FrameStatus::allocateFrame (local.cpp): scan the partition of pid in
ascending index order for the first free frame; assign it and push it on the
LRU list of pid, else return -1 (none). -/
def allocateFrame (s : LState) (pid page : Nat) : Option Nat × LState :=
  match (List.range s.memoryFramesPerProcess).find?
      (fun i => decide ((s.memory pid)[i]? = some none)) with
  | some i =>
    (some i,
      { s with memory := upd s.memory pid ((s.memory pid).set i (some (pid, page)))
               lruList := upd s.lruList pid (s.lruList pid ++ [i]) })
  | none => (none, s)

/-- FrameStatus::releaseFrame (local.cpp): reset the frame of the partition
of pid to free and drop it from the LRU list of pid. -/
def releaseFrame (s : LState) (pid : Nat) (f : Nat) : LState :=
  { s with memory := upd s.memory pid ((s.memory pid).set f none)
           lruList := upd s.lruList pid ((s.lruList pid).filter (fun x => x ≠ f)) }

/-- FrameStatus::fifoReplacement (local.cpp): evict the frame at the cursor
of pid, advance that cursor modulo the partition size, install the new pair.
A cursor at or beyond the partition size would index out of bounds in the
C++ (in particular when the partition size is zero): the err flag records
that. -/
def fifoReplacement (s : LState) (pid page : Nat) :
    (Option (Nat × Nat) × Nat) × LState :=
  let f := s.nextFrame pid
  let old := ((s.memory pid)[f]?).join
  let s0 := { s with err := s.err || decide (s.memoryFramesPerProcess ≤ f) }
  let s1 := releaseFrame s0 pid f
  let s2 := { s1 with nextFrame := upd s1.nextFrame pid ((f + 1) % s1.memoryFramesPerProcess) }
  let s3 := { s2 with memory := upd s2.memory pid ((s2.memory pid).set f (some (pid, page))) }
  ((old, f), s3)

/-- FrameStatus::lruReplacement (local.cpp): evict the front of the LRU list
of pid, install the new pair there and push the frame to the back.  front()
of an empty list is UB in the C++: the err flag records that. -/
def lruReplacement (s : LState) (pid page : Nat) :
    (Option (Nat × Nat) × Nat) × LState :=
  match s.lruList pid with
  | [] => ((none, 0), { s with err := true })
  | f :: rest =>
    let old := ((s.memory pid)[f]?).join
    let s1 := { s with lruList := upd s.lruList pid rest }
    let s2 := releaseFrame s1 pid f
    let s3 := { s2 with memory := upd s2.memory pid ((s2.memory pid).set f (some (pid, page)))
                        lruList := upd s2.lruList pid (s2.lruList pid ++ [f]) }
    ((old, f), s3)

/-- FrameStatus::optimalReplacement (local.cpp): the same selection loop as
the Global engine, restricted to the partition of pid.  farthest_frame = -1
(possible only with an empty partition) would index out of bounds in the
C++: the err flag records that. -/
def optimalReplacement (s : LState) (pid page : Nat) (trace : List Access)
    (cur : Nat) : (Option (Nat × Nat) × Nat) × LState :=
  let r := G.optimalLoop (s.memory pid) trace cur
    (List.range s.memoryFramesPerProcess) (-1) (-1) none
  let f := r.1.toNat
  let s0 := { s with err := s.err || decide (r.1 < 0) }
  let s1 := releaseFrame s0 pid f
  let s2 := { s1 with memory := upd s1.memory pid ((s1.memory pid).set f (some (pid, page))) }
  ((r.2, f), s2)

/-- FrameStatus::randomReplacement (local.cpp): evict frame rand() %
memoryFramesPerProcess of the partition of pid.  A zero partition size is a
modulus by zero in the C++: the err flag records that. -/
def randomReplacement (rands : Nat → Nat) (s : LState) (pid page : Nat) :
    (Option (Nat × Nat) × Nat) × LState :=
  let f := rands s.randIdx % s.memoryFramesPerProcess
  let old := ((s.memory pid)[f]?).join
  let s0 := { s with randIdx := s.randIdx + 1
                     err := s.err || decide (s.memoryFramesPerProcess = 0) }
  let s1 := releaseFrame s0 pid f
  let s2 := { s1 with memory := upd s1.memory pid ((s1.memory pid).set f (some (pid, page))) }
  ((old, f), s2)

/-- The common tail of every eviction branch of handleAccess (local.cpp),
identical to the Global engine's. -/
def applyEvict (s : LState) (pid page : Nat) (old : Option (Nat × Nat))
    (f : Nat) : LState :=
  let s1 :=
    match old with
    | some (opid, opg) => { s with pageTables := ptErase s.pageTables opid opg }
    | none => s
  { s1 with pageTables := ptInsert s1.pageTables pid page f }

/-- The fault-counting part of handleAccess (local.cpp). -/
def bump (pid : Nat) (s : LState) : LState :=
  { s with globalFaults := s.globalFaults + 1
           faultCounts := fun q =>
             if q = pid then s.faultCounts q + 1 else s.faultCounts q }

/-- The page-fault part of handleAccess (local.cpp), after the counters have
been incremented. -/
def missDispatch (policy : String) (rands : Nat → Nat) (trace : List Access)
    (cur : Nat) (pid page : Nat) (s : LState) : LState :=
  match allocateFrame s pid page with
  | (some f, s1) => { s1 with pageTables := ptInsert s1.pageTables pid page f }
  | (none, s1) =>
    if policy = "fifo" then
      let r := fifoReplacement s1 pid page
      applyEvict r.2 pid page r.1.1 r.1.2
    else if policy = "lru" then
      let r := lruReplacement s1 pid page
      applyEvict r.2 pid page r.1.1 r.1.2
    else if policy = "optimal" then
      let r := optimalReplacement s1 pid page trace cur
      applyEvict r.2 pid page r.1.1 r.1.2
    else if policy = "random" then
      let r := randomReplacement rands s1 pid page
      applyEvict r.2 pid page r.1.1 r.1.2
    else s1

/-- VirtualMemoryManager::handleAccess (local.cpp): on a hit under lru the
frame is moved to the back of the LRU list of pid (inlined in the source);
on a miss both counters are incremented and the fault is dispatched. -/
def handleAccess (policy : String) (rands : Nat → Nat) (trace : List Access)
    (cur : Nat) (pid page : Nat) (s : LState) : LState :=
  match s.pageTables pid page with
  | some f =>
    if policy = "lru" then
      { s with lruList := upd s.lruList pid (((s.lruList pid).filter (fun x => x ≠ f)) ++ [f]) }
    else s
  | none => missDispatch policy rands trace cur pid page (bump pid s)

/-- The access loop of VirtualMemoryManager::runSimulation (local.cpp). -/
def runFrom (policy : String) (rands : Nat → Nat) (trace : List Access) :
    Nat → List Access → LState → LState
  | _, [], s => s
  | cur, a :: rest, s =>
    runFrom policy rands trace (cur + 1) rest
      (handleAccess policy rands trace cur a.1 a.2 s)

/-- The Local state after processing the first n accesses of the trace. -/
def runPrefix (policy : String) (rands : Nat → Nat) (nf : Nat)
    (trace : List Access) (n : Nat) : LState :=
  runFrom policy rands trace 0 (trace.take n) (init nf)

/-- VirtualMemoryManager::runSimulation (local.cpp). -/
def runSimulation (policy : String) (rands : Nat → Nat) (nf : Nat)
    (trace : List Access) : LState :=
  runFrom policy rands trace 0 trace (init nf)

end L

end VMM

namespace VMM

/-- Frame f of pool m is occupied (its pair has first ≠ -1 in the C++). -/
def isOcc (m : List (Option (Nat × Nat))) (f : Nat) : Prop :=
  ∃ pr, m[f]? = some (some pr)

/-- The occupancy bijection between the page tables and a frame pool:
process pid has page mapped to frame f exactly when frame f holds (pid, page). -/
def PoolBij (pts : Nat → Nat → Option Nat) (m : List (Option (Nat × Nat))) : Prop :=
  ∀ pid page f, pts pid page = some f ↔ m[f]? = some (some (pid, page))

/-- Reachable-state invariant of the Global engine for a run with policy
string policy and num_frames = nf. -/
structure GInv (policy : String) (nf : Nat) (s : GState) : Prop where
  frames : s.memoryFrames = nf
  len : s.memory.length = nf
  cursor : s.nextFrame < nf
  bij : PoolBij s.pageTables s.memory
  lru : policy = "lru" → ∀ f, f ∈ s.lruList ↔ isOcc s.memory f
  shape : (∀ f, f < nf → isOcc s.memory f) ∨ (∀ f, isOcc s.memory f ↔ f < s.nextFrame)

theorem ginv_init (policy : String) (nf : Nat) (hnf : 1 ≤ nf) :
    GInv policy nf (G.init nf) := by
  refine ⟨rfl, List.length_replicate .., hnf, ?_, ?_, Or.inr ?_⟩
  · intro pid page f
    simp only [G.init]
    constructor
    · intro h; cases h
    · intro h
      rcases lt_or_ge f nf with hf | hf
      · rw [List.getElem?_replicate, if_pos hf] at h; cases h
      · rw [List.getElem?_eq_none_iff.mpr (by simpa using hf)] at h; cases h
  · intro _ f
    simp only [G.init, List.not_mem_nil, false_iff, isOcc, not_exists]
    intro pr h
    rcases lt_or_ge f nf with hf | hf
    · rw [List.getElem?_replicate, if_pos hf] at h; cases h
    · rw [List.getElem?_eq_none_iff.mpr (by simpa using hf)] at h; cases h
  · intro f
    simp only [G.init, Nat.not_lt_zero, iff_false, isOcc, not_exists]
    intro pr h
    rcases lt_or_ge f nf with hf | hf
    · rw [List.getElem?_replicate, if_pos hf] at h; cases h
    · rw [List.getElem?_eq_none_iff.mpr (by simpa using hf)] at h; cases h

end VMM

namespace VMM

theorem isOcc_set_some (m : List (Option (Nat × Nat))) (v : Nat) (pr : Nat × Nat)
    (hv : v < m.length) (f : Nat) :
    isOcc (m.set v (some pr)) f ↔ f = v ∨ isOcc m f := by
  unfold isOcc
  rw [List.getElem?_set]
  rcases eq_or_ne v f with rfl | hne
  · simp [hv]
  · simp [hne, Ne.symm hne]

theorem isOcc_set_of_ne (m : List (Option (Nat × Nat))) (v : Nat)
    (x : Option (Nat × Nat)) (f : Nat) (hne : f ≠ v) :
    isOcc (m.set v x) f ↔ isOcc m f := by
  unfold isOcc
  rw [List.getElem?_set, if_neg (Ne.symm hne)]

end VMM

namespace VMM

theorem ptInsert_eq (pts : Nat → Nat → Option Nat) (pid page f q pg : Nat) :
    ptInsert pts pid page f q pg =
      if q = pid ∧ pg = page then some f else pts q pg := by
  unfold ptInsert
  by_cases hq : q = pid <;> by_cases hpg : pg = page <;> simp [hq, hpg]

theorem ptErase_eq (pts : Nat → Nat → Option Nat) (pid page q pg : Nat) :
    ptErase pts pid page q pg =
      if q = pid ∧ pg = page then none else pts q pg := by
  unfold ptErase
  by_cases hq : q = pid <;> by_cases hpg : pg = page <;> simp [hq, hpg]

theorem set_getElem? (m : List (Option (Nat × Nat))) (v : Nat)
    (x : Option (Nat × Nat)) (hv : v < m.length) (f : Nat) :
    (m.set v x)[f]? = if f = v then some x else m[f]? := by
  rw [List.getElem?_set]
  rcases eq_or_ne v f with rfl | hne
  · simp [hv]
  · simp [hne, Ne.symm hne]

/-- Installing a new pair into a free frame preserves the occupancy
bijection, provided the page was not already mapped. -/
theorem poolBij_install_free (pts : Nat → Nat → Option Nat)
    (m : List (Option (Nat × Nat))) (pid page v : Nat)
    (hb : PoolBij pts m) (hfree : m[v]? = some none)
    (hmiss : pts pid page = none) :
    PoolBij (ptInsert pts pid page v) (m.set v (some (pid, page))) := by
  have hvlen : v < m.length := by
    rcases List.getElem?_eq_some_iff.mp hfree with ⟨h, _⟩; exact h
  intro q pg f
  rw [ptInsert_eq, set_getElem? m v _ hvlen]
  split_ifs with h1 h2 h3
  · -- (q, pg) = (pid, page), f = v
    rcases h1 with ⟨rfl, rfl⟩
    subst h2
    simp
  · -- (q, pg) = (pid, page), f ≠ v
    rcases h1 with ⟨rfl, rfl⟩
    constructor
    · rintro ⟨rfl⟩; exact absurd rfl h2
    · intro h
      rw [← hb q pg f] at h
      rw [hmiss] at h; cases h
  · -- (q, pg) ≠ (pid, page), f = v
    subst h3
    rw [hb q pg f, hfree]
    constructor
    · intro h; cases h
    · rintro ⟨h⟩
      exact absurd ⟨rfl, rfl⟩ h1
  · -- (q, pg) ≠ (pid, page), f ≠ v
    exact hb q pg f

/-- Evicting the occupant of frame v, erasing its page-table entry and
installing a new pair there preserves the occupancy bijection. -/
theorem poolBij_install_evict (pts : Nat → Nat → Option Nat)
    (m : List (Option (Nat × Nat))) (pid page opid opg v : Nat)
    (hb : PoolBij pts m) (hv : m[v]? = some (some (opid, opg)))
    (hmiss : pts pid page = none) :
    PoolBij (ptInsert (ptErase pts opid opg) pid page v)
      (m.set v (some (pid, page))) := by
  have hvlen : v < m.length := by
    rcases List.getElem?_eq_some_iff.mp hv with ⟨h, _⟩; exact h
  have hold : pts opid opg = some v := (hb opid opg v).mpr hv
  intro q pg f
  rw [ptInsert_eq, ptErase_eq, set_getElem? m v _ hvlen]
  split_ifs with hA hB hC hD hE
  · -- (q, pg) = (pid, page), f = v
    rcases hA with ⟨rfl, rfl⟩; subst hB; simp
  · -- (q, pg) = (pid, page), f ≠ v
    rcases hA with ⟨rfl, rfl⟩
    constructor
    · rintro ⟨rfl⟩; exact absurd rfl hB
    · intro h
      rw [← hb q pg f] at h
      rw [hmiss] at h; cases h
  · -- (q, pg) = (opid, opg) ≠ (pid, page), f = v
    rcases hC with ⟨rfl, rfl⟩; subst hD
    constructor
    · intro h; cases h
    · rintro ⟨h⟩
      exact absurd ⟨rfl, rfl⟩ hA
  · -- (q, pg) = (opid, opg), f ≠ v
    rcases hC with ⟨rfl, rfl⟩
    constructor
    · intro h; cases h
    · intro h
      have := (hb q pg f).mpr h
      rw [hold] at this
      cases this
      exact absurd rfl hD
  · -- fresh (q, pg), f = v
    subst hE
    constructor
    · intro h
      have := (hb q pg f).mp h
      rw [hv] at this
      cases this
      exact absurd ⟨rfl, rfl⟩ hC
    · rintro ⟨h⟩
      exact absurd ⟨rfl, rfl⟩ hA
  · exact hb q pg f

end VMM

namespace VMM

namespace G

theorem handleAccess_hit {s : GState} {pid page f : Nat}
    (policy : String) (rands : Nat → Nat) (trace : List Access) (cur : Nat)
    (h : s.pageTables pid page = some f) :
    handleAccess policy rands trace cur pid page s =
      if policy = "lru" then updateLRU s f else s := by
  simp only [handleAccess, h]

theorem handleAccess_miss {s : GState} {pid page : Nat}
    (policy : String) (rands : Nat → Nat) (trace : List Access) (cur : Nat)
    (h : s.pageTables pid page = none) :
    handleAccess policy rands trace cur pid page s =
      missDispatch policy rands trace cur pid page (bump pid s) := by
  simp only [handleAccess, h]

theorem allocateFrame_fail {s : GState} {pid page : Nat}
    (h : ¬(s.memory[s.nextFrame]? = some none)) :
    allocateFrame s pid page = (none, s) := by
  unfold allocateFrame
  rw [if_neg h]

theorem allocateFrame_succ {s : GState} {pid page : Nat}
    (h : s.memory[s.nextFrame]? = some none) :
    allocateFrame s pid page =
      (some s.nextFrame,
        { s with memory := s.memory.set s.nextFrame (some (pid, page))
                 lruList := s.lruList ++ [s.nextFrame]
                 nextFrame := (s.nextFrame + 1) % s.memoryFrames }) := by
  unfold allocateFrame
  rw [if_pos h]

theorem missDispatch_free {s : GState} {pid page : Nat}
    (policy : String) (rands : Nat → Nat) (trace : List Access) (cur : Nat)
    (hfree : s.memory[s.nextFrame]? = some none) :
    missDispatch policy rands trace cur pid page s =
      { s with memory := s.memory.set s.nextFrame (some (pid, page))
               lruList := s.lruList ++ [s.nextFrame]
               nextFrame := (s.nextFrame + 1) % s.memoryFrames
               pageTables := ptInsert s.pageTables pid page s.nextFrame } := by
  unfold missDispatch
  rw [allocateFrame_succ hfree]

theorem missDispatch_full_fifo {s : GState} {pid page opid opg : Nat}
    (rands : Nat → Nat) (trace : List Access) (cur : Nat)
    (hocc : s.memory[s.nextFrame]? = some (some (opid, opg))) :
    missDispatch "fifo" rands trace cur pid page s =
      { s with memory := s.memory.set s.nextFrame (some (pid, page))
               lruList := s.lruList.filter (fun x => x ≠ s.nextFrame)
               nextFrame := (s.nextFrame + 1) % s.memoryFrames
               pageTables := ptInsert (ptErase s.pageTables opid opg) pid page s.nextFrame } := by
  have hne : ¬(s.memory[s.nextFrame]? = some none) := by rw [hocc]; simp
  unfold missDispatch
  rw [allocateFrame_fail hne]
  show (if ("fifo" : String) = "fifo" then _ else _) = _
  rw [if_pos rfl]
  simp only [fifoReplacement, releaseFrame, applyEvict]
  rw [hocc]
  simp only [Option.join, Option.bind, id_eq, List.set_set]

theorem missDispatch_full_lru {s : GState} {pid page opid opg f : Nat}
    {rest : List Nat}
    (rands : Nat → Nat) (trace : List Access) (cur : Nat)
    (hcur : ¬(s.memory[s.nextFrame]? = some none))
    (hlru : s.lruList = f :: rest)
    (hocc : s.memory[f]? = some (some (opid, opg))) :
    missDispatch "lru" rands trace cur pid page s =
      { s with memory := s.memory.set f (some (pid, page))
               lruList := (rest.filter (fun x => x ≠ f)) ++ [f]
               pageTables := ptInsert (ptErase s.pageTables opid opg) pid page f } := by
  unfold missDispatch
  rw [allocateFrame_fail hcur]
  show (if ("lru" : String) = "fifo" then _ else if ("lru" : String) = "lru" then _ else _) = _
  rw [if_neg (by decide), if_pos rfl]
  simp only [lruReplacement]
  rw [hlru]
  simp only [releaseFrame, applyEvict]
  rw [hocc]
  simp only [Option.join, Option.bind, id_eq, List.set_set]

theorem missDispatch_full_optimal {s : GState} {pid page opid opg : Nat} {vi : Int}
    (rands : Nat → Nat) (trace : List Access) (cur : Nat)
    (hcur : ¬(s.memory[s.nextFrame]? = some none))
    (hloop : optimalLoop s.memory trace cur (List.range s.memoryFrames) (-1) (-1) none =
      (vi, some (opid, opg))) :
    missDispatch "optimal" rands trace cur pid page s =
      { s with memory := s.memory.set vi.toNat (some (pid, page))
               lruList := s.lruList.filter (fun x => x ≠ vi.toNat)
               pageTables := ptInsert (ptErase s.pageTables opid opg) pid page vi.toNat } := by
  unfold missDispatch
  rw [allocateFrame_fail hcur]
  show (if ("optimal" : String) = "fifo" then _
    else if ("optimal" : String) = "lru" then _
    else if ("optimal" : String) = "optimal" then _ else _) = _
  rw [if_neg (by decide), if_neg (by decide), if_pos rfl]
  simp only [optimalReplacement]
  rw [hloop]
  simp only [releaseFrame, applyEvict, List.set_set]

theorem missDispatch_full_random {s : GState} {pid page opid opg : Nat}
    (rands : Nat → Nat) (trace : List Access) (cur : Nat)
    (hcur : ¬(s.memory[s.nextFrame]? = some none))
    (hocc : s.memory[rands s.randIdx % s.memoryFrames]? = some (some (opid, opg))) :
    missDispatch "random" rands trace cur pid page s =
      { s with memory := s.memory.set (rands s.randIdx % s.memoryFrames) (some (pid, page))
               lruList := s.lruList.filter (fun x => x ≠ rands s.randIdx % s.memoryFrames)
               randIdx := s.randIdx + 1
               pageTables := ptInsert (ptErase s.pageTables opid opg) pid page
                 (rands s.randIdx % s.memoryFrames) } := by
  unfold missDispatch
  rw [allocateFrame_fail hcur]
  show (if ("random" : String) = "fifo" then _
    else if ("random" : String) = "lru" then _
    else if ("random" : String) = "optimal" then _
    else if ("random" : String) = "random" then _ else _) = _
  rw [if_neg (by decide), if_neg (by decide), if_neg (by decide), if_pos rfl]
  simp only [randomReplacement, releaseFrame, applyEvict]
  rw [hocc]
  simp only [Option.join, Option.bind, id_eq, List.set_set]

theorem missDispatch_full_other {s : GState} {pid page : Nat}
    (policy : String) (rands : Nat → Nat) (trace : List Access) (cur : Nat)
    (hcur : ¬(s.memory[s.nextFrame]? = some none))
    (h1 : policy ≠ "fifo") (h2 : policy ≠ "lru") (h3 : policy ≠ "optimal")
    (h4 : policy ≠ "random") :
    missDispatch policy rands trace cur pid page s = s := by
  unfold missDispatch
  rw [allocateFrame_fail hcur]
  show (if policy = "fifo" then _
    else if policy = "lru" then _
    else if policy = "optimal" then _
    else if policy = "random" then _ else _) = _
  rw [if_neg h1, if_neg h2, if_neg h3, if_neg h4]

end G

end VMM

namespace VMM

namespace G

/-- The selection loop either returns one of the scanned frames together
with its occupant, or falls through returning the accumulator unchanged. -/
theorem optimalLoop_res (mem : List (Option (Nat × Nat))) (trace : List Access)
    (cur : Nat) (l : List Nat) :
    ∀ (fi ff : Int) (old : Option (Nat × Nat)),
      (∃ i ∈ l, (optimalLoop mem trace cur l fi ff old).1 = (i : Int) ∧
        occAt mem i = (optimalLoop mem trace cur l fi ff old).2) ∨
      optimalLoop mem trace cur l fi ff old = (ff, old) := by
  induction l with
  | nil => intro fi ff old; exact Or.inr rfl
  | cons i rest ih =>
    intro fi ff old
    rcases hj : occAt mem i with _ | pr
    · exact Or.inl ⟨i, by simp, by simp [optimalLoop, hj], by simp [optimalLoop, hj]⟩
    · rcases hn : nextUseIdx trace cur pr with _ | j
      · exact Or.inl ⟨i, by simp, by simp [optimalLoop, hj, hn],
          by simp [optimalLoop, hj, hn]⟩
      · by_cases hfi : fi < (j : Int)
        · have hstep : optimalLoop mem trace cur (i :: rest) fi ff old =
              optimalLoop mem trace cur rest (j : Int) (i : Int) (some pr) := by
            simp [optimalLoop, hj, hn, hfi]
          rcases ih (j : Int) (i : Int) (some pr) with ⟨i2, hi2, h1, h2⟩ | heq
          · exact Or.inl ⟨i2, by simp [hi2], by rw [hstep]; exact h1,
              by rw [hstep]; exact h2⟩
          · exact Or.inl ⟨i, by simp, by rw [hstep, heq], by rw [hstep, heq]; exact hj⟩
        · have hstep : optimalLoop mem trace cur (i :: rest) fi ff old =
              optimalLoop mem trace cur rest fi ff old := by
            simp [optimalLoop, hj, hn, hfi]
          rcases ih fi ff old with ⟨i2, hi2, h1, h2⟩ | heq
          · exact Or.inl ⟨i2, by simp [hi2], by rw [hstep]; exact h1,
              by rw [hstep]; exact h2⟩
          · exact Or.inr (by rw [hstep, heq])

/-- On a nonempty frame list and the initial accumulator (-1, -1, none),
the selection loop always returns a scanned frame and its occupant. -/
theorem optimalLoop_init (mem : List (Option (Nat × Nat))) (trace : List Access)
    (cur : Nat) (i : Nat) (rest : List Nat) :
    ∃ v ∈ i :: rest,
      (optimalLoop mem trace cur (i :: rest) (-1) (-1) none).1 = (v : Int) ∧
      occAt mem v = (optimalLoop mem trace cur (i :: rest) (-1) (-1) none).2 := by
  rcases hj : occAt mem i with _ | pr
  · exact ⟨i, by simp, by simp [optimalLoop, hj], by simp [optimalLoop, hj]⟩
  · rcases hn : nextUseIdx trace cur pr with _ | j
    · exact ⟨i, by simp, by simp [optimalLoop, hj, hn], by simp [optimalLoop, hj, hn]⟩
    · have hfi : (-1 : Int) < (j : Int) := by
        have : (0 : Int) ≤ (j : Int) := Int.natCast_nonneg j
        omega
      have hstep : optimalLoop mem trace cur (i :: rest) (-1) (-1) none =
          optimalLoop mem trace cur rest (j : Int) (i : Int) (some pr) := by
        simp [optimalLoop, hj, hn, hfi]
      rcases optimalLoop_res mem trace cur rest (j : Int) (i : Int) (some pr) with
        ⟨i2, hi2, h1, h2⟩ | heq
      · exact ⟨i2, by simp [hi2], by rw [hstep]; exact h1, by rw [hstep]; exact h2⟩
      · exact ⟨i, by simp, by rw [hstep, heq], by rw [hstep, heq]; exact hj⟩

end G

end VMM

namespace VMM

theorem ginv_bump {policy : String} {nf : Nat} {s : GState} (pid : Nat)
    (h : GInv policy nf s) : GInv policy nf (G.bump pid s) :=
  ⟨h.frames, h.len, h.cursor, h.bij, h.lru, h.shape⟩

/-- In a reachable state whose cursor frame is not free, the whole pool is
occupied. -/
theorem full_of_not_free {policy : String} {nf : Nat} {s : GState}
    (h : GInv policy nf s)
    (hcur : ¬(s.memory[s.nextFrame]? = some none)) :
    ∀ f, f < nf → isOcc s.memory f := by
  have hlt : s.nextFrame < s.memory.length := by rw [h.len]; exact h.cursor
  rcases h.shape with hall | hiff
  · exact hall
  · exfalso
    rcases List.getElem?_eq_some_iff.mpr ⟨hlt, rfl⟩ with hsome
    rcases hx : s.memory[s.nextFrame]? with _ | x
    · rw [List.getElem?_eq_none_iff] at hx; omega
    · rcases x with _ | pr
      · exact hcur hx
      · have : isOcc s.memory s.nextFrame := ⟨pr, hx⟩
        rw [hiff] at this
        omega

theorem ginv_handleAccess {policy : String} {nf : Nat} {s : GState}
    (h : GInv policy nf s) (hnf : 1 ≤ nf)
    (rands : Nat → Nat) (trace : List Access) (cur pid page : Nat) :
    GInv policy nf (G.handleAccess policy rands trace cur pid page s) := by
  rcases hPT : s.pageTables pid page with _ | f
  · -- miss
    rw [G.handleAccess_miss policy rands trace cur hPT]
    have h0 : GInv policy nf (G.bump pid s) := ginv_bump pid h
    have hPT0 : (G.bump pid s).pageTables pid page = none := hPT
    generalize hs0 : G.bump pid s = s0 at h0 hPT0
    clear hs0 hPT h s
    by_cases hfree : s0.memory[s0.nextFrame]? = some none
    · -- free frame granted at the cursor
      rw [G.missDispatch_free policy rands trace cur hfree]
      have hclen : s0.nextFrame < s0.memory.length := by
        rw [h0.len]; exact h0.cursor
      have hF := h0.frames
      refine ⟨h0.frames, by simp [h0.len], ?_, ?_, ?_, ?_⟩
      · show (s0.nextFrame + 1) % s0.memoryFrames < nf
        rw [hF]
        exact Nat.mod_lt _ (by omega)
      · exact poolBij_install_free _ _ _ _ _ h0.bij hfree hPT0
      · intro hpol x
        rw [isOcc_set_some _ _ _ hclen]
        simp only [List.mem_append, List.mem_singleton]
        rw [h0.lru hpol x]
        tauto
      · have hshape : ∀ f, isOcc s0.memory f ↔ f < s0.nextFrame := by
          rcases h0.shape with hall | hiff
          · exfalso
            rcases hall s0.nextFrame h0.cursor with ⟨pr, hpr⟩
            rw [hfree] at hpr; cases hpr
          · exact hiff
        by_cases hc : s0.nextFrame + 1 = nf
        · left
          intro f hf
          rw [isOcc_set_some _ _ _ hclen, hshape]
          omega
        · right
          intro f
          rw [isOcc_set_some _ _ _ hclen, hshape]
          show _ ↔ f < (s0.nextFrame + 1) % s0.memoryFrames
          have hlt : s0.nextFrame + 1 < s0.memoryFrames := by
            have := h0.cursor
            omega
          rw [Nat.mod_eq_of_lt hlt]
          omega
    · -- pool full: an eviction (or nothing, for unknown policies) happens
      have hfull : ∀ f, f < nf → isOcc s0.memory f := full_of_not_free h0 hfree
      by_cases hp1 : policy = "fifo"
      · subst hp1
        rcases hfull s0.nextFrame h0.cursor with ⟨⟨opid, opg⟩, hocc⟩
        rw [G.missDispatch_full_fifo rands trace cur hocc]
        have hclen : s0.nextFrame < s0.memory.length := by rw [h0.len]; exact h0.cursor
        refine ⟨h0.frames, by simp [h0.len], ?_, ?_, ?_, ?_⟩
        · show (s0.nextFrame + 1) % s0.memoryFrames < nf
          rw [h0.frames]
          exact Nat.mod_lt _ (by omega)
        · exact poolBij_install_evict _ _ _ _ _ _ _ h0.bij hocc hPT0
        · intro hpol; exact absurd hpol (by decide)
        · left
          intro f hf
          rw [isOcc_set_some _ _ _ hclen]
          rcases eq_or_ne f s0.nextFrame with rfl | hne
          · left; rfl
          · right; exact hfull f hf
      · by_cases hp2 : policy = "lru"
        · subst hp2
          have hl := h0.lru rfl
          rcases hlist : s0.lruList with _ | ⟨f, rest⟩
          · exfalso
            have h00 : isOcc s0.memory 0 := hfull 0 (by omega)
            rw [← hl 0, hlist] at h00
            cases h00
          · have hfmem : f ∈ s0.lruList := by rw [hlist]; exact List.mem_cons_self ..
            rcases (hl f).mp hfmem with ⟨⟨opid, opg⟩, hocc⟩
            rw [G.missDispatch_full_lru rands trace cur hfree hlist hocc]
            have hflen : f < s0.memory.length := by
              rcases List.getElem?_eq_some_iff.mp hocc with ⟨hh, _⟩; exact hh
            refine ⟨h0.frames, by simp [h0.len], h0.cursor, ?_, ?_, ?_⟩
            · exact poolBij_install_evict _ _ _ _ _ _ _ h0.bij hocc hPT0
            · intro _ x
              rw [isOcc_set_some _ _ _ hflen]
              simp only [List.mem_append, List.mem_singleton, List.mem_filter,
                decide_eq_true_eq]
              rw [← hl x, hlist]
              simp only [List.mem_cons]
              by_cases hxf : x = f <;> simp [hxf]
            · left
              intro x hx
              rw [isOcc_set_some _ _ _ hflen]
              rcases eq_or_ne x f with rfl | hne
              · left; rfl
              · right; exact hfull x hx
        · by_cases hp3 : policy = "optimal"
          · subst hp3
            have hrange : List.range s0.memoryFrames ≠ [] := by
              have := hnf
              rw [← h0.frames] at this
              simp only [ne_eq, List.range_eq_nil]
              omega
            rcases hrl : List.range s0.memoryFrames with _ | ⟨i0, irest⟩
            · exact absurd hrl hrange
            rcases G.optimalLoop_init s0.memory trace cur i0 irest with ⟨v, hv, hres1, hres2⟩
            have hvlt : v < nf := by
              have : v ∈ List.range s0.memoryFrames := by rw [hrl]; exact hv
              rw [List.mem_range, h0.frames] at this
              exact this
            rcases hfull v hvlt with ⟨⟨opid, opg⟩, hocc⟩
            have hocc2 : occAt s0.memory v = some (opid, opg) := by
              unfold occAt
              rw [hocc]; rfl
            have hloop : G.optimalLoop s0.memory trace cur (List.range s0.memoryFrames)
                (-1) (-1) none = ((v : Int), some (opid, opg)) := by
              rw [hrl]
              have := hres2
              rw [hocc2] at this
              exact Prod.ext hres1 this.symm
            rw [G.missDispatch_full_optimal rands trace cur hfree hloop]
            have htn : ((v : Int)).toNat = v := Int.toNat_natCast v
            have hvlen : v < s0.memory.length := by rw [h0.len]; exact hvlt
            refine ⟨h0.frames, by simp [h0.len], h0.cursor, ?_, ?_, ?_⟩
            · rw [htn]
              exact poolBij_install_evict _ _ _ _ _ _ _ h0.bij hocc hPT0
            · intro hpol; exact absurd hpol (by decide)
            · left
              intro x hx
              rw [htn, isOcc_set_some _ _ _ hvlen]
              rcases eq_or_ne x v with rfl | hne
              · left; rfl
              · right; exact hfull x hx
          · by_cases hp4 : policy = "random"
            · subst hp4
              have hvlt : rands s0.randIdx % s0.memoryFrames < nf := by
                rw [h0.frames] at *
                exact Nat.mod_lt _ (by omega)
              rcases hfull _ hvlt with ⟨⟨opid, opg⟩, hocc⟩
              rw [G.missDispatch_full_random rands trace cur hfree hocc]
              have hvlen : rands s0.randIdx % s0.memoryFrames < s0.memory.length := by
                rw [h0.len]; exact hvlt
              refine ⟨h0.frames, by simp [h0.len], h0.cursor, ?_, ?_, ?_⟩
              · exact poolBij_install_evict _ _ _ _ _ _ _ h0.bij hocc hPT0
              · intro hpol; exact absurd hpol (by decide)
              · left
                intro x hx
                rw [isOcc_set_some _ _ _ hvlen]
                rcases eq_or_ne x (rands s0.randIdx % s0.memoryFrames) with rfl | hne
                · left; rfl
                · right; exact hfull x hx
            · rw [G.missDispatch_full_other policy rands trace cur hfree hp1 hp2 hp3 hp4]
              exact h0
  · -- hit
    rw [G.handleAccess_hit policy rands trace cur hPT]
    by_cases hpol : policy = "lru"
    · rw [if_pos hpol]
      have hfocc : isOcc s.memory f := ⟨(pid, page), (h.bij pid page f).mp hPT⟩
      refine ⟨h.frames, h.len, h.cursor, h.bij, ?_, h.shape⟩
      intro hpol2 x
      simp only [G.updateLRU, List.mem_append, List.mem_singleton, List.mem_filter,
        decide_eq_true_eq]
      rw [← h.lru hpol2 x]
      by_cases hxf : x = f
      · subst hxf
        simp [(h.lru hpol2 x).mpr hfocc]
      · simp [hxf]
    · rw [if_neg hpol]
      exact h

end VMM

namespace VMM

@[simp] theorem upd_self {α : Type} (f : Nat → α) (i : Nat) (v : α) :
    upd f i v i = v := by
  simp [upd]

@[simp] theorem upd_ne {α : Type} (f : Nat → α) (i : Nat) (v : α) (j : Nat)
    (h : j ≠ i) : upd f i v j = f j := by
  simp [upd, h]

theorem upd_upd_same {α : Type} (f : Nat → α) (i : Nat) (a b : α) :
    upd (upd f i a) i b = upd f i b := by
  funext j
  unfold upd
  by_cases h : j = i <;> simp [h]

namespace L

theorem l_handleAccess_hit {s : LState} {pid page f : Nat}
    (policy : String) (rands : Nat → Nat) (trace : List Access) (cur : Nat)
    (h : s.pageTables pid page = some f) :
    handleAccess policy rands trace cur pid page s =
      if policy = "lru" then
        { s with lruList := upd s.lruList pid (((s.lruList pid).filter (fun x => x ≠ f)) ++ [f]) }
      else s := by
  simp only [handleAccess, h]

theorem l_handleAccess_miss {s : LState} {pid page : Nat}
    (policy : String) (rands : Nat → Nat) (trace : List Access) (cur : Nat)
    (h : s.pageTables pid page = none) :
    handleAccess policy rands trace cur pid page s =
      missDispatch policy rands trace cur pid page (bump pid s) := by
  simp only [handleAccess, h]

theorem l_allocateFrame_succ {s : LState} {pid page i : Nat}
    (h : (List.range s.memoryFramesPerProcess).find?
      (fun i => decide ((s.memory pid)[i]? = some none)) = some i) :
    allocateFrame s pid page =
      (some i,
        { s with memory := upd s.memory pid ((s.memory pid).set i (some (pid, page)))
                 lruList := upd s.lruList pid (s.lruList pid ++ [i]) }) := by
  unfold allocateFrame
  rw [h]

theorem l_allocateFrame_fail {s : LState} {pid page : Nat}
    (h : (List.range s.memoryFramesPerProcess).find?
      (fun i => decide ((s.memory pid)[i]? = some none)) = none) :
    allocateFrame s pid page = (none, s) := by
  unfold allocateFrame
  rw [h]

theorem l_missDispatch_free {s : LState} {pid page i : Nat}
    (policy : String) (rands : Nat → Nat) (trace : List Access) (cur : Nat)
    (h : (List.range s.memoryFramesPerProcess).find?
      (fun i => decide ((s.memory pid)[i]? = some none)) = some i) :
    missDispatch policy rands trace cur pid page s =
      { s with memory := upd s.memory pid ((s.memory pid).set i (some (pid, page)))
               lruList := upd s.lruList pid (s.lruList pid ++ [i])
               pageTables := ptInsert s.pageTables pid page i } := by
  unfold missDispatch
  rw [l_allocateFrame_succ h]

theorem l_missDispatch_full_fifo {s : LState} {pid page opid opg : Nat}
    (rands : Nat → Nat) (trace : List Access) (cur : Nat)
    (hfind : (List.range s.memoryFramesPerProcess).find?
      (fun i => decide ((s.memory pid)[i]? = some none)) = none)
    (hocc : (s.memory pid)[s.nextFrame pid]? = some (some (opid, opg))) :
    missDispatch "fifo" rands trace cur pid page s =
      { s with memory := upd s.memory pid
                 ((s.memory pid).set (s.nextFrame pid) (some (pid, page)))
               lruList := upd s.lruList pid
                 ((s.lruList pid).filter (fun x => x ≠ s.nextFrame pid))
               nextFrame := upd s.nextFrame pid
                 ((s.nextFrame pid + 1) % s.memoryFramesPerProcess)
               err := s.err || decide (s.memoryFramesPerProcess ≤ s.nextFrame pid)
               pageTables := ptInsert (ptErase s.pageTables opid opg) pid page
                 (s.nextFrame pid) } := by
  unfold missDispatch
  rw [l_allocateFrame_fail hfind]
  show (if ("fifo" : String) = "fifo" then _ else _) = _
  rw [if_pos rfl]
  simp only [fifoReplacement, releaseFrame, applyEvict]
  rw [hocc]
  simp only [Option.join, Option.bind, id_eq, List.set_set, upd_self, upd_upd_same]

theorem l_missDispatch_full_lru {s : LState} {pid page opid opg f : Nat}
    {rest : List Nat}
    (rands : Nat → Nat) (trace : List Access) (cur : Nat)
    (hfind : (List.range s.memoryFramesPerProcess).find?
      (fun i => decide ((s.memory pid)[i]? = some none)) = none)
    (hlru : s.lruList pid = f :: rest)
    (hocc : (s.memory pid)[f]? = some (some (opid, opg))) :
    missDispatch "lru" rands trace cur pid page s =
      { s with memory := upd s.memory pid ((s.memory pid).set f (some (pid, page)))
               lruList := upd s.lruList pid ((rest.filter (fun x => x ≠ f)) ++ [f])
               pageTables := ptInsert (ptErase s.pageTables opid opg) pid page f } := by
  unfold missDispatch
  rw [l_allocateFrame_fail hfind]
  show (if ("lru" : String) = "fifo" then _ else if ("lru" : String) = "lru" then _ else _) = _
  rw [if_neg (by decide), if_pos rfl]
  simp only [lruReplacement]
  rw [hlru]
  simp only [releaseFrame, applyEvict]
  rw [hocc]
  simp only [Option.join, Option.bind, id_eq, List.set_set, upd_self, upd_upd_same]

theorem l_missDispatch_full_optimal {s : LState} {pid page opid opg : Nat} {vi : Int}
    (rands : Nat → Nat) (trace : List Access) (cur : Nat)
    (hfind : (List.range s.memoryFramesPerProcess).find?
      (fun i => decide ((s.memory pid)[i]? = some none)) = none)
    (hloop : G.optimalLoop (s.memory pid) trace cur
      (List.range s.memoryFramesPerProcess) (-1) (-1) none = (vi, some (opid, opg))) :
    missDispatch "optimal" rands trace cur pid page s =
      { s with memory := upd s.memory pid
                 ((s.memory pid).set vi.toNat (some (pid, page)))
               lruList := upd s.lruList pid
                 ((s.lruList pid).filter (fun x => x ≠ vi.toNat))
               err := s.err || decide (vi < 0)
               pageTables := ptInsert (ptErase s.pageTables opid opg) pid page vi.toNat } := by
  unfold missDispatch
  rw [l_allocateFrame_fail hfind]
  show (if ("optimal" : String) = "fifo" then _
    else if ("optimal" : String) = "lru" then _
    else if ("optimal" : String) = "optimal" then _ else _) = _
  rw [if_neg (by decide), if_neg (by decide), if_pos rfl]
  simp only [optimalReplacement]
  rw [hloop]
  simp only [releaseFrame, applyEvict, List.set_set, upd_self, upd_upd_same]

theorem l_missDispatch_full_random {s : LState} {pid page opid opg : Nat}
    (rands : Nat → Nat) (trace : List Access) (cur : Nat)
    (hfind : (List.range s.memoryFramesPerProcess).find?
      (fun i => decide ((s.memory pid)[i]? = some none)) = none)
    (hocc : (s.memory pid)[rands s.randIdx % s.memoryFramesPerProcess]? =
      some (some (opid, opg))) :
    missDispatch "random" rands trace cur pid page s =
      { s with memory := upd s.memory pid
                 ((s.memory pid).set (rands s.randIdx % s.memoryFramesPerProcess)
                   (some (pid, page)))
               lruList := upd s.lruList pid
                 ((s.lruList pid).filter
                   (fun x => x ≠ rands s.randIdx % s.memoryFramesPerProcess))
               randIdx := s.randIdx + 1
               err := s.err || decide (s.memoryFramesPerProcess = 0)
               pageTables := ptInsert (ptErase s.pageTables opid opg) pid page
                 (rands s.randIdx % s.memoryFramesPerProcess) } := by
  unfold missDispatch
  rw [l_allocateFrame_fail hfind]
  show (if ("random" : String) = "fifo" then _
    else if ("random" : String) = "lru" then _
    else if ("random" : String) = "optimal" then _
    else if ("random" : String) = "random" then _ else _) = _
  rw [if_neg (by decide), if_neg (by decide), if_neg (by decide), if_pos rfl]
  simp only [randomReplacement, releaseFrame, applyEvict]
  rw [hocc]
  simp only [Option.join, Option.bind, id_eq, List.set_set, upd_self, upd_upd_same]

theorem l_missDispatch_full_other {s : LState} {pid page : Nat}
    (policy : String) (rands : Nat → Nat) (trace : List Access) (cur : Nat)
    (hfind : (List.range s.memoryFramesPerProcess).find?
      (fun i => decide ((s.memory pid)[i]? = some none)) = none)
    (h1 : policy ≠ "fifo") (h2 : policy ≠ "lru") (h3 : policy ≠ "optimal")
    (h4 : policy ≠ "random") :
    missDispatch policy rands trace cur pid page s = s := by
  unfold missDispatch
  rw [l_allocateFrame_fail hfind]
  show (if policy = "fifo" then _
    else if policy = "lru" then _
    else if policy = "optimal" then _
    else if policy = "random" then _ else _) = _
  rw [if_neg h1, if_neg h2, if_neg h3, if_neg h4]

end L

end VMM

namespace VMM

/-- The scan of the Local allocateFrame returns the first index of the range
satisfying the predicate: it holds there, is in range, and fails below. -/
theorem find_range_spec :
    ∀ (n : Nat) (p : Nat → Bool) (i : Nat), (List.range n).find? p = some i →
      p i = true ∧ i < n ∧ ∀ j, j < i → p j = false := by
  intro n
  induction n with
  | zero =>
    intro p i h
    rw [List.range_zero] at h
    cases h
  | succ n ih =>
    intro p i h
    rw [List.range_succ_eq_map] at h
    rw [List.find?_cons] at h
    rcases hp0 : p 0 with _ | _
    · rw [hp0] at h
      simp only [List.find?_map] at h
      rcases hfind : (List.range n).find? (p ∘ Nat.succ) with _ | i2
      · rw [hfind] at h; cases h
      · rw [hfind] at h
        simp only [Option.map_some, Option.map_some'] at h
        cases h
        rcases ih (p ∘ Nat.succ) i2 hfind with ⟨hp, hlt, hbelow⟩
        refine ⟨hp, by omega, ?_⟩
        intro j hj
        rcases j with _ | j2
        · exact hp0
        · exact hbelow j2 (by omega)
    · rw [hp0] at h
      cases h
      exact ⟨hp0, by omega, by omega⟩

end VMM

namespace VMM

/-- The occupancy bijection of the partitioned engine: process pid has page
mapped to partition-relative frame f exactly when frame f of the partition
of pid holds (pid, page). -/
def LPoolBij (pts : Nat → Nat → Option Nat)
    (mem : Nat → List (Option (Nat × Nat))) : Prop :=
  ∀ pid page f, pts pid page = some f ↔ (mem pid)[f]? = some (some (pid, page))

theorem lpoolBij_install_free (pts : Nat → Nat → Option Nat)
    (mem : Nat → List (Option (Nat × Nat))) (pid page v : Nat)
    (hb : LPoolBij pts mem) (hfree : (mem pid)[v]? = some none)
    (hmiss : pts pid page = none) :
    LPoolBij (ptInsert pts pid page v)
      (upd mem pid ((mem pid).set v (some (pid, page)))) := by
  have hvlen : v < (mem pid).length := by
    rcases List.getElem?_eq_some_iff.mp hfree with ⟨h, _⟩; exact h
  intro q pg f
  by_cases hq : q = pid
  · subst hq
    rw [ptInsert_eq, upd_self, set_getElem? (mem q) v _ hvlen]
    split_ifs with h1 h2 h3
    · rcases h1 with ⟨-, rfl⟩
      subst h2
      simp
    · rcases h1 with ⟨-, rfl⟩
      constructor
      · rintro ⟨rfl⟩; exact absurd rfl h2
      · intro h
        rw [← hb q pg f] at h
        rw [hmiss] at h; cases h
    · rw [h3, hb q pg v, hfree]
      constructor
      · intro h; cases h
      · rintro ⟨h⟩
        exact absurd ⟨rfl, rfl⟩ h1
    · exact hb q pg f
  · rw [ptInsert_eq, if_neg (by tauto), upd_ne _ _ _ _ hq]
    exact hb q pg f

theorem lpoolBij_install_evict (pts : Nat → Nat → Option Nat)
    (mem : Nat → List (Option (Nat × Nat))) (pid page opg v : Nat)
    (hb : LPoolBij pts mem) (hv : (mem pid)[v]? = some (some (pid, opg)))
    (hmiss : pts pid page = none) :
    LPoolBij (ptInsert (ptErase pts pid opg) pid page v)
      (upd mem pid ((mem pid).set v (some (pid, page)))) := by
  have hvlen : v < (mem pid).length := by
    rcases List.getElem?_eq_some_iff.mp hv with ⟨h, _⟩; exact h
  have hold : pts pid opg = some v := (hb pid opg v).mpr hv
  have holdne : opg ≠ page := by
    rintro rfl
    rw [hmiss] at hold; cases hold
  intro q pg f
  by_cases hq : q = pid
  · subst hq
    rw [ptInsert_eq, ptErase_eq, upd_self, set_getElem? (mem q) v _ hvlen]
    split_ifs with hA hB hC hD hE
    · rcases hA with ⟨-, rfl⟩; subst hB; simp
    · rcases hA with ⟨-, rfl⟩
      constructor
      · rintro ⟨rfl⟩; exact absurd rfl hB
      · intro h
        rw [← hb q pg f] at h
        rw [hmiss] at h; cases h
    · rcases hC with ⟨-, rfl⟩; subst hD
      constructor
      · intro h; cases h
      · rintro ⟨h⟩
        exact absurd ⟨rfl, rfl⟩ hA
    · rcases hC with ⟨-, rfl⟩
      constructor
      · intro h; cases h
      · intro h
        have := (hb q pg f).mpr h
        rw [hold] at this
        cases this
        exact absurd rfl hD
    · subst hE
      constructor
      · intro h
        have := (hb q pg f).mp h
        rw [hv] at this
        cases this
        exact absurd ⟨rfl, rfl⟩ hC
      · rintro ⟨h⟩
        exact absurd ⟨rfl, rfl⟩ hA
    · exact hb q pg f
  · rw [ptInsert_eq, if_neg (by tauto), ptErase_eq, if_neg (by tauto),
      upd_ne _ _ _ _ hq]
    exact hb q pg f

end VMM

namespace VMM

/-- Reachable-state invariant of the Local engine for a run with policy
string policy and num_frames = nf (partition size nf / 4). -/
structure LInv (policy : String) (nf : Nat) (s : LState) : Prop where
  mfpp : s.memoryFramesPerProcess = nf / 4
  len : ∀ pid, (s.memory pid).length = nf / 4
  cursor : ∀ pid, s.nextFrame pid < nf / 4
  cursor0 : ∀ pid, s.nextFrame pid ≠ 0 → ∀ i, i < nf / 4 → isOcc (s.memory pid) i
  bij : LPoolBij s.pageTables s.memory
  owner : ∀ (pid f : Nat) (pr : Nat × Nat), (s.memory pid)[f]? = some (some pr) → pr.1 = pid
  lru : policy = "lru" → ∀ pid f, f ∈ s.lruList pid ↔ isOcc (s.memory pid) f
  down : ∀ pid i j, i ≤ j → isOcc (s.memory pid) j → isOcc (s.memory pid) i
  errF : s.err = false

theorem replicate_not_occ (n f : Nat) :
    ¬ isOcc (List.replicate n (none : Option (Nat × Nat))) f := by
  rintro ⟨pr, hpr⟩
  rcases lt_or_ge f n with hf | hf
  · rw [List.getElem?_replicate, if_pos hf] at hpr; cases hpr
  · rw [List.getElem?_eq_none_iff.mpr (by simpa using hf)] at hpr; cases hpr

theorem linv_init (policy : String) (nf : Nat) (hnf : 4 ≤ nf) :
    LInv policy nf (L.init nf) := by
  have hq : 1 ≤ nf / 4 := (Nat.one_le_div_iff (by omega)).mpr hnf
  refine ⟨rfl, fun _ => List.length_replicate .., fun _ => hq, ?_, ?_, ?_, ?_, ?_, rfl⟩
  · intro pid hne
    exact absurd rfl hne
  · intro pid page f
    constructor
    · intro h; cases h
    · intro h
      exact absurd ⟨_, h⟩ (replicate_not_occ _ _)
  · intro pid f pr h
    exact absurd ⟨pr, h⟩ (replicate_not_occ _ _)
  · intro _ pid f
    simp only [L.init, List.not_mem_nil, false_iff]
    exact replicate_not_occ _ _
  · intro pid i j _ h
    exact absurd h (replicate_not_occ _ _)

theorem linv_bump {policy : String} {nf : Nat} {s : LState} (pid : Nat)
    (h : LInv policy nf s) : LInv policy nf (L.bump pid s) :=
  ⟨h.mfpp, h.len, h.cursor, h.cursor0, h.bij, h.owner, h.lru, h.down, h.errF⟩

/-- When the partition scan finds no free frame, the partition is full. -/
theorem lfull_of_find_none {policy : String} {nf : Nat} {s : LState}
    (h : LInv policy nf s) (pid : Nat)
    (hfind : (List.range s.memoryFramesPerProcess).find?
      (fun i => decide ((s.memory pid)[i]? = some none)) = none) :
    ∀ i, i < nf / 4 → isOcc (s.memory pid) i := by
  intro i hi
  have hmem : i ∈ List.range s.memoryFramesPerProcess := by
    rw [List.mem_range, h.mfpp]; exact hi
  have hnf := List.find?_eq_none.mp hfind i hmem
  simp only [decide_eq_true_eq] at hnf
  rcases hx : (s.memory pid)[i]? with _ | x
  · rw [List.getElem?_eq_none_iff, h.len pid] at hx
    omega
  · rcases x with _ | pr
    · exact absurd hx hnf
    · exact ⟨pr, hx⟩

end VMM

namespace VMM

/-- Shared consequences of an eviction step in partition pid at frame v:
lengths, bijection, owner discipline, fullness of the touched partition,
other partitions untouched, and downward-closed occupancy. -/
theorem linv_evict_core {policy : String} {nf : Nat} {s0 : LState}
    (h0 : LInv policy nf s0) {pid page opg v : Nat}
    (hocc : (s0.memory pid)[v]? = some (some (pid, opg)))
    (hmiss : s0.pageTables pid page = none)
    (hfull : ∀ i, i < nf / 4 → isOcc (s0.memory pid) i) :
    (∀ q, ((upd s0.memory pid ((s0.memory pid).set v (some (pid, page)))) q).length = nf / 4) ∧
    LPoolBij (ptInsert (ptErase s0.pageTables pid opg) pid page v)
      (upd s0.memory pid ((s0.memory pid).set v (some (pid, page)))) ∧
    (∀ (q f : Nat) (pr : Nat × Nat),
      ((upd s0.memory pid ((s0.memory pid).set v (some (pid, page)))) q)[f]? =
        some (some pr) → pr.1 = q) ∧
    (∀ i, i < nf / 4 →
      isOcc ((upd s0.memory pid ((s0.memory pid).set v (some (pid, page)))) pid) i) ∧
    (∀ q, q ≠ pid →
      (upd s0.memory pid ((s0.memory pid).set v (some (pid, page)))) q = s0.memory q) ∧
    (∀ q i j, i ≤ j →
      isOcc ((upd s0.memory pid ((s0.memory pid).set v (some (pid, page)))) q) j →
      isOcc ((upd s0.memory pid ((s0.memory pid).set v (some (pid, page)))) q) i) := by
  have hvlen : v < (s0.memory pid).length := by
    rcases List.getElem?_eq_some_iff.mp hocc with ⟨hh, _⟩; exact hh
  have hE : ∀ q, q ≠ pid →
      (upd s0.memory pid ((s0.memory pid).set v (some (pid, page)))) q = s0.memory q := by
    intro q hq
    exact upd_ne _ _ _ _ hq
  have hD : ∀ i, i < nf / 4 →
      isOcc ((upd s0.memory pid ((s0.memory pid).set v (some (pid, page)))) pid) i := by
    intro i hi
    rw [upd_self, isOcc_set_some _ _ _ hvlen]
    rcases eq_or_ne i v with rfl | hne
    · exact Or.inl rfl
    · exact Or.inr (hfull i hi)
  refine ⟨?_, ?_, ?_, hD, hE, ?_⟩
  · intro q
    rcases eq_or_ne q pid with rfl | hq
    · rw [upd_self, List.length_set]
      exact h0.len q
    · rw [hE q hq]
      exact h0.len q
  · exact lpoolBij_install_evict _ _ _ _ _ _ h0.bij hocc hmiss
  · intro q f pr hpr
    rcases eq_or_ne q pid with rfl | hq
    · rw [upd_self, set_getElem? _ _ _ hvlen] at hpr
      by_cases hfv : f = v
      · rw [if_pos hfv] at hpr
        cases hpr
        rfl
      · rw [if_neg hfv] at hpr
        exact h0.owner q f pr hpr
    · rw [hE q hq] at hpr
      exact h0.owner q f pr hpr
  · intro q i j hij hj
    rcases eq_or_ne q pid with rfl | hq
    · have hjlen : j < nf / 4 := by
        rcases hj with ⟨pr, hpr⟩
        have := List.getElem?_eq_some_iff.mp hpr
        rcases this with ⟨hh, _⟩
        rw [upd_self, List.length_set, h0.len q] at hh
        exact hh
      exact hD i (by omega)
    · rw [hE q hq] at hj ⊢
      exact h0.down q i j hij hj

end VMM

namespace VMM

theorem linv_handleAccess {policy : String} {nf : Nat} {s : LState}
    (h : LInv policy nf s) (hnf : 4 ≤ nf)
    (rands : Nat → Nat) (trace : List Access) (cur pid page : Nat) :
    LInv policy nf (L.handleAccess policy rands trace cur pid page s) := by
  have hq4 : 1 ≤ nf / 4 := (Nat.one_le_div_iff (by omega)).mpr hnf
  rcases hPT : s.pageTables pid page with _ | f
  · -- miss
    rw [L.l_handleAccess_miss policy rands trace cur hPT]
    have h0 : LInv policy nf (L.bump pid s) := linv_bump pid h
    have hPT0 : (L.bump pid s).pageTables pid page = none := hPT
    generalize hs0 : L.bump pid s = s0 at h0 hPT0
    clear hs0 hPT h s
    rcases hfind : (List.range s0.memoryFramesPerProcess).find?
        (fun i => decide ((s0.memory pid)[i]? = some none)) with _ | i
    · -- partition full
      have hfull := lfull_of_find_none h0 pid hfind
      by_cases hp1 : policy = "fifo"
      · subst hp1
        rcases hfull (s0.nextFrame pid) (h0.cursor pid) with ⟨⟨opid, opg⟩, hocc⟩
        have hop : opid = pid := h0.owner pid _ _ hocc
        rw [hop] at hocc
        rw [L.l_missDispatch_full_fifo rands trace cur hfind hocc]
        rcases linv_evict_core h0 hocc hPT0 hfull with ⟨hA, hB, hC, hD, hE, hF⟩
        refine ⟨h0.mfpp, hA, ?_, ?_, hB, hC, ?_, hF, ?_⟩
        · intro q
          rcases eq_or_ne q pid with rfl | hq
          · simp only [upd_self, h0.mfpp]
            exact Nat.mod_lt _ (by omega)
          · simp only [upd_ne _ _ _ _ hq]
            exact h0.cursor q
        · intro q hqne i hi
          rcases eq_or_ne q pid with rfl | hq
          · exact hD i hi
          · simp only [hE q hq]
            simp only [upd_ne _ _ _ _ hq] at hqne
            exact h0.cursor0 q hqne i hi
        · intro hpol; exact absurd hpol (by decide)
        · show (s0.err || decide (s0.memoryFramesPerProcess ≤ s0.nextFrame pid)) = false
          rw [h0.errF]
          simp only [Bool.false_or, decide_eq_false_iff_not, not_le, h0.mfpp]
          exact h0.cursor pid
      · by_cases hp2 : policy = "lru"
        · subst hp2
          have hl := h0.lru rfl
          rcases hlist : s0.lruList pid with _ | ⟨f, rest⟩
          · exfalso
            have h00 : isOcc (s0.memory pid) 0 := hfull 0 (by omega)
            rw [← hl pid 0, hlist] at h00
            cases h00
          · have hfmem : f ∈ s0.lruList pid := by
              rw [hlist]; exact List.mem_cons_self ..
            rcases (hl pid f).mp hfmem with ⟨⟨opid, opg⟩, hocc⟩
            have hop : opid = pid := h0.owner pid _ _ hocc
            rw [hop] at hocc
            rw [L.l_missDispatch_full_lru rands trace cur hfind hlist hocc]
            rcases linv_evict_core h0 hocc hPT0 hfull with ⟨hA, hB, hC, hD, hE, hF⟩
            have hflen : f < (s0.memory pid).length := by
              rcases List.getElem?_eq_some_iff.mp hocc with ⟨hh, _⟩; exact hh
            refine ⟨h0.mfpp, hA, h0.cursor, ?_, hB, hC, ?_, hF, h0.errF⟩
            · intro q hqne i hi
              rcases eq_or_ne q pid with rfl | hq
              · exact hD i hi
              · simp only [hE q hq]
                exact h0.cursor0 q hqne i hi
            · intro _ q x
              rcases eq_or_ne q pid with rfl | hq
              · simp only [upd_self, upd_self, isOcc_set_some _ _ _ hflen]
                simp only [List.mem_append, List.mem_singleton, List.mem_filter,
                  decide_eq_true_eq]
                rw [← hl q x, hlist]
                simp only [List.mem_cons]
                by_cases hxf : x = f <;> simp [hxf]
              · simp only [upd_ne _ _ _ _ hq, upd_ne _ _ _ _ hq]
                exact hl q x
        · by_cases hp3 : policy = "optimal"
          · subst hp3
            rcases hrl : List.range s0.memoryFramesPerProcess with _ | ⟨i0, irest⟩
            · exfalso
              have : s0.memoryFramesPerProcess = 0 := by
                simpa using congrArg List.length hrl
              rw [h0.mfpp] at this
              omega
            rcases G.optimalLoop_init (s0.memory pid) trace cur i0 irest with
              ⟨v, hv, hres1, hres2⟩
            have hvlt : v < nf / 4 := by
              have : v ∈ List.range s0.memoryFramesPerProcess := by
                rw [hrl]; exact hv
              rw [List.mem_range, h0.mfpp] at this
              exact this
            rcases hfull v hvlt with ⟨⟨opid, opg⟩, hocc⟩
            have hop : opid = pid := h0.owner pid _ _ hocc
            rw [hop] at hocc
            have hocc2 : occAt (s0.memory pid) v = some (pid, opg) := by
              unfold occAt
              rw [hocc]; rfl
            have hloop : G.optimalLoop (s0.memory pid) trace cur
                (List.range s0.memoryFramesPerProcess) (-1) (-1) none =
                ((v : Int), some (pid, opg)) := by
              rw [hrl]
              have h2 := hres2
              rw [hocc2] at h2
              exact Prod.ext hres1 h2.symm
            rw [L.l_missDispatch_full_optimal rands trace cur hfind hloop]
            have htn : ((v : Int)).toNat = v := Int.toNat_natCast v
            rcases linv_evict_core h0 hocc hPT0 hfull with ⟨hA, hB, hC, hD, hE, hF⟩
            rw [htn]
            refine ⟨h0.mfpp, hA, h0.cursor, ?_, hB, hC, ?_, hF, ?_⟩
            · intro q hqne i hi
              rcases eq_or_ne q pid with rfl | hq
              · exact hD i hi
              · simp only [hE q hq]
                exact h0.cursor0 q hqne i hi
            · intro hpol; exact absurd hpol (by decide)
            · show (s0.err || decide ((v : Int) < 0)) = false
              rw [h0.errF]
              simp
          · by_cases hp4 : policy = "random"
            · subst hp4
              have hvlt : rands s0.randIdx % s0.memoryFramesPerProcess < nf / 4 := by
                rw [h0.mfpp]
                exact Nat.mod_lt _ (by omega)
              rcases hfull _ hvlt with ⟨⟨opid, opg⟩, hocc⟩
              have hop : opid = pid := h0.owner pid _ _ hocc
              rw [hop] at hocc
              rw [L.l_missDispatch_full_random rands trace cur hfind hocc]
              rcases linv_evict_core h0 hocc hPT0 hfull with ⟨hA, hB, hC, hD, hE, hF⟩
              refine ⟨h0.mfpp, hA, h0.cursor, ?_, hB, hC, ?_, hF, ?_⟩
              · intro q hqne i hi
                rcases eq_or_ne q pid with rfl | hq
                · exact hD i hi
                · simp only [hE q hq]
                  exact h0.cursor0 q hqne i hi
              · intro hpol; exact absurd hpol (by decide)
              · show (s0.err || decide (s0.memoryFramesPerProcess = 0)) = false
                rw [h0.errF]
                simp only [Bool.false_or, decide_eq_false_iff_not, h0.mfpp]
                omega
            · rw [L.l_missDispatch_full_other policy rands trace cur hfind hp1 hp2 hp3 hp4]
              exact h0
    · -- a free frame i is granted in the partition of pid
      rcases find_range_spec _ _ _ hfind with ⟨hpi, hilt, hbelow⟩
      simp only [decide_eq_true_eq] at hpi
      have hilen : i < (s0.memory pid).length := by
        rw [h0.len pid, ← h0.mfpp]
        exact hilt
      rw [L.l_missDispatch_free policy rands trace cur hfind]
      have hnotfull : ¬ (∀ j, j < nf / 4 → isOcc (s0.memory pid) j) := by
        intro hall
        rcases hall i (by rw [← h0.mfpp]; exact hilt) with ⟨pr, hpr⟩
        rw [hpi] at hpr
        cases hpr
      refine ⟨h0.mfpp, ?_, h0.cursor, ?_, ?_, ?_, ?_, ?_, h0.errF⟩
      · intro q
        rcases eq_or_ne q pid with rfl | hq
        · simp only [upd_self, List.length_set]
          exact h0.len q
        · simp only [upd_ne _ _ _ _ hq]
          exact h0.len q
      · intro q hqne j hj
        rcases eq_or_ne q pid with rfl | hq
        · exact absurd (h0.cursor0 q hqne) hnotfull
        · simp only [upd_ne _ _ _ _ hq]
          exact h0.cursor0 q hqne j hj
      · exact lpoolBij_install_free _ _ _ _ _ h0.bij hpi hPT0
      · intro q f pr hpr
        rcases eq_or_ne q pid with rfl | hq
        · simp only [upd_self, set_getElem? _ _ _ hilen] at hpr
          by_cases hfv : f = i
          · rw [if_pos hfv] at hpr
            cases hpr
            rfl
          · rw [if_neg hfv] at hpr
            exact h0.owner q f pr hpr
        · simp only [upd_ne _ _ _ _ hq] at hpr
          exact h0.owner q f pr hpr
      · intro hpol q x
        rcases eq_or_ne q pid with rfl | hq
        · simp only [upd_self, upd_self, isOcc_set_some _ _ _ hilen]
          simp only [List.mem_append, List.mem_singleton]
          rw [h0.lru hpol q x]
          tauto
        · simp only [upd_ne _ _ _ _ hq, upd_ne _ _ _ _ hq]
          exact h0.lru hpol q x
      · intro q j k hjk hk
        rcases eq_or_ne q pid with rfl | hq
        · simp only [upd_self, isOcc_set_some _ _ _ hilen] at hk ⊢
          have hoccj : ∀ x, isOcc (s0.memory q) x → x < i := by
            intro x hx
            by_contra hge
            have : isOcc (s0.memory q) i := h0.down q i x (by omega) hx
            rcases this with ⟨pr, hpr⟩
            rw [hpi] at hpr
            cases hpr
          have hkle : k ≤ i := by
            rcases hk with rfl | hk2
            · omega
            · have := hoccj k hk2
              omega
          rcases eq_or_ne j i with rfl | hne
          · exact Or.inl rfl
          · right
            have hji : j < i := by omega
            have hjlen : j < (s0.memory q).length := by omega
            rcases hx : (s0.memory q)[j]? with _ | x
            · rw [List.getElem?_eq_none_iff] at hx
              omega
            · rcases x with _ | pr
              · exfalso
                have := hbelow j hji
                simp only [decide_eq_false_iff_not] at this
                exact this hx
              · exact ⟨pr, hx⟩
        · simp only [upd_ne _ _ _ _ hq] at hk ⊢
          exact h0.down q j k hjk hk
  · -- hit
    rw [L.l_handleAccess_hit policy rands trace cur hPT]
    by_cases hpol : policy = "lru"
    · rw [if_pos hpol]
      have hfocc : isOcc (s.memory pid) f := ⟨(pid, page), (h.bij pid page f).mp hPT⟩
      refine ⟨h.mfpp, h.len, h.cursor, h.cursor0, h.bij, h.owner, ?_, h.down, h.errF⟩
      intro hpol2 q x
      rcases eq_or_ne q pid with rfl | hq
      · simp only [upd_self]
        simp only [List.mem_append, List.mem_singleton, List.mem_filter,
          decide_eq_true_eq]
        rw [← h.lru hpol2 q x]
        by_cases hxf : x = f
        · subst hxf
          simp [(h.lru hpol2 q x).mpr hfocc]
        · simp [hxf]
      · simp only [upd_ne _ _ _ _ hq]
        exact h.lru hpol2 q x
    · rw [if_neg hpol]
      exact h

end VMM

namespace VMM

theorem ginv_runFrom (policy : String) (rands : Nat → Nat) (trace : List Access)
    (nf : Nat) (hnf : 1 ≤ nf) :
    ∀ (rest : List Access) (cur : Nat) (s : GState),
      GInv policy nf s → GInv policy nf (G.runFrom policy rands trace cur rest s) := by
  intro rest
  induction rest with
  | nil => intro cur s h; exact h
  | cons a rest2 ih =>
    intro cur s h
    exact ih (cur + 1) _ (ginv_handleAccess h hnf rands trace cur a.1 a.2)

theorem ginv_runPrefix (policy : String) (rands : Nat → Nat) (nf : Nat)
    (trace : List Access) (n : Nat) (hnf : 1 ≤ nf) :
    GInv policy nf (G.runPrefix policy rands nf trace n) :=
  ginv_runFrom policy rands trace nf hnf (trace.take n) 0 (G.init nf)
    (ginv_init policy nf hnf)

theorem linv_runFrom (policy : String) (rands : Nat → Nat) (trace : List Access)
    (nf : Nat) (hnf : 4 ≤ nf) :
    ∀ (rest : List Access) (cur : Nat) (s : LState),
      LInv policy nf s → LInv policy nf (L.runFrom policy rands trace cur rest s) := by
  intro rest
  induction rest with
  | nil => intro cur s h; exact h
  | cons a rest2 ih =>
    intro cur s h
    exact ih (cur + 1) _ (linv_handleAccess h hnf rands trace cur a.1 a.2)

theorem linv_runPrefix (policy : String) (rands : Nat → Nat) (nf : Nat)
    (trace : List Access) (n : Nat) (hnf : 4 ≤ nf) :
    LInv policy nf (L.runPrefix policy rands nf trace n) :=
  linv_runFrom policy rands trace nf hnf (trace.take n) 0 (L.init nf)
    (linv_init policy nf hnf)

/-- C1.  Occupancy bijection after every step, in both engines: after
processing any prefix of any trace under any policy string, a page-table
entry PageTable[P][p] = f exists exactly when frame f of P's reachable
region (the shared pool for Global, P's partition for Local) is occupied by
exactly (P, p); consequently no two page-table entries reference the same
frame of the same region, and in the Local engine every occupant of P's
partition belongs to P. -/
theorem claim_C1 (policy : String) (rands : Nat → Nat) (nf : Nat)
    (trace : List Access) (n : Nat) :
    (1 ≤ nf →
      PoolBij (G.runPrefix policy rands nf trace n).pageTables
        (G.runPrefix policy rands nf trace n).memory ∧
      (∀ (p1 g1 p2 g2 f : Nat),
        (G.runPrefix policy rands nf trace n).pageTables p1 g1 = some f →
        (G.runPrefix policy rands nf trace n).pageTables p2 g2 = some f →
        p1 = p2 ∧ g1 = g2)) ∧
    (4 ≤ nf →
      LPoolBij (L.runPrefix policy rands nf trace n).pageTables
        (L.runPrefix policy rands nf trace n).memory ∧
      (∀ (pid f : Nat) (pr : Nat × Nat),
        ((L.runPrefix policy rands nf trace n).memory pid)[f]? = some (some pr) →
        pr.1 = pid) ∧
      (∀ (pid g1 g2 f : Nat),
        (L.runPrefix policy rands nf trace n).pageTables pid g1 = some f →
        (L.runPrefix policy rands nf trace n).pageTables pid g2 = some f →
        g1 = g2)) := by
  constructor
  · intro hnf
    have h := ginv_runPrefix policy rands nf trace n hnf
    refine ⟨h.bij, ?_⟩
    intro p1 g1 p2 g2 f h1 h2
    have e1 := (h.bij p1 g1 f).mp h1
    have e2 := (h.bij p2 g2 f).mp h2
    rw [e1] at e2
    cases e2
    exact ⟨rfl, rfl⟩
  · intro hnf
    have h := linv_runPrefix policy rands nf trace n hnf
    refine ⟨h.bij, h.owner, ?_⟩
    intro pid g1 g2 f h1 h2
    have e1 := (h.bij pid g1 f).mp h1
    have e2 := (h.bij pid g2 f).mp h2
    rw [e1] at e2
    cases e2
    rfl

/-- Witness for C1 at a concrete run: policy fifo, 4 frames, a valid
three-access trace, both engines. -/
theorem claim_C1_witness :
    PoolBij (G.runPrefix "fifo" (fun _ => 0) 4 [(0, 5), (1, 5), (0, 6)] 3).pageTables
      (G.runPrefix "fifo" (fun _ => 0) 4 [(0, 5), (1, 5), (0, 6)] 3).memory ∧
    LPoolBij (L.runPrefix "fifo" (fun _ => 0) 4 [(0, 5), (1, 5), (0, 6)] 3).pageTables
      (L.runPrefix "fifo" (fun _ => 0) 4 [(0, 5), (1, 5), (0, 6)] 3).memory :=
  ⟨((claim_C1 "fifo" (fun _ => 0) 4 [(0, 5), (1, 5), (0, 6)] 3).1 (by decide)).1,
   ((claim_C1 "fifo" (fun _ => 0) 4 [(0, 5), (1, 5), (0, 6)] 3).2 (by decide)).1⟩

/-- C7.  FIFO Belady anomaly regression: the single-process page sequence
1,2,3,4,1,2,5,1,2,3,4,5 under the Global engine with policy fifo faults
exactly 9 times with 3 frames and exactly 10 times with 4 frames. -/
theorem claim_C7 :
    (G.runSimulation "fifo" (fun _ => 0) 3
      [(0, 1), (0, 2), (0, 3), (0, 4), (0, 1), (0, 2), (0, 5),
       (0, 1), (0, 2), (0, 3), (0, 4), (0, 5)]).globalFaults = 9 ∧
    (G.runSimulation "fifo" (fun _ => 0) 4
      [(0, 1), (0, 2), (0, 3), (0, 4), (0, 1), (0, 2), (0, 5),
       (0, 1), (0, 2), (0, 3), (0, 4), (0, 5)]).globalFaults = 10 :=
  ⟨rfl, rfl⟩

end VMM

namespace VMM

namespace G

theorem applyEvict_counters (s : GState) (pid page : Nat)
    (old : Option (Nat × Nat)) (f : Nat) :
    (applyEvict s pid page old f).globalFaults = s.globalFaults ∧
    ∀ q, (applyEvict s pid page old f).faultCounts q = s.faultCounts q := by
  rcases old with _ | ⟨a, b⟩ <;> exact ⟨rfl, fun _ => rfl⟩

theorem missDispatch_counters (policy : String) (rands : Nat → Nat)
    (trace : List Access) (cur pid page : Nat) (s : GState) :
    (missDispatch policy rands trace cur pid page s).globalFaults = s.globalFaults ∧
    ∀ q, (missDispatch policy rands trace cur pid page s).faultCounts q =
      s.faultCounts q := by
  unfold missDispatch
  by_cases hfree : s.memory[s.nextFrame]? = some none
  · rw [allocateFrame_succ hfree]
    exact ⟨rfl, fun _ => rfl⟩
  · rw [allocateFrame_fail hfree]
    show ((if policy = "fifo" then _
      else if policy = "lru" then _
      else if policy = "optimal" then _
      else if policy = "random" then _ else _ : GState)).globalFaults = _ ∧ _
    split_ifs with h1 h2 h3 h4
    · exact applyEvict_counters _ pid page _ _
    · rcases hl : s.lruList with _ | ⟨f, rest⟩
      · simp only [lruReplacement, hl]
        exact ⟨rfl, fun _ => rfl⟩
      · simp only [lruReplacement, hl]
        exact applyEvict_counters _ pid page _ _
    · exact applyEvict_counters _ pid page _ _
    · exact applyEvict_counters _ pid page _ _
    · exact ⟨rfl, fun _ => rfl⟩

/-- Per-access counter behaviour of the Global engine: unchanged on a hit,
incremented exactly once (globally and for the accessing process) on a
miss. -/
theorem handleAccess_counters (policy : String) (rands : Nat → Nat)
    (trace : List Access) (cur pid page : Nat) (s : GState) :
    (s.pageTables pid page ≠ none →
      (handleAccess policy rands trace cur pid page s).globalFaults =
        s.globalFaults ∧
      ∀ q, (handleAccess policy rands trace cur pid page s).faultCounts q =
        s.faultCounts q) ∧
    (s.pageTables pid page = none →
      (handleAccess policy rands trace cur pid page s).globalFaults =
        s.globalFaults + 1 ∧
      (handleAccess policy rands trace cur pid page s).faultCounts pid =
        s.faultCounts pid + 1 ∧
      ∀ q, q ≠ pid →
        (handleAccess policy rands trace cur pid page s).faultCounts q =
          s.faultCounts q) := by
  rcases hPT : s.pageTables pid page with _ | f
  · refine ⟨fun hne => absurd rfl hne, fun _ => ?_⟩
    rw [handleAccess_miss policy rands trace cur hPT]
    rcases missDispatch_counters policy rands trace cur pid page (bump pid s) with
      ⟨hg, hf⟩
    refine ⟨by rw [hg]; rfl, ?_, ?_⟩
    · rw [hf pid]
      show (if pid = pid then s.faultCounts pid + 1 else s.faultCounts pid) = _
      rw [if_pos rfl]
    · intro q hq
      rw [hf q]
      show (if q = pid then s.faultCounts q + 1 else s.faultCounts q) = _
      rw [if_neg hq]
  · refine ⟨fun _ => ?_, fun h => Option.noConfusion h⟩
    rw [handleAccess_hit policy rands trace cur hPT]
    split_ifs with hpol
    · exact ⟨rfl, fun _ => rfl⟩
    · exact ⟨rfl, fun _ => rfl⟩

theorem runFrom_append (policy : String) (rands : Nat → Nat) (trace : List Access) :
    ∀ (l1 l2 : List Access) (cur : Nat) (s : GState),
      runFrom policy rands trace cur (l1 ++ l2) s =
        runFrom policy rands trace (cur + l1.length) l2
          (runFrom policy rands trace cur l1 s) := by
  intro l1
  induction l1 with
  | nil => intro l2 cur s; simp [runFrom]
  | cons a rest ih =>
    intro l2 cur s
    show runFrom policy rands trace (cur + 1) (rest ++ l2) _ = _
    rw [ih]
    congr 1
    simp only [List.length_cons]
    omega

theorem runPrefix_succ (policy : String) (rands : Nat → Nat) (nf : Nat)
    (t : List Access) (n : Nat) (a : Access) (h : t[n]? = some a) :
    runPrefix policy rands nf t (n + 1) =
      handleAccess policy rands t n a.1 a.2 (runPrefix policy rands nf t n) := by
  have hn : n < t.length := by
    rcases List.getElem?_eq_some_iff.mp h with ⟨hh, _⟩; exact hh
  unfold runPrefix
  rw [List.take_succ, h]
  show runFrom policy rands t 0 (t.take n ++ [a]) _ = _
  rw [runFrom_append]
  have hlen : (t.take n).length = n := by
    rw [List.length_take]
    omega
  rw [hlen, Nat.zero_add]
  rfl

theorem runPrefix_succ_past (policy : String) (rands : Nat → Nat) (nf : Nat)
    (t : List Access) (n : Nat) (h : t[n]? = none) :
    runPrefix policy rands nf t (n + 1) = runPrefix policy rands nf t n := by
  unfold runPrefix
  rw [List.take_succ, h]
  simp

end G

end VMM

namespace VMM

namespace L

theorem l_applyEvict_counters (s : LState) (pid page : Nat)
    (old : Option (Nat × Nat)) (f : Nat) :
    (applyEvict s pid page old f).globalFaults = s.globalFaults ∧
    ∀ q, (applyEvict s pid page old f).faultCounts q = s.faultCounts q := by
  rcases old with _ | ⟨a, b⟩ <;> exact ⟨rfl, fun _ => rfl⟩

theorem l_missDispatch_counters (policy : String) (rands : Nat → Nat)
    (trace : List Access) (cur pid page : Nat) (s : LState) :
    (missDispatch policy rands trace cur pid page s).globalFaults = s.globalFaults ∧
    ∀ q, (missDispatch policy rands trace cur pid page s).faultCounts q =
      s.faultCounts q := by
  unfold missDispatch
  rcases hfind : (List.range s.memoryFramesPerProcess).find?
      (fun i => decide ((s.memory pid)[i]? = some none)) with _ | i
  · rw [l_allocateFrame_fail hfind]
    show ((if policy = "fifo" then _
      else if policy = "lru" then _
      else if policy = "optimal" then _
      else if policy = "random" then _ else _ : LState)).globalFaults = _ ∧ _
    split_ifs with h1 h2 h3 h4
    · exact l_applyEvict_counters _ pid page _ _
    · rcases hl : s.lruList pid with _ | ⟨f, rest⟩
      · simp only [lruReplacement, hl]
        exact ⟨rfl, fun _ => rfl⟩
      · simp only [lruReplacement, hl]
        exact l_applyEvict_counters _ pid page _ _
    · exact l_applyEvict_counters _ pid page _ _
    · exact l_applyEvict_counters _ pid page _ _
    · exact ⟨rfl, fun _ => rfl⟩
  · rw [l_allocateFrame_succ hfind]
    exact ⟨rfl, fun _ => rfl⟩

/-- Per-access counter behaviour of the Local engine: unchanged on a hit,
incremented exactly once on a miss. -/
theorem l_handleAccess_counters (policy : String) (rands : Nat → Nat)
    (trace : List Access) (cur pid page : Nat) (s : LState) :
    (s.pageTables pid page ≠ none →
      (handleAccess policy rands trace cur pid page s).globalFaults =
        s.globalFaults ∧
      ∀ q, (handleAccess policy rands trace cur pid page s).faultCounts q =
        s.faultCounts q) ∧
    (s.pageTables pid page = none →
      (handleAccess policy rands trace cur pid page s).globalFaults =
        s.globalFaults + 1 ∧
      (handleAccess policy rands trace cur pid page s).faultCounts pid =
        s.faultCounts pid + 1 ∧
      ∀ q, q ≠ pid →
        (handleAccess policy rands trace cur pid page s).faultCounts q =
          s.faultCounts q) := by
  rcases hPT : s.pageTables pid page with _ | f
  · refine ⟨fun hne => absurd rfl hne, fun _ => ?_⟩
    rw [l_handleAccess_miss policy rands trace cur hPT]
    rcases l_missDispatch_counters policy rands trace cur pid page (bump pid s) with
      ⟨hg, hf⟩
    refine ⟨by rw [hg]; rfl, ?_, ?_⟩
    · rw [hf pid]
      show (if pid = pid then s.faultCounts pid + 1 else s.faultCounts pid) = _
      rw [if_pos rfl]
    · intro q hq
      rw [hf q]
      show (if q = pid then s.faultCounts q + 1 else s.faultCounts q) = _
      rw [if_neg hq]
  · refine ⟨fun _ => ?_, fun h => Option.noConfusion h⟩
    rw [l_handleAccess_hit policy rands trace cur hPT]
    split_ifs with hpol
    · exact ⟨rfl, fun _ => rfl⟩
    · exact ⟨rfl, fun _ => rfl⟩

theorem l_runFrom_append (policy : String) (rands : Nat → Nat) (trace : List Access) :
    ∀ (l1 l2 : List Access) (cur : Nat) (s : LState),
      runFrom policy rands trace cur (l1 ++ l2) s =
        runFrom policy rands trace (cur + l1.length) l2
          (runFrom policy rands trace cur l1 s) := by
  intro l1
  induction l1 with
  | nil => intro l2 cur s; simp [runFrom]
  | cons a rest ih =>
    intro l2 cur s
    show runFrom policy rands trace (cur + 1) (rest ++ l2) _ = _
    rw [ih]
    congr 1
    simp only [List.length_cons]
    omega

theorem l_runPrefix_succ (policy : String) (rands : Nat → Nat) (nf : Nat)
    (t : List Access) (n : Nat) (a : Access) (h : t[n]? = some a) :
    runPrefix policy rands nf t (n + 1) =
      handleAccess policy rands t n a.1 a.2 (runPrefix policy rands nf t n) := by
  have hn : n < t.length := by
    rcases List.getElem?_eq_some_iff.mp h with ⟨hh, _⟩; exact hh
  unfold runPrefix
  rw [List.take_succ, h]
  show runFrom policy rands t 0 (t.take n ++ [a]) _ = _
  rw [l_runFrom_append]
  have hlen : (t.take n).length = n := by
    rw [List.length_take]
    omega
  rw [hlen, Nat.zero_add]
  rfl

theorem l_runPrefix_succ_past (policy : String) (rands : Nat → Nat) (nf : Nat)
    (t : List Access) (n : Nat) (h : t[n]? = none) :
    runPrefix policy rands nf t (n + 1) = runPrefix policy rands nf t n := by
  unfold runPrefix
  rw [List.take_succ, h]
  simp

end L

end VMM

namespace VMM

theorem mem_of_getElem? {t : List Access} {n : Nat} {a : Access}
    (h : t[n]? = some a) : a ∈ t := by
  rcases List.getElem?_eq_some_iff.mp h with ⟨hn, rfl⟩
  exact List.getElem_mem hn

theorem g_conservation (policy : String) (rands : Nat → Nat) (nf : Nat)
    (t : List Access) (hval : ValidTrace t) (n : Nat) :
    (G.runPrefix policy rands nf t n).globalFaults =
      ∑ p ∈ Finset.range 4, (G.runPrefix policy rands nf t n).faultCounts p := by
  induction n with
  | zero =>
    show (G.init nf).globalFaults = ∑ p ∈ Finset.range 4, (G.init nf).faultCounts p
    simp [G.init]
  | succ n ih =>
    rcases ha : t[n]? with _ | a
    · rw [G.runPrefix_succ_past policy rands nf t n ha]
      exact ih
    · rw [G.runPrefix_succ policy rands nf t n a ha]
      rcases G.handleAccess_counters policy rands t n a.1 a.2
        (G.runPrefix policy rands nf t n) with ⟨hhit, hmiss⟩
      rcases hPT : (G.runPrefix policy rands nf t n).pageTables a.1 a.2 with _ | f
      · rcases hmiss hPT with ⟨hg, hc1, hc2⟩
        have hmem : a.1 < 4 := hval a (mem_of_getElem? ha)
        have hsum : ∑ p ∈ Finset.range 4,
            (G.handleAccess policy rands t n a.1 a.2
              (G.runPrefix policy rands nf t n)).faultCounts p =
            ∑ p ∈ Finset.range 4,
              ((G.runPrefix policy rands nf t n).faultCounts p +
                if p = a.1 then 1 else 0) := by
          refine Finset.sum_congr rfl (fun p _ => ?_)
          by_cases hp : p = a.1
          · subst hp
            rw [hc1, if_pos rfl]
          · rw [hc2 p hp, if_neg hp, Nat.add_zero]
        rw [hg, hsum, Finset.sum_add_distrib,
          Finset.sum_ite_eq' (Finset.range 4) a.1 (fun _ => 1),
          if_pos (Finset.mem_range.mpr hmem), ih]
      · rcases hhit (by rw [hPT]; simp) with ⟨hg, hc⟩
        rw [hg, ih]
        exact Finset.sum_congr rfl (fun p _ => (hc p).symm)

theorem l_conservation (policy : String) (rands : Nat → Nat) (nf : Nat)
    (t : List Access) (hval : ValidTrace t) (n : Nat) :
    (L.runPrefix policy rands nf t n).globalFaults =
      ∑ p ∈ Finset.range 4, (L.runPrefix policy rands nf t n).faultCounts p := by
  induction n with
  | zero =>
    show (L.init nf).globalFaults = ∑ p ∈ Finset.range 4, (L.init nf).faultCounts p
    simp [L.init]
  | succ n ih =>
    rcases ha : t[n]? with _ | a
    · rw [L.l_runPrefix_succ_past policy rands nf t n ha]
      exact ih
    · rw [L.l_runPrefix_succ policy rands nf t n a ha]
      rcases L.l_handleAccess_counters policy rands t n a.1 a.2
        (L.runPrefix policy rands nf t n) with ⟨hhit, hmiss⟩
      rcases hPT : (L.runPrefix policy rands nf t n).pageTables a.1 a.2 with _ | f
      · rcases hmiss hPT with ⟨hg, hc1, hc2⟩
        have hmem : a.1 < 4 := hval a (mem_of_getElem? ha)
        have hsum : ∑ p ∈ Finset.range 4,
            (L.handleAccess policy rands t n a.1 a.2
              (L.runPrefix policy rands nf t n)).faultCounts p =
            ∑ p ∈ Finset.range 4,
              ((L.runPrefix policy rands nf t n).faultCounts p +
                if p = a.1 then 1 else 0) := by
          refine Finset.sum_congr rfl (fun p _ => ?_)
          by_cases hp : p = a.1
          · subst hp
            rw [hc1, if_pos rfl]
          · rw [hc2 p hp, if_neg hp, Nat.add_zero]
        rw [hg, hsum, Finset.sum_add_distrib,
          Finset.sum_ite_eq' (Finset.range 4) a.1 (fun _ => 1),
          if_pos (Finset.mem_range.mpr hmem), ih]
      · rcases hhit (by rw [hPT]; simp) with ⟨hg, hc⟩
        rw [hg, ih]
        exact Finset.sum_congr rfl (fun p _ => (hc p).symm)

theorem g_mono (policy : String) (rands : Nat → Nat) (nf : Nat)
    (t : List Access) :
    ∀ n m, n ≤ m →
      (G.runPrefix policy rands nf t n).globalFaults ≤
        (G.runPrefix policy rands nf t m).globalFaults ∧
      ∀ q, (G.runPrefix policy rands nf t n).faultCounts q ≤
        (G.runPrefix policy rands nf t m).faultCounts q := by
  intro n m hnm
  induction m with
  | zero =>
    have : n = 0 := by omega
    subst this
    exact ⟨le_refl _, fun _ => le_refl _⟩
  | succ m ih =>
    rcases Nat.eq_or_lt_of_le hnm with rfl | hlt
    · exact ⟨le_refl _, fun _ => le_refl _⟩
    · have hm : n ≤ m := by omega
      rcases ih hm with ⟨hg, hc⟩
      rcases ha : t[m]? with _ | a
      · rw [G.runPrefix_succ_past policy rands nf t m ha]
        exact ⟨hg, hc⟩
      · rw [G.runPrefix_succ policy rands nf t m a ha]
        rcases G.handleAccess_counters policy rands t m a.1 a.2
          (G.runPrefix policy rands nf t m) with ⟨hhit, hmiss⟩
        rcases hPT : (G.runPrefix policy rands nf t m).pageTables a.1 a.2 with _ | f
        · rcases hmiss hPT with ⟨h1, h2, h3⟩
          refine ⟨by omega, fun q => ?_⟩
          by_cases hq : q = a.1
          · rw [hq, h2]
            exact le_trans (hc a.1) (Nat.le_succ _)
          · rw [h3 q hq]
            exact hc q
        · rcases hhit (by rw [hPT]; simp) with ⟨h1, h2⟩
          refine ⟨by omega, fun q => ?_⟩
          rw [h2 q]
          exact hc q

theorem l_mono (policy : String) (rands : Nat → Nat) (nf : Nat)
    (t : List Access) :
    ∀ n m, n ≤ m →
      (L.runPrefix policy rands nf t n).globalFaults ≤
        (L.runPrefix policy rands nf t m).globalFaults ∧
      ∀ q, (L.runPrefix policy rands nf t n).faultCounts q ≤
        (L.runPrefix policy rands nf t m).faultCounts q := by
  intro n m hnm
  induction m with
  | zero =>
    have : n = 0 := by omega
    subst this
    exact ⟨le_refl _, fun _ => le_refl _⟩
  | succ m ih =>
    rcases Nat.eq_or_lt_of_le hnm with rfl | hlt
    · exact ⟨le_refl _, fun _ => le_refl _⟩
    · have hm : n ≤ m := by omega
      rcases ih hm with ⟨hg, hc⟩
      rcases ha : t[m]? with _ | a
      · rw [L.l_runPrefix_succ_past policy rands nf t m ha]
        exact ⟨hg, hc⟩
      · rw [L.l_runPrefix_succ policy rands nf t m a ha]
        rcases L.l_handleAccess_counters policy rands t m a.1 a.2
          (L.runPrefix policy rands nf t m) with ⟨hhit, hmiss⟩
        rcases hPT : (L.runPrefix policy rands nf t m).pageTables a.1 a.2 with _ | f
        · rcases hmiss hPT with ⟨h1, h2, h3⟩
          refine ⟨by omega, fun q => ?_⟩
          by_cases hq : q = a.1
          · rw [hq, h2]
            exact le_trans (hc a.1) (Nat.le_succ _)
          · rw [h3 q hq]
            exact hc q
        · rcases hhit (by rw [hPT]; simp) with ⟨h1, h2⟩
          refine ⟨by omega, fun q => ?_⟩
          rw [h2 q]
          exact hc q

end VMM

namespace VMM

/-- C2.  Fault-count conservation and monotonicity, in both engines: after
every prefix of a valid trace the global fault count equals the sum of the
four per-process fault counts; a hit leaves every counter unchanged, a miss
increments the global counter and the accessing process's counter by exactly
one (and no other); hence all counters are monotonically non-decreasing. -/
theorem claim_C2 (policy : String) (rands : Nat → Nat) (nf : Nat)
    (t : List Access) (hval : ValidTrace t) :
    ((∀ n, (G.runPrefix policy rands nf t n).globalFaults =
      ∑ p ∈ Finset.range 4, (G.runPrefix policy rands nf t n).faultCounts p) ∧
    (∀ n m, n ≤ m →
      (G.runPrefix policy rands nf t n).globalFaults ≤
        (G.runPrefix policy rands nf t m).globalFaults ∧
      ∀ q, (G.runPrefix policy rands nf t n).faultCounts q ≤
        (G.runPrefix policy rands nf t m).faultCounts q) ∧
    (∀ n a, t[n]? = some a →
      ((G.runPrefix policy rands nf t n).pageTables a.1 a.2 ≠ none →
        (G.runPrefix policy rands nf t (n + 1)).globalFaults =
          (G.runPrefix policy rands nf t n).globalFaults ∧
        ∀ q, (G.runPrefix policy rands nf t (n + 1)).faultCounts q =
          (G.runPrefix policy rands nf t n).faultCounts q) ∧
      ((G.runPrefix policy rands nf t n).pageTables a.1 a.2 = none →
        (G.runPrefix policy rands nf t (n + 1)).globalFaults =
          (G.runPrefix policy rands nf t n).globalFaults + 1 ∧
        (G.runPrefix policy rands nf t (n + 1)).faultCounts a.1 =
          (G.runPrefix policy rands nf t n).faultCounts a.1 + 1 ∧
        ∀ q, q ≠ a.1 →
          (G.runPrefix policy rands nf t (n + 1)).faultCounts q =
            (G.runPrefix policy rands nf t n).faultCounts q))) ∧
    ((∀ n, (L.runPrefix policy rands nf t n).globalFaults =
      ∑ p ∈ Finset.range 4, (L.runPrefix policy rands nf t n).faultCounts p) ∧
    (∀ n m, n ≤ m →
      (L.runPrefix policy rands nf t n).globalFaults ≤
        (L.runPrefix policy rands nf t m).globalFaults ∧
      ∀ q, (L.runPrefix policy rands nf t n).faultCounts q ≤
        (L.runPrefix policy rands nf t m).faultCounts q) ∧
    (∀ n a, t[n]? = some a →
      ((L.runPrefix policy rands nf t n).pageTables a.1 a.2 ≠ none →
        (L.runPrefix policy rands nf t (n + 1)).globalFaults =
          (L.runPrefix policy rands nf t n).globalFaults ∧
        ∀ q, (L.runPrefix policy rands nf t (n + 1)).faultCounts q =
          (L.runPrefix policy rands nf t n).faultCounts q) ∧
      ((L.runPrefix policy rands nf t n).pageTables a.1 a.2 = none →
        (L.runPrefix policy rands nf t (n + 1)).globalFaults =
          (L.runPrefix policy rands nf t n).globalFaults + 1 ∧
        (L.runPrefix policy rands nf t (n + 1)).faultCounts a.1 =
          (L.runPrefix policy rands nf t n).faultCounts a.1 + 1 ∧
        ∀ q, q ≠ a.1 →
          (L.runPrefix policy rands nf t (n + 1)).faultCounts q =
            (L.runPrefix policy rands nf t n).faultCounts q))) := by
  refine ⟨⟨g_conservation policy rands nf t hval, g_mono policy rands nf t, ?_⟩,
    ⟨l_conservation policy rands nf t hval, l_mono policy rands nf t, ?_⟩⟩
  · intro n a ha
    rw [G.runPrefix_succ policy rands nf t n a ha]
    exact G.handleAccess_counters policy rands t n a.1 a.2
      (G.runPrefix policy rands nf t n)
  · intro n a ha
    rw [L.l_runPrefix_succ policy rands nf t n a ha]
    exact L.l_handleAccess_counters policy rands t n a.1 a.2
      (L.runPrefix policy rands nf t n)

/-- Witness for C2 at a concrete run: conservation after both prefixes of a
two-access valid trace, in both engines. -/
theorem claim_C2_witness :
    (G.runPrefix "fifo" (fun _ => 0) 4 [(0, 1), (1, 2)] 2).globalFaults =
      ∑ p ∈ Finset.range 4,
        (G.runPrefix "fifo" (fun _ => 0) 4 [(0, 1), (1, 2)] 2).faultCounts p ∧
    (L.runPrefix "fifo" (fun _ => 0) 4 [(0, 1), (1, 2)] 2).globalFaults =
      ∑ p ∈ Finset.range 4,
        (L.runPrefix "fifo" (fun _ => 0) 4 [(0, 1), (1, 2)] 2).faultCounts p :=
  ⟨(claim_C2 "fifo" (fun _ => 0) 4 [(0, 1), (1, 2)] (by decide)).1.1 2,
   (claim_C2 "fifo" (fun _ => 0) 4 [(0, 1), (1, 2)] (by decide)).2.1 2⟩

end VMM

namespace VMM

instance (m : List (Option (Nat × Nat))) (f : Nat) : Decidable (isOcc m f) :=
  decidable_of_iff ((m[f]?).join.isSome = true) (by
    unfold isOcc
    rcases m[f]? with _ | x
    · simp [Option.join]
    · rcases x with _ | pr <;> simp [Option.join])

/-- The allocate contract as the spec words it: scan the region in ascending
index order starting at the rotation cursor, wrapping around, and return the
first free frame found, none when the region is fully occupied.  This is the
spec-side definition used to state the refinement in C3; the code-side
definitions are G.allocateFrame and L.allocateFrame. -/
def specScanFree (m : List (Option (Nat × Nat))) (cursor : Nat) : Option Nat :=
  ((List.range m.length).map (fun k => (cursor + k) % m.length)).find?
    (fun f => decide (m[f]? = some none))

theorem specScanFree_none {m : List (Option (Nat × Nat))} {cursor : Nat}
    (hfull : ∀ f, f < m.length → isOcc m f) :
    specScanFree m cursor = none := by
  unfold specScanFree
  rw [List.find?_eq_none]
  intro x hx
  simp only [List.mem_map, List.mem_range] at hx
  rcases hx with ⟨k, hk, rfl⟩
  have hlen : 0 < m.length := by omega
  have hlt : (cursor + k) % m.length < m.length := Nat.mod_lt _ hlen
  rcases hfull _ hlt with ⟨pr, hpr⟩
  simp [hpr]

theorem specScanFree_cursor_free {m : List (Option (Nat × Nat))} {cursor : Nat}
    (hcur : cursor < m.length) (hfree : m[cursor]? = some none) :
    specScanFree m cursor = some cursor := by
  unfold specScanFree
  rcases hn : m.length with _ | n
  · omega
  · rw [List.range_succ_eq_map]
    show List.find? _ (((0 : Nat) :: _).map _) = _
    rw [List.map_cons]
    rw [List.find?_cons_of_pos]
    · rw [Nat.add_zero, Nat.mod_eq_of_lt (by omega)]
    · rw [Nat.add_zero, Nat.mod_eq_of_lt (by omega)]
      simpa using hfree

/-- C3.  Allocate contract on reachable states, in both engines: the
allocator returns none exactly when the region reachable by the process is
fully occupied, any returned frame is a free frame of that region, and the
result coincides with the spec's deterministic scan (ascending index from
the rotation cursor, wrapping).  In the Global engine the returned frame is
the cursor itself. -/
theorem claim_C3 (policy : String) (rands : Nat → Nat) (nf : Nat)
    (t : List Access) (n : Nat) (pid page : Nat) :
    (1 ≤ nf →
      ((G.allocateFrame (G.runPrefix policy rands nf t n) pid page).1 = none ↔
        ∀ f, f < nf → isOcc (G.runPrefix policy rands nf t n).memory f) ∧
      (∀ f, (G.allocateFrame (G.runPrefix policy rands nf t n) pid page).1 = some f →
        f = (G.runPrefix policy rands nf t n).nextFrame ∧ f < nf ∧
        (G.runPrefix policy rands nf t n).memory[f]? = some none) ∧
      (G.allocateFrame (G.runPrefix policy rands nf t n) pid page).1 =
        specScanFree (G.runPrefix policy rands nf t n).memory
          (G.runPrefix policy rands nf t n).nextFrame) ∧
    (4 ≤ nf →
      ((L.allocateFrame (L.runPrefix policy rands nf t n) pid page).1 = none ↔
        ∀ i, i < nf / 4 → isOcc ((L.runPrefix policy rands nf t n).memory pid) i) ∧
      (∀ i, (L.allocateFrame (L.runPrefix policy rands nf t n) pid page).1 = some i →
        i < nf / 4 ∧
        ((L.runPrefix policy rands nf t n).memory pid)[i]? = some none) ∧
      (L.allocateFrame (L.runPrefix policy rands nf t n) pid page).1 =
        specScanFree ((L.runPrefix policy rands nf t n).memory pid)
          ((L.runPrefix policy rands nf t n).nextFrame pid)) := by
  constructor
  · intro hnf
    have h := ginv_runPrefix policy rands nf t n hnf
    generalize hs : G.runPrefix policy rands nf t n = s at h ⊢
    have hclen : s.nextFrame < s.memory.length := by rw [h.len]; exact h.cursor
    by_cases hfree : s.memory[s.nextFrame]? = some none
    · rw [G.allocateFrame_succ hfree]
      refine ⟨?_, ?_, ?_⟩
      · constructor
        · intro hnone; cases hnone
        · intro hfull
          exfalso
          rcases hfull s.nextFrame h.cursor with ⟨pr, hpr⟩
          rw [hfree] at hpr; cases hpr
      · intro f hf
        cases hf
        exact ⟨rfl, h.cursor, hfree⟩
      · rw [specScanFree_cursor_free hclen hfree]
    · rw [G.allocateFrame_fail hfree]
      have hfull := full_of_not_free h hfree
      refine ⟨⟨fun _ => hfull, fun _ => rfl⟩, ?_, ?_⟩
      · intro f hf; cases hf
      · rw [specScanFree_none (by rw [h.len]; exact hfull)]
  · intro hnf
    have h := linv_runPrefix policy rands nf t n hnf
    generalize hs : L.runPrefix policy rands nf t n = s at h ⊢
    rcases hfind : (List.range s.memoryFramesPerProcess).find?
        (fun i => decide ((s.memory pid)[i]? = some none)) with _ | i
    · rw [L.l_allocateFrame_fail hfind]
      have hfull := lfull_of_find_none h pid hfind
      refine ⟨⟨fun _ => hfull, fun _ => rfl⟩, ?_, ?_⟩
      · intro i hi; cases hi
      · rw [specScanFree_none (by rw [h.len pid]; exact hfull)]
    · rw [L.l_allocateFrame_succ hfind]
      rcases find_range_spec _ _ _ hfind with ⟨hpi, hilt, hbelow⟩
      simp only [decide_eq_true_eq] at hpi
      have hiltq : i < nf / 4 := by rw [← h.mfpp]; exact hilt
      refine ⟨?_, ?_, ?_⟩
      · constructor
        · intro hnone; cases hnone
        · intro hfull
          exfalso
          rcases hfull i hiltq with ⟨pr, hpr⟩
          rw [hpi] at hpr; cases hpr
      · intro j hj
        cases hj
        exact ⟨hiltq, hpi⟩
      · have hc0 : s.nextFrame pid = 0 := by
          by_contra hne
          rcases h.cursor0 pid hne i hiltq with ⟨pr, hpr⟩
          rw [hpi] at hpr; cases hpr
        rw [hc0]
        unfold specScanFree
        have hmapeq : (List.range (s.memory pid).length).map
            (fun k => (0 + k) % (s.memory pid).length) =
            List.range (s.memory pid).length := by
          have : ∀ k ∈ List.range (s.memory pid).length,
              (0 + k) % (s.memory pid).length = k := by
            intro k hk
            rw [List.mem_range] at hk
            rw [Nat.zero_add, Nat.mod_eq_of_lt hk]
          rw [List.map_congr_left this, List.map_id']
        rw [hmapeq]
        have hleneq : (s.memory pid).length = s.memoryFramesPerProcess := by
          rw [h.len pid, h.mfpp]
        rw [hleneq, hfind]

/-- Witness for C3: a one-frame Global pool and a four-frame Local pool
after one access (Global pool full, Local partition of process 0 full). -/
theorem claim_C3_witness :
    (((G.allocateFrame (G.runPrefix "fifo" (fun _ => 0) 1 [(0, 7)] 1) 0 9).1 = none ↔
      ∀ f, f < 1 → isOcc (G.runPrefix "fifo" (fun _ => 0) 1 [(0, 7)] 1).memory f) ∧
     (∀ f, (G.allocateFrame (G.runPrefix "fifo" (fun _ => 0) 1 [(0, 7)] 1) 0 9).1 = some f →
        f = (G.runPrefix "fifo" (fun _ => 0) 1 [(0, 7)] 1).nextFrame ∧ f < 1 ∧
        (G.runPrefix "fifo" (fun _ => 0) 1 [(0, 7)] 1).memory[f]? = some none) ∧
     (G.allocateFrame (G.runPrefix "fifo" (fun _ => 0) 1 [(0, 7)] 1) 0 9).1 =
       specScanFree (G.runPrefix "fifo" (fun _ => 0) 1 [(0, 7)] 1).memory
         (G.runPrefix "fifo" (fun _ => 0) 1 [(0, 7)] 1).nextFrame) ∧
    ((L.allocateFrame (L.runPrefix "fifo" (fun _ => 0) 4 [(0, 7)] 1) 0 9).1 = none ↔
      ∀ i, i < 4 / 4 → isOcc ((L.runPrefix "fifo" (fun _ => 0) 4 [(0, 7)] 1).memory 0) i) :=
  ⟨(claim_C3 "fifo" (fun _ => 0) 1 [(0, 7)] 1 0 9).1 (by decide),
   ((claim_C3 "fifo" (fun _ => 0) 4 [(0, 7)] 1 0 9).2 (by decide)).1⟩

end VMM

namespace VMM

/-- C4.  FIFO eviction rule, in both engines: on a miss with the reachable
region full under policy fifo, the victim is exactly the frame at the
region's rotation cursor; the displaced (process, page, frame) triple is
returned by fifoReplacement; the new pair is installed in that frame (all
other frames untouched); the displaced mapping is erased and the new one
installed (all other table entries untouched); and the cursor advances by
one modulo the region size. -/
theorem claim_C4 (rands : Nat → Nat) (t tr : List Access)
    (n cur pid page nf : Nat) :
    (1 ≤ nf →
      (G.runPrefix "fifo" rands nf t n).pageTables pid page = none →
      (∀ f, f < nf → isOcc (G.runPrefix "fifo" rands nf t n).memory f) →
      ∃ opid opg,
        (G.runPrefix "fifo" rands nf t n).memory[(G.runPrefix "fifo" rands nf t n).nextFrame]? =
          some (some (opid, opg)) ∧
        (G.fifoReplacement (G.runPrefix "fifo" rands nf t n) pid page).1 =
          (some (opid, opg), (G.runPrefix "fifo" rands nf t n).nextFrame) ∧
        (G.handleAccess "fifo" rands tr cur pid page
            (G.runPrefix "fifo" rands nf t n)).memory[(G.runPrefix "fifo" rands nf t n).nextFrame]? =
          some (some (pid, page)) ∧
        (∀ f, f ≠ (G.runPrefix "fifo" rands nf t n).nextFrame →
          (G.handleAccess "fifo" rands tr cur pid page
            (G.runPrefix "fifo" rands nf t n)).memory[f]? =
          (G.runPrefix "fifo" rands nf t n).memory[f]?) ∧
        (G.handleAccess "fifo" rands tr cur pid page
            (G.runPrefix "fifo" rands nf t n)).nextFrame =
          ((G.runPrefix "fifo" rands nf t n).nextFrame + 1) % nf ∧
        (G.handleAccess "fifo" rands tr cur pid page
            (G.runPrefix "fifo" rands nf t n)).pageTables pid page =
          some (G.runPrefix "fifo" rands nf t n).nextFrame ∧
        (G.handleAccess "fifo" rands tr cur pid page
            (G.runPrefix "fifo" rands nf t n)).pageTables opid opg = none ∧
        (∀ q pg, ¬(q = pid ∧ pg = page) → ¬(q = opid ∧ pg = opg) →
          (G.handleAccess "fifo" rands tr cur pid page
            (G.runPrefix "fifo" rands nf t n)).pageTables q pg =
          (G.runPrefix "fifo" rands nf t n).pageTables q pg)) ∧
    (4 ≤ nf →
      (L.runPrefix "fifo" rands nf t n).pageTables pid page = none →
      (∀ i, i < nf / 4 → isOcc ((L.runPrefix "fifo" rands nf t n).memory pid) i) →
      ∃ opg,
        ((L.runPrefix "fifo" rands nf t n).memory pid)[(L.runPrefix "fifo" rands nf t n).nextFrame pid]? =
          some (some (pid, opg)) ∧
        (L.fifoReplacement (L.runPrefix "fifo" rands nf t n) pid page).1 =
          (some (pid, opg), (L.runPrefix "fifo" rands nf t n).nextFrame pid) ∧
        ((L.handleAccess "fifo" rands tr cur pid page
            (L.runPrefix "fifo" rands nf t n)).memory pid)[(L.runPrefix "fifo" rands nf t n).nextFrame pid]? =
          some (some (pid, page)) ∧
        (∀ i, i ≠ (L.runPrefix "fifo" rands nf t n).nextFrame pid →
          ((L.handleAccess "fifo" rands tr cur pid page
            (L.runPrefix "fifo" rands nf t n)).memory pid)[i]? =
          ((L.runPrefix "fifo" rands nf t n).memory pid)[i]?) ∧
        (∀ q, q ≠ pid →
          (L.handleAccess "fifo" rands tr cur pid page
            (L.runPrefix "fifo" rands nf t n)).memory q =
          (L.runPrefix "fifo" rands nf t n).memory q) ∧
        (L.handleAccess "fifo" rands tr cur pid page
            (L.runPrefix "fifo" rands nf t n)).nextFrame pid =
          ((L.runPrefix "fifo" rands nf t n).nextFrame pid + 1) % (nf / 4) ∧
        (∀ q, q ≠ pid →
          (L.handleAccess "fifo" rands tr cur pid page
            (L.runPrefix "fifo" rands nf t n)).nextFrame q =
          (L.runPrefix "fifo" rands nf t n).nextFrame q) ∧
        (L.handleAccess "fifo" rands tr cur pid page
            (L.runPrefix "fifo" rands nf t n)).pageTables pid page =
          some ((L.runPrefix "fifo" rands nf t n).nextFrame pid) ∧
        (L.handleAccess "fifo" rands tr cur pid page
            (L.runPrefix "fifo" rands nf t n)).pageTables pid opg = none ∧
        (∀ q pg, ¬(q = pid ∧ pg = page) → ¬(q = pid ∧ pg = opg) →
          (L.handleAccess "fifo" rands tr cur pid page
            (L.runPrefix "fifo" rands nf t n)).pageTables q pg =
          (L.runPrefix "fifo" rands nf t n).pageTables q pg)) := by
  constructor
  · intro hnf hmiss hfull
    have h := ginv_runPrefix "fifo" rands nf t n hnf
    generalize hs : G.runPrefix "fifo" rands nf t n = s at h hmiss hfull ⊢
    have hclen : s.nextFrame < s.memory.length := by rw [h.len]; exact h.cursor
    rcases hfull s.nextFrame h.cursor with ⟨⟨opid, opg⟩, hocc⟩
    refine ⟨opid, opg, hocc, ?_, ?_⟩
    · simp only [G.fifoReplacement]
      rw [hocc]
      rfl
    have hne : (opid, opg) ≠ (pid, page) := by
      intro heq
      rw [heq] at hocc
      have := (h.bij pid page s.nextFrame).mpr hocc
      rw [hmiss] at this
      cases this
    have hocc2 : (G.bump pid s).memory[(G.bump pid s).nextFrame]? =
        some (some (opid, opg)) := hocc
    rw [G.handleAccess_miss "fifo" rands tr cur hmiss,
      G.missDispatch_full_fifo rands tr cur hocc2]
    refine ⟨?_, ?_, ?_, ?_, ?_, ?_⟩
    · show (s.memory.set s.nextFrame (some (pid, page)))[s.nextFrame]? = _
      rw [set_getElem? _ _ _ hclen, if_pos rfl]
    · intro f hf
      show (s.memory.set s.nextFrame (some (pid, page)))[f]? = _
      rw [set_getElem? _ _ _ hclen, if_neg hf]
    · show (s.nextFrame + 1) % s.memoryFrames = _
      rw [h.frames]
    · show ptInsert (ptErase s.pageTables opid opg) pid page s.nextFrame pid page = _
      rw [ptInsert_eq, if_pos ⟨rfl, rfl⟩]
    · show ptInsert (ptErase s.pageTables opid opg) pid page s.nextFrame opid opg = _
      rw [ptInsert_eq, if_neg (by rintro ⟨rfl, rfl⟩; exact hne rfl), ptErase_eq,
        if_pos ⟨rfl, rfl⟩]
    · intro q pg hq1 hq2
      show ptInsert (ptErase s.pageTables opid opg) pid page s.nextFrame q pg = _
      rw [ptInsert_eq, if_neg hq1, ptErase_eq, if_neg hq2]
  · intro hnf hmiss hfull
    have h := linv_runPrefix "fifo" rands nf t n hnf
    generalize hs : L.runPrefix "fifo" rands nf t n = s at h hmiss hfull ⊢
    have hclen : s.nextFrame pid < (s.memory pid).length := by
      rw [h.len pid]; exact h.cursor pid
    rcases hfull (s.nextFrame pid) (h.cursor pid) with ⟨⟨opid, opg⟩, hocc⟩
    have hop : opid = pid := h.owner pid _ _ hocc
    rw [hop] at hocc
    have hfind : (List.range s.memoryFramesPerProcess).find?
        (fun i => decide ((s.memory pid)[i]? = some none)) = none := by
      rw [List.find?_eq_none]
      intro x hx
      rw [List.mem_range, h.mfpp] at hx
      rcases hfull x hx with ⟨pr, hpr⟩
      simp [hpr]
    refine ⟨opg, hocc, ?_, ?_⟩
    · simp only [L.fifoReplacement]
      rw [hocc]
      rfl
    have hne : opg ≠ page := by
      rintro rfl
      have := (h.bij pid opg (s.nextFrame pid)).mpr hocc
      rw [hmiss] at this
      cases this
    have hfind2 : (List.range (L.bump pid s).memoryFramesPerProcess).find?
        (fun i => decide (((L.bump pid s).memory pid)[i]? = some none)) = none := hfind
    have hocc2 : ((L.bump pid s).memory pid)[(L.bump pid s).nextFrame pid]? =
        some (some (pid, opg)) := hocc
    rw [L.l_handleAccess_miss "fifo" rands tr cur hmiss,
      L.l_missDispatch_full_fifo rands tr cur hfind2 hocc2]
    refine ⟨?_, ?_, ?_, ?_, ?_, ?_, ?_, ?_⟩
    · simp only [upd_self]
      show ((s.memory pid).set (s.nextFrame pid) (some (pid, page)))[s.nextFrame pid]? = _
      rw [set_getElem? _ _ _ hclen, if_pos rfl]
    · intro i hi
      simp only [upd_self]
      show ((s.memory pid).set (s.nextFrame pid) (some (pid, page)))[i]? = _
      rw [set_getElem? _ _ _ hclen, if_neg hi]
    · intro q hq
      simp only [upd_ne _ _ _ _ hq]
      rfl
    · simp only [upd_self]
      show (s.nextFrame pid + 1) % s.memoryFramesPerProcess = _
      rw [h.mfpp]
    · intro q hq
      simp only [upd_ne _ _ _ _ hq]
      rfl
    · show ptInsert (ptErase s.pageTables pid opg) pid page (s.nextFrame pid) pid page = _
      rw [ptInsert_eq, if_pos ⟨rfl, rfl⟩]
    · show ptInsert (ptErase s.pageTables pid opg) pid page (s.nextFrame pid) pid opg = _
      rw [ptInsert_eq, if_neg (by rintro ⟨-, rfl⟩; exact hne rfl), ptErase_eq,
        if_pos ⟨rfl, rfl⟩]
    · intro q pg hq1 hq2
      show ptInsert (ptErase s.pageTables pid opg) pid page (s.nextFrame pid) q pg = _
      rw [ptInsert_eq, if_neg hq1, ptErase_eq, if_neg hq2]

end VMM

namespace VMM

/-- Witness for C4: one-frame Global pool and four-frame Local pool, full
after one access; the next (missing) access advances the region cursor by
one modulo the region size. -/
theorem claim_C4_witness :
    (G.handleAccess "fifo" (fun _ => 0) [] 0 0 2
        (G.runPrefix "fifo" (fun _ => 0) 1 [(0, 1)] 1)).nextFrame =
      ((G.runPrefix "fifo" (fun _ => 0) 1 [(0, 1)] 1).nextFrame + 1) % 1 ∧
    (L.handleAccess "fifo" (fun _ => 0) [] 0 0 2
        (L.runPrefix "fifo" (fun _ => 0) 4 [(0, 1)] 1)).nextFrame 0 =
      ((L.runPrefix "fifo" (fun _ => 0) 4 [(0, 1)] 1).nextFrame 0 + 1) % (4 / 4) := by
  constructor
  · obtain ⟨opid, opg, -, -, -, -, h5, -⟩ :=
      (claim_C4 (fun _ => 0) [(0, 1)] [] 1 0 0 2 1).1 (by decide) (by decide) (by decide)
    exact h5
  · obtain ⟨opg, -, -, -, -, -, h6, -⟩ :=
      (claim_C4 (fun _ => 0) [(0, 1)] [] 1 0 0 2 4).2 (by decide) (by decide) (by decide)
    exact h6

end VMM

namespace VMM

/-- C6.  Unrecognized-policy behaviour, in both engines: on a miss with the
reachable region fully occupied under a policy string that is none of fifo,
lru, optimal, random, no eviction logic runs: the frame pool, the page
tables, the LRU bookkeeping and the cursors are all left unchanged (in
particular no mapping for the faulting page is installed anywhere), while
both fault counters are still incremented. -/
theorem claim_C6 (policy : String) (rands : Nat → Nat) (nf : Nat)
    (t tr : List Access) (n cur pid page : Nat)
    (h1 : policy ≠ "fifo") (h2 : policy ≠ "lru") (h3 : policy ≠ "optimal")
    (h4 : policy ≠ "random") :
    (1 ≤ nf →
      (G.runPrefix policy rands nf t n).pageTables pid page = none →
      (∀ f, f < nf → isOcc (G.runPrefix policy rands nf t n).memory f) →
      (G.handleAccess policy rands tr cur pid page
          (G.runPrefix policy rands nf t n)).memory =
        (G.runPrefix policy rands nf t n).memory ∧
      (G.handleAccess policy rands tr cur pid page
          (G.runPrefix policy rands nf t n)).pageTables =
        (G.runPrefix policy rands nf t n).pageTables ∧
      (G.handleAccess policy rands tr cur pid page
          (G.runPrefix policy rands nf t n)).pageTables pid page = none ∧
      (G.handleAccess policy rands tr cur pid page
          (G.runPrefix policy rands nf t n)).lruList =
        (G.runPrefix policy rands nf t n).lruList ∧
      (G.handleAccess policy rands tr cur pid page
          (G.runPrefix policy rands nf t n)).nextFrame =
        (G.runPrefix policy rands nf t n).nextFrame ∧
      (G.handleAccess policy rands tr cur pid page
          (G.runPrefix policy rands nf t n)).globalFaults =
        (G.runPrefix policy rands nf t n).globalFaults + 1 ∧
      (G.handleAccess policy rands tr cur pid page
          (G.runPrefix policy rands nf t n)).faultCounts pid =
        (G.runPrefix policy rands nf t n).faultCounts pid + 1) ∧
    (4 ≤ nf →
      (L.runPrefix policy rands nf t n).pageTables pid page = none →
      (∀ i, i < nf / 4 → isOcc ((L.runPrefix policy rands nf t n).memory pid) i) →
      (L.handleAccess policy rands tr cur pid page
          (L.runPrefix policy rands nf t n)).memory =
        (L.runPrefix policy rands nf t n).memory ∧
      (L.handleAccess policy rands tr cur pid page
          (L.runPrefix policy rands nf t n)).pageTables =
        (L.runPrefix policy rands nf t n).pageTables ∧
      (L.handleAccess policy rands tr cur pid page
          (L.runPrefix policy rands nf t n)).pageTables pid page = none ∧
      (L.handleAccess policy rands tr cur pid page
          (L.runPrefix policy rands nf t n)).lruList =
        (L.runPrefix policy rands nf t n).lruList ∧
      (L.handleAccess policy rands tr cur pid page
          (L.runPrefix policy rands nf t n)).nextFrame =
        (L.runPrefix policy rands nf t n).nextFrame ∧
      (L.handleAccess policy rands tr cur pid page
          (L.runPrefix policy rands nf t n)).globalFaults =
        (L.runPrefix policy rands nf t n).globalFaults + 1 ∧
      (L.handleAccess policy rands tr cur pid page
          (L.runPrefix policy rands nf t n)).faultCounts pid =
        (L.runPrefix policy rands nf t n).faultCounts pid + 1) := by
  constructor
  · intro hnf hmiss hfull
    have h := ginv_runPrefix policy rands nf t n hnf
    generalize hs : G.runPrefix policy rands nf t n = s at h hmiss hfull ⊢
    have hcur : ¬(s.memory[s.nextFrame]? = some none) := by
      rcases hfull s.nextFrame h.cursor with ⟨pr, hpr⟩
      rw [hpr]
      simp
    have hcur2 : ¬((G.bump pid s).memory[(G.bump pid s).nextFrame]? = some none) := hcur
    rw [G.handleAccess_miss policy rands tr cur hmiss,
      G.missDispatch_full_other policy rands tr cur hcur2 h1 h2 h3 h4]
    refine ⟨rfl, rfl, hmiss, rfl, rfl, rfl, ?_⟩
    show (if pid = pid then s.faultCounts pid + 1 else s.faultCounts pid) = _
    rw [if_pos rfl]
  · intro hnf hmiss hfull
    have h := linv_runPrefix policy rands nf t n hnf
    generalize hs : L.runPrefix policy rands nf t n = s at h hmiss hfull ⊢
    have hfind : (List.range (L.bump pid s).memoryFramesPerProcess).find?
        (fun i => decide (((L.bump pid s).memory pid)[i]? = some none)) = none := by
      rw [List.find?_eq_none]
      intro x hx
      rw [List.mem_range] at hx
      have hx2 : x < nf / 4 := by
        have : (L.bump pid s).memoryFramesPerProcess = s.memoryFramesPerProcess := rfl
        rw [this, h.mfpp] at hx
        exact hx
      rcases hfull x hx2 with ⟨pr, hpr⟩
      have hpr2 : ((L.bump pid s).memory pid)[x]? = some (some pr) := hpr
      simp [hpr2]
    rw [L.l_handleAccess_miss policy rands tr cur hmiss,
      L.l_missDispatch_full_other policy rands tr cur hfind h1 h2 h3 h4]
    refine ⟨rfl, rfl, hmiss, rfl, rfl, rfl, ?_⟩
    show (if pid = pid then s.faultCounts pid + 1 else s.faultCounts pid) = _
    rw [if_pos rfl]

/-- Witness for C6 with the unrecognized policy string clock on full
one-frame Global and four-frame Local pools. -/
theorem claim_C6_witness :
    (G.handleAccess "clock" (fun _ => 0) [] 0 0 2
        (G.runPrefix "clock" (fun _ => 0) 1 [(0, 1)] 1)).pageTables 0 2 = none ∧
    (L.handleAccess "clock" (fun _ => 0) [] 0 0 2
        (L.runPrefix "clock" (fun _ => 0) 4 [(0, 1)] 1)).pageTables 0 2 = none :=
  ⟨(((claim_C6 "clock" (fun _ => 0) 1 [(0, 1)] [] 1 0 0 2 (by decide) (by decide)
      (by decide) (by decide)).1 (by decide) (by decide) (by decide)).2.2).1,
   (((claim_C6 "clock" (fun _ => 0) 4 [(0, 1)] [] 1 0 0 2 (by decide) (by decide)
      (by decide) (by decide)).2 (by decide) (by decide) (by decide)).2.2).1⟩

end VMM

namespace VMM

/-- The next-use index of the occupant of frame i: none when the frame is
free or its occupant is never accessed again after position cur. -/
def frameUse (mem : List (Option (Nat × Nat))) (trace : List Access)
    (cur : Nat) (i : Nat) : Option Nat :=
  (occAt mem i).bind (nextUseIdx trace cur)

theorem frameUse_eq_some {mem : List (Option (Nat × Nat))} {trace : List Access}
    {cur i j : Nat} (h : frameUse mem trace cur i = some j) :
    ∃ pr, occAt mem i = some pr ∧ nextUseIdx trace cur pr = some j := by
  unfold frameUse at h
  rcases ho : occAt mem i with _ | pr
  · rw [ho] at h; cases h
  · rw [ho] at h
    exact ⟨pr, rfl, h⟩

namespace G

/-- If some scanned frame has no future use, the loop stops at the first
such frame of the (sorted) scan order. -/
theorem optimalLoop_first_none (mem : List (Option (Nat × Nat)))
    (trace : List Access) (cur : Nat) :
    ∀ (l : List Nat), l.Sorted (· < ·) →
      ∀ (fi ff : Int) (old : Option (Nat × Nat)),
      (∃ x ∈ l, frameUse mem trace cur x = none) →
      ∃ v ∈ l, (optimalLoop mem trace cur l fi ff old).1 = (v : Int) ∧
        frameUse mem trace cur v = none ∧
        ∀ y ∈ l, y < v → frameUse mem trace cur y ≠ none := by
  intro l
  induction l with
  | nil => intro _ fi ff old h; simp at h
  | cons x l2 ih =>
    intro hsort fi ff old hex
    rcases hfu : frameUse mem trace cur x with _ | jx
    · -- the head already has no future use: the loop breaks here
      refine ⟨x, by simp, ?_, hfu, ?_⟩
      · unfold frameUse at hfu
        rcases ho : occAt mem x with _ | pr
        · simp [optimalLoop, ho]
        · rw [ho] at hfu
          simp only [Option.bind] at hfu
          simp [optimalLoop, ho, hfu]
      · intro y hy hylt
        rcases List.mem_cons.mp hy with rfl | hy2
        · omega
        · exfalso
          have := (List.pairwise_cons.mp hsort).1 y hy2
          omega
    · rcases frameUse_eq_some hfu with ⟨pr, ho, hn⟩
      have hex2 : ∃ y ∈ l2, frameUse mem trace cur y = none := by
        rcases hex with ⟨y, hy, hyn⟩
        rcases List.mem_cons.mp hy with rfl | hy2
        · rw [hfu] at hyn; cases hyn
        · exact ⟨y, hy2, hyn⟩
      have hsort2 : l2.Sorted (· < ·) := (List.pairwise_cons.mp hsort).2
      have hstep : ∀ (fi2 ff2 : Int) (old2 : Option (Nat × Nat)),
          optimalLoop mem trace cur (x :: l2) fi2 ff2 old2 =
          (if fi2 < (jx : Int) then optimalLoop mem trace cur l2 (jx : Int) (x : Int) (some pr)
           else optimalLoop mem trace cur l2 fi2 ff2 old2) := by
        intro fi2 ff2 old2
        by_cases hc : fi2 < (jx : Int) <;> simp [optimalLoop, ho, hn, hc]
      rw [hstep fi ff old]
      by_cases hc : fi < (jx : Int)
      · rw [if_pos hc]
        rcases ih hsort2 (jx : Int) (x : Int) (some pr) hex2 with ⟨v, hv, hr, hvn, hbefore⟩
        refine ⟨v, by simp [hv], hr, hvn, ?_⟩
        intro y hy hylt
        rcases List.mem_cons.mp hy with rfl | hy2
        · rw [hfu]; simp
        · exact hbefore y hy2 hylt
      · rw [if_neg hc]
        rcases ih hsort2 fi ff old hex2 with ⟨v, hv, hr, hvn, hbefore⟩
        refine ⟨v, by simp [hv], hr, hvn, ?_⟩
        intro y hy hylt
        rcases List.mem_cons.mp hy with rfl | hy2
        · rw [hfu]; simp
        · exact hbefore y hy2 hylt

/-- If every scanned frame has a future use, the loop either keeps the
accumulator (all uses at or below fi) or returns a scanned frame whose use
is maximal among the scanned frames and above fi. -/
theorem optimalLoop_all_some (mem : List (Option (Nat × Nat)))
    (trace : List Access) (cur : Nat) :
    ∀ (l : List Nat) (fi ff : Int) (old : Option (Nat × Nat)),
      (∀ x ∈ l, frameUse mem trace cur x ≠ none) →
      (optimalLoop mem trace cur l fi ff old = (ff, old) ∧
        ∀ x ∈ l, ∃ jx, frameUse mem trace cur x = some jx ∧ (jx : Int) ≤ fi) ∨
      (∃ v ∈ l, ∃ jv,
        (optimalLoop mem trace cur l fi ff old).1 = (v : Int) ∧
        (optimalLoop mem trace cur l fi ff old).2 = occAt mem v ∧
        frameUse mem trace cur v = some jv ∧ fi < (jv : Int) ∧
        ∀ x ∈ l, ∃ jx, frameUse mem trace cur x = some jx ∧ jx ≤ jv) := by
  intro l
  induction l with
  | nil =>
    intro fi ff old _
    exact Or.inl ⟨rfl, by simp⟩
  | cons x l2 ih =>
    intro fi ff old hall
    rcases hfu : frameUse mem trace cur x with _ | jx
    · exact absurd hfu (hall x (by simp))
    rcases frameUse_eq_some hfu with ⟨pr, ho, hn⟩
    have hall2 : ∀ y ∈ l2, frameUse mem trace cur y ≠ none :=
      fun y hy => hall y (by simp [hy])
    have hstep : optimalLoop mem trace cur (x :: l2) fi ff old =
        (if fi < (jx : Int) then optimalLoop mem trace cur l2 (jx : Int) (x : Int) (some pr)
         else optimalLoop mem trace cur l2 fi ff old) := by
      by_cases hc : fi < (jx : Int) <;> simp [optimalLoop, ho, hn, hc]
    rw [hstep]
    by_cases hc : fi < (jx : Int)
    · rw [if_pos hc]
      rcases ih (jx : Int) (x : Int) (some pr) hall2 with ⟨heq, hle⟩ | ⟨v, hv, jv, h1, h2, h3, h4, h5⟩
      · right
        refine ⟨x, by simp, jx, by rw [heq], by rw [heq, ho], hfu, hc, ?_⟩
        intro y hy
        rcases List.mem_cons.mp hy with rfl | hy2
        · exact ⟨jx, hfu, le_refl _⟩
        · rcases hle y hy2 with ⟨jy, hjy, hjyle⟩
          exact ⟨jy, hjy, by omega⟩
      · right
        refine ⟨v, by simp [hv], jv, h1, h2, h3, by omega, ?_⟩
        intro y hy
        rcases List.mem_cons.mp hy with rfl | hy2
        · exact ⟨jx, hfu, by omega⟩
        · exact h5 y hy2
    · rw [if_neg hc]
      rcases ih fi ff old hall2 with ⟨heq, hle⟩ | ⟨v, hv, jv, h1, h2, h3, h4, h5⟩
      · left
        refine ⟨heq, ?_⟩
        intro y hy
        rcases List.mem_cons.mp hy with rfl | hy2
        · exact ⟨jx, hfu, by omega⟩
        · exact hle y hy2
      · right
        refine ⟨v, by simp [hv], jv, h1, h2, h3, h4, ?_⟩
        intro y hy
        rcases List.mem_cons.mp hy with rfl | hy2
        · exact ⟨jx, hfu, by omega⟩
        · exact h5 y hy2

end G

end VMM

namespace VMM

theorem findIdx?_spec {α : Type} (p : α → Bool) :
    ∀ (l : List α) (k : Nat), l.findIdx? p = some k →
      ∃ a, l[k]? = some a ∧ p a = true ∧
        ∀ m, m < k → ∃ b, l[m]? = some b ∧ p b = false := by
  intro l
  induction l with
  | nil => intro k h; rw [List.findIdx?_nil] at h; cases h
  | cons x xs ih =>
    intro k h
    rw [List.findIdx?_cons] at h
    rcases hp : p x with _ | _
    · rw [hp] at h
      simp only [Bool.false_eq_true, if_false, Nat.zero_add, List.findIdx?_succ] at h
      rcases hk : xs.findIdx? p with _ | k2
      · rw [hk] at h; cases h
      · rw [hk] at h
        simp only [Option.map_some, Option.map_some'] at h
        cases h
        rcases ih k2 hk with ⟨a, ha, hpa, hbelow⟩
        refine ⟨a, by simpa using ha, hpa, ?_⟩
        intro m hm
        rcases m with _ | m2
        · exact ⟨x, by simp, hp⟩
        · rcases hbelow m2 (by omega) with ⟨b, hb, hpb⟩
          exact ⟨b, by simpa using hb, hpb⟩
    · rw [hp] at h
      simp only [if_true] at h
      cases h
      exact ⟨x, by simp, hp, by omega⟩

/-- What a returned next-use index means: the trace matches the pair there,
strictly after cur, and at no position in between. -/
theorem nextUseIdx_some {t : List Access} {cur : Nat} {pr : Access} {j : Nat}
    (h : nextUseIdx t cur pr = some j) :
    cur < j ∧ t[j]? = some pr ∧
      ∀ m, cur < m → m < j → t[m]? ≠ some pr := by
  unfold nextUseIdx at h
  rcases hf : (t.drop (cur + 1)).findIdx? (fun a => a = pr) with _ | k
  · rw [hf] at h; cases h
  · rw [hf] at h
    cases h
    rcases findIdx?_spec _ _ _ hf with ⟨a, ha, hpa, hbelow⟩
    rw [List.getElem?_drop] at ha
    simp only [decide_eq_true_eq] at hpa
    subst hpa
    refine ⟨by omega, ha, ?_⟩
    intro m hm1 hm2 hme
    rcases hbelow (m - (cur + 1)) (by omega) with ⟨b, hb, hpb⟩
    rw [List.getElem?_drop] at hb
    have : cur + 1 + (m - (cur + 1)) = m := by omega
    rw [this] at hb
    rw [hme] at hb
    cases hb
    simp at hpb

/-- A none next-use means the pair occurs nowhere in the trace after cur. -/
theorem nextUseIdx_none {t : List Access} {cur : Nat} {pr : Access}
    (h : nextUseIdx t cur pr = none) :
    ∀ m, cur < m → t[m]? ≠ some pr := by
  unfold nextUseIdx at h
  rcases hf : (t.drop (cur + 1)).findIdx? (fun a => a = pr) with _ | k
  · intro m hm hme
    rw [List.findIdx?_eq_none_iff] at hf
    have hmem : pr ∈ t.drop (cur + 1) := by
      have : (t.drop (cur + 1))[m - (cur + 1)]? = some pr := by
        rw [List.getElem?_drop]
        have : cur + 1 + (m - (cur + 1)) = m := by omega
        rw [this]
        exact hme
      exact mem_of_getElem? this
    have := hf pr hmem
    simp at this
  · rw [hf] at h; cases h

end VMM

namespace VMM

theorem occAt_eq_some {mem : List (Option (Nat × Nat))} {i : Nat} {pr : Nat × Nat} :
    occAt mem i = some pr ↔ mem[i]? = some (some pr) := by
  unfold occAt
  rcases mem[i]? with _ | x
  · simp [Option.join]
  · rcases x with _ | pr2 <;> simp [Option.join]

/-- C5.  Optimal eviction rule with short-circuit, in both engines: on a
miss with the region full under policy optimal, the victim frame v of the
selection loop satisfies: if some frame of the region has no future use
(scanning the full trace strictly after the current position for an access
equal to the occupant pair), v is the first such frame in ascending index
order; otherwise v is the frame whose next matching access is strictly
farthest in the future among all frames of the region.  The new pair is
installed in v, the displaced pair's mapping is erased, and no other frame
or table entry changes. -/
theorem claim_C5 (rands : Nat → Nat) (t tr : List Access)
    (n cur pid page nf : Nat) :
    (1 ≤ nf →
      (G.runPrefix "optimal" rands nf t n).pageTables pid page = none →
      (∀ f, f < nf → isOcc (G.runPrefix "optimal" rands nf t n).memory f) →
      ∃ v opid opg, v < nf ∧
        occAt (G.runPrefix "optimal" rands nf t n).memory v = some (opid, opg) ∧
        ((∃ x, x < nf ∧
            frameUse (G.runPrefix "optimal" rands nf t n).memory tr cur x = none) →
          frameUse (G.runPrefix "optimal" rands nf t n).memory tr cur v = none ∧
          ∀ y, y < v →
            frameUse (G.runPrefix "optimal" rands nf t n).memory tr cur y ≠ none) ∧
        ((∀ x, x < nf →
            frameUse (G.runPrefix "optimal" rands nf t n).memory tr cur x ≠ none) →
          ∃ jv, frameUse (G.runPrefix "optimal" rands nf t n).memory tr cur v = some jv ∧
            ∀ x, x < nf → x ≠ v →
              ∃ jx, frameUse (G.runPrefix "optimal" rands nf t n).memory tr cur x = some jx ∧
                jx < jv) ∧
        (G.handleAccess "optimal" rands tr cur pid page
            (G.runPrefix "optimal" rands nf t n)).memory[v]? = some (some (pid, page)) ∧
        (∀ f, f ≠ v →
          (G.handleAccess "optimal" rands tr cur pid page
            (G.runPrefix "optimal" rands nf t n)).memory[f]? =
          (G.runPrefix "optimal" rands nf t n).memory[f]?) ∧
        (G.handleAccess "optimal" rands tr cur pid page
            (G.runPrefix "optimal" rands nf t n)).pageTables pid page = some v ∧
        (G.handleAccess "optimal" rands tr cur pid page
            (G.runPrefix "optimal" rands nf t n)).pageTables opid opg = none ∧
        (∀ q pg, ¬(q = pid ∧ pg = page) → ¬(q = opid ∧ pg = opg) →
          (G.handleAccess "optimal" rands tr cur pid page
            (G.runPrefix "optimal" rands nf t n)).pageTables q pg =
          (G.runPrefix "optimal" rands nf t n).pageTables q pg)) ∧
    (4 ≤ nf →
      (L.runPrefix "optimal" rands nf t n).pageTables pid page = none →
      (∀ i, i < nf / 4 → isOcc ((L.runPrefix "optimal" rands nf t n).memory pid) i) →
      ∃ v opg, v < nf / 4 ∧
        occAt ((L.runPrefix "optimal" rands nf t n).memory pid) v = some (pid, opg) ∧
        ((∃ x, x < nf / 4 ∧
            frameUse ((L.runPrefix "optimal" rands nf t n).memory pid) tr cur x = none) →
          frameUse ((L.runPrefix "optimal" rands nf t n).memory pid) tr cur v = none ∧
          ∀ y, y < v →
            frameUse ((L.runPrefix "optimal" rands nf t n).memory pid) tr cur y ≠ none) ∧
        ((∀ x, x < nf / 4 →
            frameUse ((L.runPrefix "optimal" rands nf t n).memory pid) tr cur x ≠ none) →
          ∃ jv, frameUse ((L.runPrefix "optimal" rands nf t n).memory pid) tr cur v =
              some jv ∧
            ∀ x, x < nf / 4 → x ≠ v →
              ∃ jx, frameUse ((L.runPrefix "optimal" rands nf t n).memory pid) tr cur x =
                some jx ∧ jx < jv) ∧
        ((L.handleAccess "optimal" rands tr cur pid page
            (L.runPrefix "optimal" rands nf t n)).memory pid)[v]? =
          some (some (pid, page)) ∧
        (∀ i, i ≠ v →
          ((L.handleAccess "optimal" rands tr cur pid page
            (L.runPrefix "optimal" rands nf t n)).memory pid)[i]? =
          ((L.runPrefix "optimal" rands nf t n).memory pid)[i]?) ∧
        (∀ q, q ≠ pid →
          (L.handleAccess "optimal" rands tr cur pid page
            (L.runPrefix "optimal" rands nf t n)).memory q =
          (L.runPrefix "optimal" rands nf t n).memory q) ∧
        (L.handleAccess "optimal" rands tr cur pid page
            (L.runPrefix "optimal" rands nf t n)).pageTables pid page = some v ∧
        (L.handleAccess "optimal" rands tr cur pid page
            (L.runPrefix "optimal" rands nf t n)).pageTables pid opg = none ∧
        (∀ q pg, ¬(q = pid ∧ pg = page) → ¬(q = pid ∧ pg = opg) →
          (L.handleAccess "optimal" rands tr cur pid page
            (L.runPrefix "optimal" rands nf t n)).pageTables q pg =
          (L.runPrefix "optimal" rands nf t n).pageTables q pg)) := by
  constructor
  · intro hnf hmiss hfull
    have h := ginv_runPrefix "optimal" rands nf t n hnf
    generalize hs : G.runPrefix "optimal" rands nf t n = s at h hmiss hfull ⊢
    rcases hrl : List.range s.memoryFrames with _ | ⟨i0, irest⟩
    · exfalso
      have : s.memoryFrames = 0 := by simpa using congrArg List.length hrl
      rw [h.frames] at this
      omega
    rcases G.optimalLoop_init s.memory tr cur i0 irest with ⟨v, hv, hres1, hres2⟩
    have hvlt : v < nf := by
      have : v ∈ List.range s.memoryFrames := by rw [hrl]; exact hv
      rw [List.mem_range, h.frames] at this
      exact this
    rcases hfull v hvlt with ⟨⟨opid, opg⟩, hoccm⟩
    have hocc : occAt s.memory v = some (opid, opg) := occAt_eq_some.mpr hoccm
    have hloop : G.optimalLoop s.memory tr cur (List.range s.memoryFrames)
        (-1) (-1) none = ((v : Int), some (opid, opg)) := by
      rw [hrl]
      have h2 := hres2
      rw [hocc] at h2
      exact Prod.ext hres1 h2.symm
    have hvlen : v < s.memory.length := by rw [h.len]; exact hvlt
    have hne : (opid, opg) ≠ (pid, page) := by
      intro heq
      rw [heq] at hoccm
      have := (h.bij pid page v).mpr hoccm
      rw [hmiss] at this
      cases this
    refine ⟨v, opid, opg, hvlt, hocc, ?_, ?_, ?_⟩
    · -- short-circuit case
      intro hA
      have hA2 : ∃ x ∈ List.range s.memoryFrames, frameUse s.memory tr cur x = none := by
        rcases hA with ⟨x, hx, hxn⟩
        exact ⟨x, by rw [List.mem_range, h.frames]; exact hx, hxn⟩
      rcases G.optimalLoop_first_none s.memory tr cur (List.range s.memoryFrames)
        (List.sorted_lt_range _) (-1) (-1) none hA2 with ⟨v2, hv2, hr2, hv2n, hbefore⟩
      have hvv : v2 = v := by
        rw [hloop] at hr2
        have h3 : ((v : Int)) = ((v2 : Int)) := hr2
        exact_mod_cast h3.symm
      subst hvv
      refine ⟨hv2n, ?_⟩
      intro y hy
      exact hbefore y (by
        rw [List.mem_range]
        have : v2 ∈ List.range s.memoryFrames := by rw [hrl]; exact hv
        rw [List.mem_range] at this
        omega) hy
    · -- all-frames-reused case
      intro hB
      have hB2 : ∀ x ∈ List.range s.memoryFrames, frameUse s.memory tr cur x ≠ none := by
        intro x hx
        rw [List.mem_range, h.frames] at hx
        exact hB x hx
      rcases G.optimalLoop_all_some s.memory tr cur (List.range s.memoryFrames)
        (-1) (-1) none hB2 with ⟨heq, hle⟩ | ⟨v2, hv2, jv, hr1, hr2, hjv, hfi, hmax⟩
      · exfalso
        rcases hle i0 (by rw [hrl]; simp) with ⟨j, _, hj⟩
        have : (0 : Int) ≤ (j : Int) := Int.natCast_nonneg j
        omega
      · have hvv : v2 = v := by
          rw [hloop] at hr1
          have h3 : ((v : Int)) = ((v2 : Int)) := hr1
          exact_mod_cast h3.symm
        subst hvv
        refine ⟨jv, hjv, ?_⟩
        intro x hx hxv
        rcases hmax x (by rw [List.mem_range, h.frames]; exact hx) with ⟨jx, hjx, hjxle⟩
        refine ⟨jx, hjx, ?_⟩
        rcases Nat.lt_or_ge jx jv with hlt | hge
        · exact hlt
        · exfalso
          have hjeq : jx = jv := by omega
          subst hjeq
          rcases frameUse_eq_some hjx with ⟨prx, hox, hnx⟩
          rcases frameUse_eq_some hjv with ⟨prv, hov, hnv⟩
          rcases nextUseIdx_some hnx with ⟨-, htx, -⟩
          rcases nextUseIdx_some hnv with ⟨-, htv, -⟩
          rw [htx] at htv
          cases htv
          have hbx := (h.bij prx.1 prx.2 x).mpr (by
            rw [← occAt_eq_some]
            simpa using hox)
          have hbv := (h.bij prx.1 prx.2 v2).mpr (by
            rw [← occAt_eq_some]
            simpa using hov)
          rw [hbx] at hbv
          cases hbv
          exact hxv rfl
    · -- effect on the state
      have hloop2 : G.optimalLoop (G.bump pid s).memory tr cur
          (List.range (G.bump pid s).memoryFrames) (-1) (-1) none =
          ((v : Int), some (opid, opg)) := hloop
      have hcur : ¬((G.bump pid s).memory[(G.bump pid s).nextFrame]? = some none) := by
        rcases hfull s.nextFrame h.cursor with ⟨pr, hpr⟩
        show ¬(s.memory[s.nextFrame]? = some none)
        rw [hpr]
        simp
      rw [G.handleAccess_miss "optimal" rands tr cur hmiss,
        G.missDispatch_full_optimal rands tr cur hcur hloop2]
      have htn : ((v : Int)).toNat = v := Int.toNat_natCast v
      refine ⟨?_, ?_, ?_, ?_, ?_⟩
      · show (s.memory.set ((v : Int)).toNat (some (pid, page)))[v]? = _
        rw [htn, set_getElem? _ _ _ hvlen, if_pos rfl]
      · intro f hf
        show (s.memory.set ((v : Int)).toNat (some (pid, page)))[f]? = _
        rw [htn, set_getElem? _ _ _ hvlen, if_neg hf]
      · show ptInsert (ptErase s.pageTables opid opg) pid page ((v : Int)).toNat pid page = _
        rw [htn, ptInsert_eq, if_pos ⟨rfl, rfl⟩]
      · show ptInsert (ptErase s.pageTables opid opg) pid page ((v : Int)).toNat opid opg = _
        rw [ptInsert_eq, if_neg (by rintro ⟨rfl, rfl⟩; exact hne rfl), ptErase_eq,
          if_pos ⟨rfl, rfl⟩]
      · intro q pg hq1 hq2
        show ptInsert (ptErase s.pageTables opid opg) pid page ((v : Int)).toNat q pg = _
        rw [ptInsert_eq, if_neg hq1, ptErase_eq, if_neg hq2]
  · intro hnf hmiss hfull
    have h := linv_runPrefix "optimal" rands nf t n hnf
    generalize hs : L.runPrefix "optimal" rands nf t n = s at h hmiss hfull ⊢
    rcases hrl : List.range s.memoryFramesPerProcess with _ | ⟨i0, irest⟩
    · exfalso
      have : s.memoryFramesPerProcess = 0 := by simpa using congrArg List.length hrl
      rw [h.mfpp] at this
      omega
    rcases G.optimalLoop_init (s.memory pid) tr cur i0 irest with ⟨v, hv, hres1, hres2⟩
    have hvlt : v < nf / 4 := by
      have : v ∈ List.range s.memoryFramesPerProcess := by rw [hrl]; exact hv
      rw [List.mem_range, h.mfpp] at this
      exact this
    rcases hfull v hvlt with ⟨⟨opid, opg⟩, hoccm⟩
    have hop : opid = pid := h.owner pid _ _ hoccm
    rw [hop] at hoccm
    have hocc : occAt (s.memory pid) v = some (pid, opg) := occAt_eq_some.mpr hoccm
    have hloop : G.optimalLoop (s.memory pid) tr cur
        (List.range s.memoryFramesPerProcess) (-1) (-1) none =
        ((v : Int), some (pid, opg)) := by
      rw [hrl]
      have h2 := hres2
      rw [hocc] at h2
      exact Prod.ext hres1 h2.symm
    have hvlen : v < (s.memory pid).length := by rw [h.len pid]; exact hvlt
    have hne : opg ≠ page := by
      rintro rfl
      have := (h.bij pid opg v).mpr hoccm
      rw [hmiss] at this
      cases this
    refine ⟨v, opg, hvlt, hocc, ?_, ?_, ?_⟩
    · intro hA
      have hA2 : ∃ x ∈ List.range s.memoryFramesPerProcess,
          frameUse (s.memory pid) tr cur x = none := by
        rcases hA with ⟨x, hx, hxn⟩
        exact ⟨x, by rw [List.mem_range, h.mfpp]; exact hx, hxn⟩
      rcases G.optimalLoop_first_none (s.memory pid) tr cur
        (List.range s.memoryFramesPerProcess) (List.sorted_lt_range _)
        (-1) (-1) none hA2 with ⟨v2, hv2, hr2, hv2n, hbefore⟩
      have hvv : v2 = v := by
        rw [hloop] at hr2
        have h3 : ((v : Int)) = ((v2 : Int)) := hr2
        exact_mod_cast h3.symm
      subst hvv
      refine ⟨hv2n, ?_⟩
      intro y hy
      exact hbefore y (by
        rw [List.mem_range]
        have : v2 ∈ List.range s.memoryFramesPerProcess := by rw [hrl]; exact hv
        rw [List.mem_range] at this
        omega) hy
    · intro hB
      have hB2 : ∀ x ∈ List.range s.memoryFramesPerProcess,
          frameUse (s.memory pid) tr cur x ≠ none := by
        intro x hx
        rw [List.mem_range, h.mfpp] at hx
        exact hB x hx
      rcases G.optimalLoop_all_some (s.memory pid) tr cur
        (List.range s.memoryFramesPerProcess) (-1) (-1) none hB2 with
        ⟨heq, hle⟩ | ⟨v2, hv2, jv, hr1, hr2, hjv, hfi, hmax⟩
      · exfalso
        rcases hle i0 (by rw [hrl]; simp) with ⟨j, _, hj⟩
        have : (0 : Int) ≤ (j : Int) := Int.natCast_nonneg j
        omega
      · have hvv : v2 = v := by
          rw [hloop] at hr1
          have h3 : ((v : Int)) = ((v2 : Int)) := hr1
          exact_mod_cast h3.symm
        subst hvv
        refine ⟨jv, hjv, ?_⟩
        intro x hx hxv
        rcases hmax x (by rw [List.mem_range, h.mfpp]; exact hx) with ⟨jx, hjx, hjxle⟩
        refine ⟨jx, hjx, ?_⟩
        rcases Nat.lt_or_ge jx jv with hlt | hge
        · exact hlt
        · exfalso
          have hjeq : jx = jv := by omega
          subst hjeq
          rcases frameUse_eq_some hjx with ⟨⟨a1, a2⟩, hox, hnx⟩
          rcases frameUse_eq_some hjv with ⟨⟨b1, b2⟩, hov, hnv⟩
          rcases nextUseIdx_some hnx with ⟨-, htx, -⟩
          rcases nextUseIdx_some hnv with ⟨-, htv, -⟩
          rw [htx] at htv
          cases htv
          have hmx : (s.memory pid)[x]? = some (some (a1, a2)) := occAt_eq_some.mp hox
          have hmv : (s.memory pid)[v2]? = some (some (a1, a2)) := occAt_eq_some.mp hov
          have ha1 : a1 = pid := h.owner pid x (a1, a2) hmx
          subst ha1
          have hbx := (h.bij a1 a2 x).mpr hmx
          have hbv := (h.bij a1 a2 v2).mpr hmv
          rw [hbx] at hbv
          cases hbv
          exact hxv rfl
    · have hfind : (List.range (L.bump pid s).memoryFramesPerProcess).find?
          (fun i => decide (((L.bump pid s).memory pid)[i]? = some none)) = none := by
        rw [List.find?_eq_none]
        intro x hx
        rw [List.mem_range] at hx
        have hx2 : x < nf / 4 := by
          have he : (L.bump pid s).memoryFramesPerProcess = s.memoryFramesPerProcess := rfl
          rw [he, h.mfpp] at hx
          exact hx
        rcases hfull x hx2 with ⟨pr, hpr⟩
        have hpr2 : ((L.bump pid s).memory pid)[x]? = some (some pr) := hpr
        simp [hpr2]
      have hloop2 : G.optimalLoop ((L.bump pid s).memory pid) tr cur
          (List.range (L.bump pid s).memoryFramesPerProcess) (-1) (-1) none =
          ((v : Int), some (pid, opg)) := hloop
      rw [L.l_handleAccess_miss "optimal" rands tr cur hmiss,
        L.l_missDispatch_full_optimal rands tr cur hfind hloop2]
      have htn : ((v : Int)).toNat = v := Int.toNat_natCast v
      refine ⟨?_, ?_, ?_, ?_, ?_, ?_⟩
      · simp only [upd_self]
        show ((s.memory pid).set ((v : Int)).toNat (some (pid, page)))[v]? = _
        rw [htn, set_getElem? _ _ _ hvlen, if_pos rfl]
      · intro i hi
        simp only [upd_self]
        show ((s.memory pid).set ((v : Int)).toNat (some (pid, page)))[i]? = _
        rw [htn, set_getElem? _ _ _ hvlen, if_neg hi]
      · intro q hq
        simp only [upd_ne _ _ _ _ hq]
        rfl
      · show ptInsert (ptErase s.pageTables pid opg) pid page ((v : Int)).toNat pid page = _
        rw [htn, ptInsert_eq, if_pos ⟨rfl, rfl⟩]
      · show ptInsert (ptErase s.pageTables pid opg) pid page ((v : Int)).toNat pid opg = _
        rw [ptInsert_eq, if_neg (by rintro ⟨-, rfl⟩; exact hne rfl), ptErase_eq,
          if_pos ⟨rfl, rfl⟩]
      · intro q pg hq1 hq2
        show ptInsert (ptErase s.pageTables pid opg) pid page ((v : Int)).toNat q pg = _
        rw [ptInsert_eq, if_neg hq1, ptErase_eq, if_neg hq2]

end VMM

namespace VMM

/-- Witness for C5 at concrete full pools: the missing page is installed at
the selected victim frame of the region. -/
theorem claim_C5_witness :
    (∃ v, v < 2 ∧
      (G.handleAccess "optimal" (fun _ => 0) [] 0 0 3
        (G.runPrefix "optimal" (fun _ => 0) 2 [(0, 1), (0, 2)] 2)).pageTables 0 3 =
        some v) ∧
    (∃ v, v < 4 / 4 ∧
      (L.handleAccess "optimal" (fun _ => 0) [] 0 0 3
        (L.runPrefix "optimal" (fun _ => 0) 4 [(0, 1)] 1)).pageTables 0 3 = some v) := by
  constructor
  · obtain ⟨v, opid, opg, h1, -, -, -, -, -, h7, -, -⟩ :=
      (claim_C5 (fun _ => 0) [(0, 1), (0, 2)] [] 2 0 0 3 2).1
        (by decide) (by decide) (by decide)
    exact ⟨v, h1, h7⟩
  · obtain ⟨v, opg, h1, -, -, -, -, -, -, h8, -, -⟩ :=
      (claim_C5 (fun _ => 0) [(0, 1)] [] 1 0 0 3 4).2
        (by decide) (by decide) (by decide)
    exact ⟨v, h1, h8⟩

end VMM

namespace VMM

/-- C10.  Local-engine in-bounds safety precondition: when num_frames ≥ 4
the per-process partition size nf / 4 is at least 1 and, after any prefix of
any trace under any policy, the embedding's error flag (set exactly where
the C++ would index a partition out of bounds, call front() on an empty
list, index with farthest_frame = -1, or take a modulus by zero in
randomReplacement) is still false; moreover every rotation cursor lies
inside its partition and every partition keeps length nf / 4. -/
theorem claim_C10 (policy : String) (rands : Nat → Nat) (nf : Nat)
    (t : List Access) (n : Nat) (h4 : 4 ≤ nf) :
    1 ≤ nf / 4 ∧
    (L.runPrefix policy rands nf t n).err = false ∧
    (∀ pid, (L.runPrefix policy rands nf t n).nextFrame pid < nf / 4) ∧
    (∀ pid, ((L.runPrefix policy rands nf t n).memory pid).length = nf / 4) ∧
    (L.runPrefix policy rands nf t n).memoryFramesPerProcess = nf / 4 := by
  have h := linv_runPrefix policy rands nf t n h4
  exact ⟨(Nat.one_le_div_iff (by omega)).mpr h4, h.errF, h.cursor, h.len, h.mfpp⟩

/-- Witness for C10: a concrete run of every-policy traffic with 5 frames
(partition size 1) keeps the error flag clear. -/
theorem claim_C10_witness :
    1 ≤ 5 / 4 ∧
    (L.runPrefix "random" (fun k => k + 3) 5 [(0, 1), (1, 2), (0, 3), (0, 1)] 4).err =
      false ∧
    (∀ pid, (L.runPrefix "random" (fun k => k + 3) 5
      [(0, 1), (1, 2), (0, 3), (0, 1)] 4).nextFrame pid < 5 / 4) ∧
    (∀ pid, ((L.runPrefix "random" (fun k => k + 3) 5
      [(0, 1), (1, 2), (0, 3), (0, 1)] 4).memory pid).length = 5 / 4) ∧
    (L.runPrefix "random" (fun k => k + 3) 5
      [(0, 1), (1, 2), (0, 3), (0, 1)] 4).memoryFramesPerProcess = 5 / 4 :=
  claim_C10 "random" (fun k => k + 3) 5 [(0, 1), (1, 2), (0, 3), (0, 1)] 4 (by decide)

end VMM

namespace VMM

namespace Belady

/-- Index of the first occurrence of page pr in the request list. -/
def firstUse : List Access → Access → Option Nat
  | [], _ => none
  | q :: t, pr => if q = pr then some 0 else (firstUse t pr).map (· + 1)

theorem firstUse_none {t : List Access} {pr : Access} :
    firstUse t pr = none ↔ pr ∉ t := by
  induction t with
  | nil => simp [firstUse]
  | cons q t ih =>
    by_cases hq : q = pr
    · subst hq
      simp [firstUse]
    · rcases h : firstUse t pr with _ | j
      · simp [firstUse, hq, h, ih.mp h, Ne.symm hq]
      · have : pr ∈ t := by
          by_contra hmem
          rw [← ih] at hmem
          rw [h] at hmem
          cases hmem
        simp [firstUse, hq, h, this]

/-- Order on next-use distances: none (never used again) is the top. -/
def oLE : Option Nat → Option Nat → Prop
  | _, none => True
  | none, some _ => False
  | some a, some b => a ≤ b

theorem oLE_refl (x : Option Nat) : oLE x x := by
  rcases x with _ | a <;> simp [oLE]

theorem oLE_top (x : Option Nat) : oLE x none := by
  rcases x with _ | a <;> simp [oLE]

theorem oLE_shift {x y : Option Nat} :
    oLE (x.map (· + 1)) (y.map (· + 1)) ↔ oLE x y := by
  rcases x with _ | a <;> rcases y with _ | b <;> simp [oLE]

/-- The cost of the clairvoyant-optimal demand policy with capacity k,
starting from cache C, over the remaining requests: a hit costs nothing, a
miss into spare capacity inserts, and a miss into a full cache pays one
fault plus the best achievable cost over all possible evictions. -/
def opt (k : Nat) : List Access → Finset Access → Nat
  | [], _ => 0
  | r :: t, C =>
    if r ∈ C then opt k t C
    else if C.card < k then 1 + opt k t (insert r C)
    else if h : C.Nonempty then
      1 + (C.image (fun e => opt k t (insert r (C.erase e)))).min'
        (Finset.image_nonempty.mpr h)
    else 1 + opt k t C
  termination_by t _ => t.length

theorem opt_nil (k : Nat) (C : Finset Access) : opt k [] C = 0 := by
  simp [opt]

theorem opt_cons_mem (k : Nat) (r : Access) (t : List Access) (C : Finset Access)
    (h : r ∈ C) : opt k (r :: t) C = opt k t C := by
  rw [opt, if_pos h]

theorem opt_cons_slack (k : Nat) (r : Access) (t : List Access) (C : Finset Access)
    (h : r ∉ C) (hc : C.card < k) :
    opt k (r :: t) C = 1 + opt k t (insert r C) := by
  rw [opt, if_neg h, if_pos hc]

theorem opt_cons_full (k : Nat) (r : Access) (t : List Access) (C : Finset Access)
    (h : r ∉ C) (hc : ¬ C.card < k) (hne : C.Nonempty) :
    opt k (r :: t) C =
      1 + (C.image (fun e => opt k t (insert r (C.erase e)))).min'
        (Finset.image_nonempty.mpr hne) := by
  rw [opt, if_neg h, if_neg hc, dif_pos hne]

theorem opt_full_le (k : Nat) (r : Access) (t : List Access) (C : Finset Access)
    (h : r ∉ C) (hc : ¬ C.card < k) (e : Access) (he : e ∈ C) :
    opt k (r :: t) C ≤ 1 + opt k t (insert r (C.erase e)) := by
  rw [opt_cons_full k r t C h hc ⟨e, he⟩]
  have : (C.image (fun e => opt k t (insert r (C.erase e)))).min'
      (Finset.image_nonempty.mpr ⟨e, he⟩) ≤ opt k t (insert r (C.erase e)) :=
    Finset.min'_le _ _ (Finset.mem_image_of_mem _ he)
  omega

end Belady

end VMM

namespace VMM

namespace Belady

/-- A larger cache never costs more under opt. -/
theorem opt_mono (k : Nat) : ∀ (t : List Access) (C D : Finset Access),
    C ⊆ D → D.card ≤ k → opt k t D ≤ opt k t C := by
  intro t
  induction t with
  | nil => intro C D _ _; rw [opt_nil, opt_nil]
  | cons r t ih =>
    intro C D hsub hcard
    by_cases hrC : r ∈ C
    · rw [opt_cons_mem _ _ _ _ hrC, opt_cons_mem _ _ _ _ (hsub hrC)]
      exact ih C D hsub hcard
    · by_cases hrD : r ∈ D
      · rw [opt_cons_mem _ _ _ _ hrD]
        by_cases hcC : C.card < k
        · rw [opt_cons_slack _ _ _ _ hrC hcC]
          have h2 : insert r C ⊆ D := Finset.insert_subset_iff.mpr ⟨hrD, hsub⟩
          have := ih (insert r C) D h2 hcard
          omega
        · exfalso
          have : C = D := Finset.eq_of_subset_of_card_le hsub (by omega)
          rw [this] at hrC
          exact hrC hrD
      · by_cases hcC : C.card < k
        · rw [opt_cons_slack _ _ _ _ hrC hcC]
          by_cases hcD : D.card < k
          · rw [opt_cons_slack _ _ _ _ hrD hcD]
            have := ih (insert r C) (insert r D)
              (Finset.insert_subset_insert r hsub)
              (le_trans (Finset.card_insert_le _ _) (by omega))
            omega
          · obtain ⟨e, heD, heC⟩ : ∃ e ∈ D, e ∉ C := by
              by_contra hall
              push_neg at hall
              have hDC : D ⊆ C := hall
              have := Finset.card_le_card hDC
              omega
            have hstep := opt_full_le k r t D hrD hcD e heD
            have hsub2 : insert r C ⊆ insert r (D.erase e) := by
              apply Finset.insert_subset_insert
              intro x hx
              exact Finset.mem_erase.mpr ⟨fun hxe => heC (hxe ▸ hx), hsub hx⟩
            have hcard2 : (insert r (D.erase e)).card ≤ k := by
              have h1 := Finset.card_insert_le r (D.erase e)
              have h2 := Finset.card_erase_of_mem heD
              omega
            have := ih (insert r C) (insert r (D.erase e)) hsub2 hcard2
            omega
        · have : C = D := Finset.eq_of_subset_of_card_le hsub (by omega)
          rw [this]

end Belady

end VMM

namespace VMM

namespace Belady

/-- Joint induction: (swap) replacing one cached page by another costs at
most one extra fault; (remove) dropping one cached page costs at most one
extra fault. -/
theorem opt_swap_remove (k : Nat) : ∀ (t : List Access),
    (∀ (X : Finset Access) (a b : Access), a ∉ X → b ∉ X →
      (insert a X).card ≤ k →
      opt k t (insert a X) ≤ 1 + opt k t (insert b X)) ∧
    (∀ (C : Finset Access) (x : Access), C.card ≤ k →
      opt k t (C.erase x) ≤ 1 + opt k t C) := by
  intro t
  induction t with
  | nil =>
    constructor
    · intro X a b _ _ _
      rw [opt_nil, opt_nil]
      omega
    · intro C x _
      rw [opt_nil, opt_nil]
      omega
  | cons r t ih =>
    constructor
    · -- swap
      intro X a b ha hb hcard
      by_cases hab : a = b
      · subst hab
        have : opt k (r :: t) (insert a X) ≤ opt k (r :: t) (insert a X) := le_refl _
        omega
      have hcardB : (insert b X).card = (insert a X).card := by
        rw [Finset.card_insert_of_not_mem ha, Finset.card_insert_of_not_mem hb]
      by_cases hrX : r ∈ X
      · rw [opt_cons_mem _ _ _ _ (Finset.mem_insert_of_mem hrX),
          opt_cons_mem _ _ _ _ (Finset.mem_insert_of_mem hrX)]
        exact ih.1 X a b ha hb hcard
      by_cases hrb : r = b
      · subst hrb
        rw [opt_cons_mem _ _ _ _ (Finset.mem_insert_self ..)]
        have hrA : r ∉ insert a X := by
          simp only [Finset.mem_insert]
          rintro (rfl | h)
          · exact hab rfl
          · exact hrX h
        by_cases hcA : (insert a X).card < k
        · rw [opt_cons_slack _ _ _ _ hrA hcA]
          have hckey : insert r (insert a X) = insert a (insert r X) :=
            Finset.Insert.comm ..
          rw [hckey]
          have hmono := opt_mono k t (insert r X) (insert a (insert r X))
            (Finset.subset_insert ..)
            (by
              have h1 := Finset.card_insert_le a (insert r X)
              have h2 := Finset.card_insert_le r X
              have h3 := Finset.card_insert_of_not_mem ha
              omega)
          omega
        · have hstep := opt_full_le k r t (insert a X) hrA hcA a
            (Finset.mem_insert_self ..)
          rw [Finset.erase_insert ha] at hstep
          omega
      by_cases hra : r = a
      · subst hra
        rw [opt_cons_mem _ _ _ _ (Finset.mem_insert_self ..)]
        have hrB : r ∉ insert b X := by
          simp only [Finset.mem_insert]
          rintro (rfl | h)
          · exact hab rfl
          · exact hrX h
        by_cases hcB : (insert b X).card < k
        · rw [opt_cons_slack _ _ _ _ hrB hcB]
          have hkey : (insert r (insert b X)).erase b = insert r X := by
            rw [Finset.erase_insert_of_ne (by exact fun h => hab h)]
            rw [Finset.erase_insert hb]
          have hrem := ih.2 (insert r (insert b X)) b
            (by
              have h1 := Finset.card_insert_le r (insert b X)
              omega)
          rw [hkey] at hrem
          omega
        · have hne : (insert b X).Nonempty := ⟨b, Finset.mem_insert_self ..⟩
          rw [opt_cons_full _ _ _ _ hrB hcB hne]
          obtain ⟨val, hvmem, hvmin⟩ :
              ∃ e ∈ insert b X,
                opt k t (insert r ((insert b X).erase e)) =
                ((insert b X).image
                  (fun e => opt k t (insert r ((insert b X).erase e)))).min'
                  (Finset.image_nonempty.mpr hne) := by
            have hm := Finset.min'_mem
              ((insert b X).image (fun e => opt k t (insert r ((insert b X).erase e))))
              (Finset.image_nonempty.mpr hne)
            rcases Finset.mem_image.mp hm with ⟨e, he, hfe⟩
            exact ⟨e, he, hfe⟩
          rcases Finset.mem_insert.mp hvmem with rfl | hvX
          · -- the minimizer evicts b itself
            rw [Finset.erase_insert hb] at hvmin
            have : opt k t (insert r X) ≤
                1 + opt k t (insert r X) := by omega
            omega
          · -- the minimizer evicts some e of X
            have hvb : val ≠ b := fun h => hb (h ▸ hvX)
            have hkey1 : insert r X = insert val (insert r (X.erase val)) := by
              rw [Finset.Insert.comm, Finset.insert_erase hvX]
            have hkey2 : insert r ((insert b X).erase val) =
                insert b (insert r (X.erase val)) := by
              rw [Finset.erase_insert_of_ne (Ne.symm hvb)]
              rw [Finset.Insert.comm]
            have hswap := ih.1 (insert r (X.erase val)) val b
              (by
                simp only [Finset.mem_insert, Finset.mem_erase]
                rintro (rfl | ⟨h1, h2⟩)
                · exact hrX hvX
                · exact h1 rfl)
              (by
                simp only [Finset.mem_insert, Finset.mem_erase]
                rintro (rfl | ⟨h1, h2⟩)
                · exact hrb rfl
                · exact hb h2)
              (by
                rw [← hkey1]
                have h1 := Finset.card_insert_le r X
                have h2 := Finset.card_insert_of_not_mem ha
                omega)
            rw [← hkey1, ← hkey2] at hswap
            omega
      · -- r is fresh for both caches
        have hrA : r ∉ insert a X := by
          simp only [Finset.mem_insert]
          rintro (rfl | h)
          · exact hra rfl
          · exact hrX h
        have hrB : r ∉ insert b X := by
          simp only [Finset.mem_insert]
          rintro (rfl | h)
          · exact hrb rfl
          · exact hrX h
        by_cases hcA : (insert a X).card < k
        · rw [opt_cons_slack _ _ _ _ hrA hcA,
            opt_cons_slack _ _ _ _ hrB (by omega)]
          have h1 : insert r (insert a X) = insert a (insert r X) :=
            Finset.Insert.comm ..
          have h2 : insert r (insert b X) = insert b (insert r X) :=
            Finset.Insert.comm ..
          rw [h1, h2]
          have := ih.1 (insert r X) a b
            (by
              simp only [Finset.mem_insert]
              rintro (rfl | h)
              · exact hra rfl
              · exact ha h)
            (by
              simp only [Finset.mem_insert]
              rintro (rfl | h)
              · exact hrb rfl
              · exact hb h)
            (by
              rw [← h1]
              have h3 := Finset.card_insert_le r (insert a X)
              omega)
          omega
        · have hneA : (insert a X).Nonempty := ⟨a, Finset.mem_insert_self ..⟩
          have hneB : (insert b X).Nonempty := ⟨b, Finset.mem_insert_self ..⟩
          rw [opt_cons_full _ _ _ _ hrA hcA hneA,
            opt_cons_full _ _ _ _ hrB (by omega) hneB]
          obtain ⟨val, hvmem, hvmin⟩ :
              ∃ e ∈ insert b X,
                opt k t (insert r ((insert b X).erase e)) =
                ((insert b X).image
                  (fun e => opt k t (insert r ((insert b X).erase e)))).min'
                  (Finset.image_nonempty.mpr hneB) := by
            have hm := Finset.min'_mem
              ((insert b X).image (fun e => opt k t (insert r ((insert b X).erase e))))
              (Finset.image_nonempty.mpr hneB)
            rcases Finset.mem_image.mp hm with ⟨e, he, hfe⟩
            exact ⟨e, he, hfe⟩
          rcases Finset.mem_insert.mp hvmem with rfl | hvX
          · -- minimizer of B evicts b; match with A evicting a
            rw [Finset.erase_insert hb] at hvmin
            have hminA := Finset.min'_le
              ((insert a X).image (fun e => opt k t (insert r ((insert a X).erase e))))
              (opt k t (insert r ((insert a X).erase a)))
              (Finset.mem_image_of_mem _ (Finset.mem_insert_self ..))
            have h4 : opt k t (insert r ((insert a X).erase a)) =
                opt k t (insert r X) := by rw [Finset.erase_insert ha]
            omega
          · -- minimizer of B evicts val of X; match with A evicting val
            have hvb : val ≠ b := fun h => hb (h ▸ hvX)
            have hva : val ≠ a := fun h => ha (h ▸ hvX)
            have hkeyB : insert r ((insert b X).erase val) =
                insert b (insert r (X.erase val)) := by
              rw [Finset.erase_insert_of_ne (Ne.symm hvb), Finset.Insert.comm]
            have hkeyA : insert r ((insert a X).erase val) =
                insert a (insert r (X.erase val)) := by
              rw [Finset.erase_insert_of_ne (Ne.symm hva), Finset.Insert.comm]
            have hminA := Finset.min'_le
              ((insert a X).image (fun e => opt k t (insert r ((insert a X).erase e))))
              (opt k t (insert r ((insert a X).erase val)))
              (Finset.mem_image_of_mem _ (Finset.mem_insert_of_mem hvX))
            have hswap := ih.1 (insert r (X.erase val)) a b
              (by
                simp only [Finset.mem_insert, Finset.mem_erase]
                rintro (rfl | ⟨h1, h2⟩)
                · exact hra rfl
                · exact ha h2)
              (by
                simp only [Finset.mem_insert, Finset.mem_erase]
                rintro (rfl | ⟨h1, h2⟩)
                · exact hrb rfl
                · exact hb h2)
              (by
                rw [← hkeyA]
                have h1 := Finset.card_insert_le r ((insert a X).erase val)
                have h2 : ((insert a X).erase val).card = (insert a X).card - 1 :=
                  Finset.card_erase_of_mem (Finset.mem_insert_of_mem hvX)
                have h3 := Finset.card_pos.mpr hneA
                omega)
            rw [← hkeyA, ← hkeyB] at hswap
            omega
    · -- remove
      intro C x hcard
      by_cases hx : x ∈ C
      · by_cases hrE : r ∈ C.erase x
        · rw [opt_cons_mem _ _ _ _ hrE,
            opt_cons_mem _ _ _ _ (Finset.mem_of_mem_erase hrE)]
          exact ih.2 C x hcard
        by_cases hrx : r = x
        · subst hrx
          rw [opt_cons_mem _ _ _ _ hx]
          have hEcard : (C.erase r).card < k := by
            have := Finset.card_erase_of_mem hx
            have hpos := Finset.card_pos.mpr ⟨r, hx⟩
            omega
          rw [opt_cons_slack _ _ _ _ (Finset.not_mem_erase r C) hEcard,
            Finset.insert_erase hx]
        · have hrC : r ∉ C := by
            intro h
            exact hrE (Finset.mem_erase.mpr ⟨hrx, h⟩)
          by_cases hcC : C.card < k
          · rw [opt_cons_slack _ _ _ _ hrC hcC]
            have hEcard : (C.erase x).card < k := by
              have := Finset.card_erase_of_mem hx
              omega
            rw [opt_cons_slack _ _ _ _ hrE hEcard]
            have hkey : insert r (C.erase x) = (insert r C).erase x := by
              rw [Finset.erase_insert_of_ne (fun h => hrx h)]
            rw [hkey]
            have := ih.2 (insert r C) x
              (by
                have := Finset.card_insert_le r C
                omega)
            omega
          · have hne : C.Nonempty := ⟨x, hx⟩
            rw [opt_cons_full _ _ _ _ hrC hcC hne]
            have hEcard : (C.erase x).card < k := by
              have := Finset.card_erase_of_mem hx
              have hk : C.card = k := by omega
              have hpos := Finset.card_pos.mpr ⟨x, hx⟩
              omega
            rw [opt_cons_slack _ _ _ _ hrE hEcard]
            obtain ⟨val, hvmem, hvmin⟩ :
                ∃ e ∈ C, opt k t (insert r (C.erase e)) =
                  (C.image (fun e => opt k t (insert r (C.erase e)))).min'
                    (Finset.image_nonempty.mpr hne) := by
              have hm := Finset.min'_mem
                (C.image (fun e => opt k t (insert r (C.erase e))))
                (Finset.image_nonempty.mpr hne)
              rcases Finset.mem_image.mp hm with ⟨e, he, hfe⟩
              exact ⟨e, he, hfe⟩
            by_cases hvx : val = x
            · subst hvx
              omega
            · have hvE : val ∈ C.erase x := Finset.mem_erase.mpr ⟨hvx, hvmem⟩
              have hkey1 : insert r (C.erase x) =
                  insert val (insert r ((C.erase x).erase val)) := by
                rw [Finset.Insert.comm, Finset.insert_erase hvE]
              have hkey2 : insert r (C.erase val) =
                  insert x (insert r ((C.erase x).erase val)) := by
                have hxv : x ∈ C.erase val := Finset.mem_erase.mpr ⟨fun h => hvx h.symm, hx⟩
                rw [Finset.Insert.comm]
                congr 1
                rw [← Finset.insert_erase hxv]
                congr 1
                rw [Finset.erase_right_comm]
              have hswap := ih.1 (insert r ((C.erase x).erase val)) val x
                (by
                  simp only [Finset.mem_insert, Finset.mem_erase]
                  rintro (rfl | ⟨h1, h2⟩)
                  · exact hrC hvmem
                  · exact h1 rfl)
                (by
                  simp only [Finset.mem_insert, Finset.mem_erase]
                  rintro (rfl | ⟨h1, h2⟩)
                  · exact hrx rfl
                  · exact h2.1 rfl)
                (by
                  rw [← hkey1]
                  have h1 := Finset.card_insert_le r (C.erase x)
                  have h2 := Finset.card_erase_of_mem hx
                  omega)
              rw [← hkey1, ← hkey2] at hswap
              omega
      · rw [Finset.erase_eq_of_not_mem hx]
        omega

end Belady

end VMM

namespace VMM

namespace Belady

theorem firstUse_cons_ne {r pr : Access} (t : List Access) (h : r ≠ pr) :
    firstUse (r :: t) pr = (firstUse t pr).map (· + 1) := by
  simp [firstUse, h]

/-- Exchange: caching a page whose first future use comes no later is at
least as good as caching the other page. -/
theorem opt_exchange (k : Nat) : ∀ (t : List Access) (X : Finset Access) (u v : Access),
    u ∉ X → v ∉ X → (insert u X).card ≤ k →
    oLE (firstUse t u) (firstUse t v) →
    opt k t (insert u X) ≤ opt k t (insert v X) := by
  intro t
  induction t with
  | nil => intro X u v _ _ _ _; rw [opt_nil, opt_nil]
  | cons r t ih =>
    intro X u v hu hv hcard hle
    by_cases huv : u = v
    · subst huv; exact le_refl _
    have hcardB : (insert v X).card = (insert u X).card := by
      rw [Finset.card_insert_of_not_mem hu, Finset.card_insert_of_not_mem hv]
    by_cases hru : r = u
    · -- r = u: the u-cache hits, the v-cache misses
      subst hru
      rw [opt_cons_mem _ _ _ _ (Finset.mem_insert_self ..)]
      have hrB : r ∉ insert v X := by
        simp only [Finset.mem_insert]
        rintro (rfl | h)
        · exact huv rfl
        · exact hu h
      by_cases hcB : (insert v X).card < k
      · rw [opt_cons_slack _ _ _ _ hrB hcB]
        have hkey : insert r (insert v X) = insert v (insert r X) :=
          Finset.Insert.comm ..
        have hrem := (opt_swap_remove k t).2 (insert v (insert r X)) v
          (by
            have h1 := Finset.card_insert_le v (insert r X)
            have h2 := Finset.card_insert_of_not_mem hu
            have h3 := Finset.card_insert_le r X
            omega)
        have herase : (insert v (insert r X)).erase v = insert r X := by
          rw [Finset.erase_insert]
          simp only [Finset.mem_insert]
          rintro (rfl | h)
          · exact huv rfl
          · exact hv h
        rw [herase] at hrem
        rw [hkey]
        omega
      · have hne : (insert v X).Nonempty := ⟨v, Finset.mem_insert_self ..⟩
        rw [opt_cons_full _ _ _ _ hrB hcB hne]
        obtain ⟨val, hvmem, hvmin⟩ :
            ∃ e ∈ insert v X,
              opt k t (insert r ((insert v X).erase e)) =
              ((insert v X).image
                (fun e => opt k t (insert r ((insert v X).erase e)))).min'
                (Finset.image_nonempty.mpr hne) := by
          have hm := Finset.min'_mem
            ((insert v X).image (fun e => opt k t (insert r ((insert v X).erase e))))
            (Finset.image_nonempty.mpr hne)
          rcases Finset.mem_image.mp hm with ⟨e, he, hfe⟩
          exact ⟨e, he, hfe⟩
        rcases Finset.mem_insert.mp hvmem with rfl | hvX
        · -- the minimizer evicts v itself; caches coincide afterwards
          rw [Finset.erase_insert hv] at hvmin
          omega
        · -- the minimizer evicts some e of X: swap r in for e
          have hvv : val ≠ v := fun h => hv (h ▸ hvX)
          have hkey1 : insert r X = insert val (insert r (X.erase val)) := by
            rw [Finset.Insert.comm, Finset.insert_erase hvX]
          have hkey2 : insert r ((insert v X).erase val) =
              insert v (insert r (X.erase val)) := by
            rw [Finset.erase_insert_of_ne (Ne.symm hvv), Finset.Insert.comm]
          have hswap := (opt_swap_remove k t).1 (insert r (X.erase val)) val v
            (by
              simp only [Finset.mem_insert, Finset.mem_erase]
              rintro (rfl | ⟨h1, h2⟩)
              · exact hu hvX
              · exact h1 rfl)
            (by
              simp only [Finset.mem_insert, Finset.mem_erase]
              rintro (rfl | ⟨h1, h2⟩)
              · exact huv rfl
              · exact hv h2)
            (by
              rw [← hkey1]
              have h1 := Finset.card_insert_le r X
              have h2 := Finset.card_insert_of_not_mem hu
              omega)
          rw [← hkey1, ← hkey2] at hswap
          omega
    by_cases hrv : r = v
    · -- r = v but r ≠ u: the hypothesis is impossible (v is used right now)
      exfalso
      subst hrv
      rw [firstUse_cons_ne t (fun h => hru h)] at hle
      have hr : firstUse (r :: t) r = some 0 := by simp [firstUse]
      rw [hr] at hle
      rcases h : firstUse t u with _ | i
      · rw [h] at hle; exact hle
      · rw [h] at hle; simp only [Option.map_some'] at hle
        exact absurd hle (by simp [oLE])
    · -- r differs from both u and v
      have hle' : oLE (firstUse t u) (firstUse t v) := by
        rw [firstUse_cons_ne t (fun h => hru h),
          firstUse_cons_ne t (fun h => hrv h)] at hle
        exact oLE_shift.mp hle
      by_cases hrX : r ∈ X
      · rw [opt_cons_mem _ _ _ _ (Finset.mem_insert_of_mem hrX),
          opt_cons_mem _ _ _ _ (Finset.mem_insert_of_mem hrX)]
        exact ih X u v hu hv hcard hle'
      have hrA : r ∉ insert u X := by
        simp only [Finset.mem_insert]
        rintro (rfl | h)
        · exact hru rfl
        · exact hrX h
      have hrB : r ∉ insert v X := by
        simp only [Finset.mem_insert]
        rintro (rfl | h)
        · exact hrv rfl
        · exact hrX h
      by_cases hcA : (insert u X).card < k
      · rw [opt_cons_slack _ _ _ _ hrA hcA,
          opt_cons_slack _ _ _ _ hrB (by omega)]
        have h1 : insert r (insert u X) = insert u (insert r X) :=
          Finset.Insert.comm ..
        have h2 : insert r (insert v X) = insert v (insert r X) :=
          Finset.Insert.comm ..
        rw [h1, h2]
        have := ih (insert r X) u v
          (by
            simp only [Finset.mem_insert]
            rintro (rfl | h)
            · exact hru rfl
            · exact hu h)
          (by
            simp only [Finset.mem_insert]
            rintro (rfl | h)
            · exact hrv rfl
            · exact hv h)
          (by
            rw [← h1]
            have h3 := Finset.card_insert_le r (insert u X)
            omega)
          hle'
        omega
      · have hneA : (insert u X).Nonempty := ⟨u, Finset.mem_insert_self ..⟩
        have hneB : (insert v X).Nonempty := ⟨v, Finset.mem_insert_self ..⟩
        rw [opt_cons_full _ _ _ _ hrA hcA hneA,
          opt_cons_full _ _ _ _ hrB (by omega) hneB]
        obtain ⟨val, hvmem, hvmin⟩ :
            ∃ e ∈ insert v X,
              opt k t (insert r ((insert v X).erase e)) =
              ((insert v X).image
                (fun e => opt k t (insert r ((insert v X).erase e)))).min'
                (Finset.image_nonempty.mpr hneB) := by
          have hm := Finset.min'_mem
            ((insert v X).image (fun e => opt k t (insert r ((insert v X).erase e))))
            (Finset.image_nonempty.mpr hneB)
          rcases Finset.mem_image.mp hm with ⟨e, he, hfe⟩
          exact ⟨e, he, hfe⟩
        rcases Finset.mem_insert.mp hvmem with rfl | hvX
        · -- minimizer of the v-cache evicts v; match by evicting u
          rw [Finset.erase_insert hv] at hvmin
          have hminA := Finset.min'_le
            ((insert u X).image (fun e => opt k t (insert r ((insert u X).erase e))))
            (opt k t (insert r ((insert u X).erase u)))
            (Finset.mem_image_of_mem _ (Finset.mem_insert_self ..))
          have h4 : opt k t (insert r ((insert u X).erase u)) =
              opt k t (insert r X) := by rw [Finset.erase_insert hu]
          omega
        · -- minimizer evicts some e of X: match eviction and use the IH
          have hvv : val ≠ v := fun h => hv (h ▸ hvX)
          have hvu : val ≠ u := fun h => hu (h ▸ hvX)
          have hkeyB : insert r ((insert v X).erase val) =
              insert v (insert r (X.erase val)) := by
            rw [Finset.erase_insert_of_ne (Ne.symm hvv), Finset.Insert.comm]
          have hkeyA : insert r ((insert u X).erase val) =
              insert u (insert r (X.erase val)) := by
            rw [Finset.erase_insert_of_ne (Ne.symm hvu), Finset.Insert.comm]
          have hminA := Finset.min'_le
            ((insert u X).image (fun e => opt k t (insert r ((insert u X).erase e))))
            (opt k t (insert r ((insert u X).erase val)))
            (Finset.mem_image_of_mem _ (Finset.mem_insert_of_mem hvX))
          have hstep := ih (insert r (X.erase val)) u v
            (by
              simp only [Finset.mem_insert, Finset.mem_erase]
              rintro (rfl | ⟨h1, h2⟩)
              · exact hru rfl
              · exact hu h2)
            (by
              simp only [Finset.mem_insert, Finset.mem_erase]
              rintro (rfl | ⟨h1, h2⟩)
              · exact hrv rfl
              · exact hv h2)
            (by
              rw [← hkeyA]
              have h1 := Finset.card_insert_le r ((insert u X).erase val)
              have h2 : ((insert u X).erase val).card = (insert u X).card - 1 :=
                Finset.card_erase_of_mem (Finset.mem_insert_of_mem hvX)
              have h3 := Finset.card_pos.mpr hneA
              omega)
            hle'
          rw [← hkeyA, ← hkeyB] at hstep
          omega

end Belady

end VMM

namespace VMM

theorem getElem?_mem_opt {l : List (Option (Nat × Nat))} {n : Nat}
    {a : Option (Nat × Nat)} (h : l[n]? = some a) : a ∈ l := by
  rcases List.getElem?_eq_some_iff.mp h with ⟨hlt, rfl⟩
  exact List.getElem_mem hlt

theorem getElem?_of_mem_opt {l : List (Option (Nat × Nat))} {a : Option (Nat × Nat)}
    (h : a ∈ l) : ∃ n : Nat, l[n]? = some a := by
  rcases List.getElem_of_mem h with ⟨i, hi, hval⟩
  exact ⟨i, List.getElem?_eq_some_iff.mpr ⟨hi, hval⟩⟩

/-- The resident set of a frame pool: the (pid, page) pairs held in its
occupied frames. -/
def ResOf (m : List (Option (Nat × Nat))) : Finset Access :=
  (m.filterMap id).toFinset

theorem mem_ResOf {m : List (Option (Nat × Nat))} {pr : Access} :
    pr ∈ ResOf m ↔ ∃ f : Nat, m[f]? = some (some pr) := by
  unfold ResOf
  rw [List.mem_toFinset, List.mem_filterMap]
  constructor
  · rintro ⟨a, ha, hid⟩
    rw [id_eq] at hid
    subst hid
    exact getElem?_of_mem_opt ha
  · rintro ⟨f, hf⟩
    exact ⟨some pr, getElem?_mem_opt hf, rfl⟩

theorem length_filterMap_id_le : ∀ (m : List (Option (Nat × Nat))),
    (m.filterMap id).length ≤ m.length := by
  intro m
  induction m with
  | nil => exact le_refl _
  | cons x m ih =>
    rcases x with _ | pr
    · show (m.filterMap id).length ≤ m.length + 1
      omega
    · show (pr :: m.filterMap id).length ≤ (some pr :: m).length
      simp only [List.length_cons]
      omega

theorem length_filterMap_id_lt {m : List (Option (Nat × Nat))}
    (h : (none : Option (Nat × Nat)) ∈ m) :
    (m.filterMap id).length < m.length := by
  induction m with
  | nil => cases h
  | cons x m ih =>
    rcases x with _ | pr
    · show (m.filterMap id).length < m.length + 1
      have := length_filterMap_id_le m
      omega
    · show (pr :: m.filterMap id).length < (some pr :: m).length
      rcases List.mem_cons.mp h with hx | hm
      · cases hx
      · simp only [List.length_cons]
        have := ih hm
        omega

theorem length_filterMap_id_full : ∀ (m : List (Option (Nat × Nat))),
    (∀ f : Nat, f < m.length → ∃ pr, m[f]? = some (some pr)) →
    (m.filterMap id).length = m.length := by
  intro m
  induction m with
  | nil => intro _; rfl
  | cons x m ih =>
    intro hfull
    rcases hfull 0 (by simp) with ⟨pr, hpr⟩
    rw [List.getElem?_cons_zero] at hpr
    cases hpr
    have hrec := ih (fun f hf => by
      rcases hfull (f + 1) (by simp only [List.length_cons]; omega) with ⟨q, hq⟩
      rw [List.getElem?_cons_succ] at hq
      exact ⟨q, hq⟩)
    show (pr :: m.filterMap id).length = (some pr :: m).length
    simp only [List.length_cons, hrec]

theorem nodup_filterMap_id (m : List (Option (Nat × Nat)))
    (hinj : ∀ (i j : Nat) (pr : Access), m[i]? = some (some pr) → m[j]? = some (some pr) → i = j) :
    (m.filterMap id).Nodup := by
  induction m with
  | nil => exact List.nodup_nil
  | cons x m ih =>
    have hinj2 : ∀ (i j : Nat) (pr : Access), m[i]? = some (some pr) → m[j]? = some (some pr) → i = j := by
      intro i j pr hi hj
      have h := hinj (i + 1) (j + 1) pr (by simpa using hi) (by simpa using hj)
      omega
    rcases x with _ | pr
    · show (m.filterMap id).Nodup
      exact ih hinj2
    · show (pr :: m.filterMap id).Nodup
      refine List.nodup_cons.mpr ⟨?_, ih hinj2⟩
      intro hmem
      rcases List.mem_filterMap.mp hmem with ⟨a, ha, hid⟩
      rw [id_eq] at hid
      subst hid
      rcases getElem?_of_mem_opt ha with ⟨j, hj⟩
      have h := hinj 0 (j + 1) pr (by simp) (by simpa using hj)
      omega

theorem card_ResOf_le (m : List (Option (Nat × Nat))) :
    (ResOf m).card ≤ m.length :=
  le_trans (List.toFinset_card_le _) (length_filterMap_id_le m)

theorem card_ResOf_lt_of_free {m : List (Option (Nat × Nat))} {v : Nat}
    (h : m[v]? = some none) : (ResOf m).card < m.length :=
  lt_of_le_of_lt (List.toFinset_card_le _)
    (length_filterMap_id_lt (getElem?_mem_opt h))

theorem card_ResOf_full {m : List (Option (Nat × Nat))}
    (hfull : ∀ f : Nat, f < m.length → ∃ pr, m[f]? = some (some pr))
    (hinj : ∀ (i j : Nat) (pr : Access), m[i]? = some (some pr) → m[j]? = some (some pr) → i = j) :
    (ResOf m).card = m.length := by
  unfold ResOf
  rw [List.toFinset_card_of_nodup (nodup_filterMap_id m hinj),
    length_filterMap_id_full m hfull]

theorem ResOf_set_free {m : List (Option (Nat × Nat))} {v : Nat} (r : Access)
    (hfree : m[v]? = some none) :
    ResOf (m.set v (some r)) = insert r (ResOf m) := by
  have hvlen : v < m.length := (List.getElem?_eq_some_iff.mp hfree).1
  ext x
  rw [Finset.mem_insert, mem_ResOf, mem_ResOf]
  constructor
  · rintro ⟨f, hf⟩
    rw [set_getElem? m v _ hvlen] at hf
    by_cases hfv : f = v
    · rw [if_pos hfv] at hf
      cases hf
      exact Or.inl rfl
    · rw [if_neg hfv] at hf
      exact Or.inr ⟨f, hf⟩
  · rintro (rfl | ⟨f, hf⟩)
    · exact ⟨v, by rw [set_getElem? m v _ hvlen, if_pos rfl]⟩
    · refine ⟨f, ?_⟩
      rw [set_getElem? m v _ hvlen]
      have hfv : f ≠ v := by
        rintro rfl
        rw [hfree] at hf
        cases hf
      rw [if_neg hfv]
      exact hf

theorem ResOf_set_evict {m : List (Option (Nat × Nat))} {v : Nat} {e : Access}
    (r : Access)
    (hocc : m[v]? = some (some e))
    (huniq : ∀ f : Nat, m[f]? = some (some e) → f = v) :
    ResOf (m.set v (some r)) = insert r ((ResOf m).erase e) := by
  have hvlen : v < m.length := (List.getElem?_eq_some_iff.mp hocc).1
  ext x
  rw [Finset.mem_insert, Finset.mem_erase, mem_ResOf, mem_ResOf]
  constructor
  · rintro ⟨f, hf⟩
    rw [set_getElem? m v _ hvlen] at hf
    by_cases hfv : f = v
    · rw [if_pos hfv] at hf
      cases hf
      exact Or.inl rfl
    · rw [if_neg hfv] at hf
      right
      refine ⟨?_, f, hf⟩
      rintro rfl
      exact hfv (huniq f hf)
  · rintro (rfl | ⟨hxe, f, hf⟩)
    · exact ⟨v, by rw [set_getElem? m v _ hvlen, if_pos rfl]⟩
    · refine ⟨f, ?_⟩
      rw [set_getElem? m v _ hvlen]
      have hfv : f ≠ v := by
        rintro rfl
        rw [hocc] at hf
        cases hf
        exact hxe rfl
      rw [if_neg hfv]
      exact hf

end VMM

namespace VMM

theorem GRes_hit {policy : String} {nf : Nat} {s : GState} (h : GInv policy nf s)
    {pid page f : Nat} (hp : s.pageTables pid page = some f) :
    ((pid, page) : Access) ∈ ResOf s.memory :=
  mem_ResOf.mpr ⟨f, (h.bij pid page f).mp hp⟩

theorem GRes_miss {policy : String} {nf : Nat} {s : GState} (h : GInv policy nf s)
    {pid page : Nat} (hp : s.pageTables pid page = none) :
    ((pid, page) : Access) ∉ ResOf s.memory := by
  intro hmem
  rcases mem_ResOf.mp hmem with ⟨f, hf⟩
  have h2 := (h.bij pid page f).mpr hf
  rw [hp] at h2
  cases h2

theorem GRes_inj {policy : String} {nf : Nat} {s : GState} (h : GInv policy nf s) :
    ∀ (i j : Nat) (pr : Access), s.memory[i]? = some (some pr) →
      s.memory[j]? = some (some pr) → i = j := by
  rintro i j ⟨a, b⟩ hi hj
  have h1 := (h.bij a b i).mpr hi
  have h2 := (h.bij a b j).mpr hj
  rw [h1] at h2
  cases h2
  rfl

theorem GRes_evict {policy : String} {nf : Nat} {s : GState} (hinv : GInv policy nf s)
    {v : Nat} {e : Access} (r : Access) (hocc : s.memory[v]? = some (some e)) :
    ResOf (s.memory.set v (some r)) = insert r ((ResOf s.memory).erase e) :=
  ResOf_set_evict r hocc (fun f hf => GRes_inj hinv f v e hf hocc)

theorem LRes_inj {policy : String} {nf : Nat} {s : LState} (h : LInv policy nf s)
    (pid : Nat) :
    ∀ (i j : Nat) (pr : Access), (s.memory pid)[i]? = some (some pr) →
      (s.memory pid)[j]? = some (some pr) → i = j := by
  rintro i j ⟨a, b⟩ hi hj
  have ha : a = pid := h.owner pid i (a, b) hi
  subst ha
  have h1 := (h.bij a b i).mpr hi
  have h2 := (h.bij a b j).mpr hj
  rw [h1] at h2
  cases h2
  rfl

theorem LRes_evict {policy : String} {nf : Nat} {s : LState} (hinv : LInv policy nf s)
    {pid v : Nat} {e : Access} (r : Access)
    (hocc : (s.memory pid)[v]? = some (some e)) :
    ResOf ((s.memory pid).set v (some r)) = insert r ((ResOf (s.memory pid)).erase e) :=
  ResOf_set_evict r hocc (fun f hf => LRes_inj hinv pid f v e hf hocc)

end VMM

namespace VMM

namespace Belady

theorem firstUse_eq_findIdx (t : List Access) (pr : Access) :
    firstUse t pr = t.findIdx? (fun a => a = pr) := by
  induction t with
  | nil => rw [List.findIdx?_nil]; rfl
  | cons q t ih =>
    rw [List.findIdx?_cons]
    by_cases hq : q = pr
    · rw [if_pos (by simpa using hq)]
      simp [firstUse, hq]
    · rw [if_neg (by simpa using hq), List.findIdx?_succ]
      simp only [firstUse, if_neg hq, ih]

/-- One fault never saves more than one fault: the generic per-step bound
used for every eviction an engine makes. -/
theorem opt_step_evict (k : Nat) (r : Access) (t : List Access) (C : Finset Access)
    (e : Access) (he : e ∈ C) (hr : r ∉ C) (hcard : C.card ≤ k) :
    opt k (r :: t) C ≤ 1 + opt k t (insert r (C.erase e)) := by
  by_cases hc : C.card < k
  · rw [opt_cons_slack _ _ _ _ hr hc]
    have hsub : insert r (C.erase e) ⊆ insert r C :=
      Finset.insert_subset_insert _ (fun x hx => Finset.mem_of_mem_erase hx)
    have hm := opt_mono k t (insert r (C.erase e)) (insert r C) hsub
      (by
        have h1 := Finset.card_insert_of_not_mem hr
        omega)
    omega
  · exact opt_full_le k r t C hr hc e he

end Belady

/-- The absolute next-use index of the source scan, rebased to the remaining
suffix of the trace. -/
theorem nextUseIdx_drop (tr : List Access) (cur : Nat) (pr : Access) :
    nextUseIdx tr cur pr =
      (Belady.firstUse (tr.drop (cur + 1)) pr).map (fun k => cur + 1 + k) := by
  unfold nextUseIdx
  rw [Belady.firstUse_eq_findIdx]
  rcases h : (tr.drop (cur + 1)).findIdx? (fun a => a = pr) with _ | k
  · rfl
  · rfl

/-- Transfer of the next-use comparison from the source scan to the
suffix-based order: v unused in the future, or u used no later than v. -/
theorem oLE_of_nextUse {tr : List Access} {cur : Nat} {u v : Access}
    (h : nextUseIdx tr cur v = none ∨
      (∃ ju jv, nextUseIdx tr cur u = some ju ∧ nextUseIdx tr cur v = some jv ∧
        ju ≤ jv)) :
    Belady.oLE (Belady.firstUse (tr.drop (cur + 1)) u)
      (Belady.firstUse (tr.drop (cur + 1)) v) := by
  rcases h with hv | ⟨ju, jv, hu, hv, hle⟩
  · rw [nextUseIdx_drop] at hv
    rcases hfv : Belady.firstUse (tr.drop (cur + 1)) v with _ | kv
    · exact Belady.oLE_top _
    · rw [hfv] at hv
      cases hv
  · rw [nextUseIdx_drop] at hu hv
    rcases hfu : Belady.firstUse (tr.drop (cur + 1)) u with _ | ku
    · rw [hfu] at hu; cases hu
    · rcases hfv : Belady.firstUse (tr.drop (cur + 1)) v with _ | kv
      · rw [hfv] at hv; cases hv
      · rw [hfu] at hu
        rw [hfv] at hv
        simp only [Option.map_some'] at hu hv
        cases hu
        cases hv
        show ku ≤ kv
        omega

end VMM

namespace VMM

/-- Lower bound: under any recognized policy the Global engine pays at least
the clairvoyant-optimal cost on the remaining accesses, starting from any
reachable state. -/
theorem g_lb (policy : String)
    (hpol : policy = "fifo" ∨ policy = "lru" ∨ policy = "optimal" ∨
      policy = "random")
    (rands : Nat → Nat) (tr : List Access) (nf : Nat) (hnf : 1 ≤ nf) :
    ∀ (rest : List Access) (cur : Nat) (s : GState), GInv policy nf s →
      s.globalFaults + Belady.opt nf rest (ResOf s.memory) ≤
        (G.runFrom policy rands tr cur rest s).globalFaults := by
  intro rest
  induction rest with
  | nil =>
    intro cur s hinv
    rw [Belady.opt_nil]
    show s.globalFaults + 0 ≤ s.globalFaults
    omega
  | cons a rest ih =>
    rcases a with ⟨pid, pg⟩
    intro cur s hinv
    show s.globalFaults + Belady.opt nf ((pid, pg) :: rest) (ResOf s.memory) ≤
      (G.runFrom policy rands tr (cur + 1) rest
        (G.handleAccess policy rands tr cur pid pg s)).globalFaults
    have hinv2 : GInv policy nf (G.handleAccess policy rands tr cur pid pg s) :=
      ginv_handleAccess hinv hnf rands tr cur pid pg
    rcases hPT : s.pageTables pid pg with _ | f
    · -- miss
      rw [G.handleAccess_miss policy rands tr cur hPT] at hinv2 ⊢
      have hmiss : ((pid, pg) : Access) ∉ ResOf s.memory := GRes_miss hinv hPT
      have hcard : (ResOf s.memory).card ≤ nf := by
        have h1 := card_ResOf_le s.memory
        rw [hinv.len] at h1
        exact h1
      by_cases hfree : s.memory[s.nextFrame]? = some none
      · -- free frame at the cursor
        have hfree1 : (G.bump pid s).memory[(G.bump pid s).nextFrame]? =
            some none := hfree
        rw [G.missDispatch_free policy rands tr cur hfree1] at hinv2 ⊢
        have hclt : (ResOf s.memory).card < nf := by
          have h1 := card_ResOf_lt_of_free hfree
          rw [hinv.len] at h1
          exact h1
        rw [Belady.opt_cons_slack nf _ rest _ hmiss hclt]
        have hih := ih (cur + 1) _ hinv2
        simp only [G.bump] at hih ⊢
        rw [ResOf_set_free _ hfree] at hih
        omega
      · -- pool full: an eviction happens
        have hfull := full_of_not_free hinv hfree
        have hfree1 : ¬((G.bump pid s).memory[(G.bump pid s).nextFrame]? =
            some none) := hfree
        rcases hpol with hp | hp | hp | hp
        · -- fifo: evict the cursor frame
          subst hp
          rcases hfull s.nextFrame hinv.cursor with ⟨e, hocc⟩
          rcases e with ⟨op, og⟩
          have hocc1 : (G.bump pid s).memory[(G.bump pid s).nextFrame]? =
              some (some (op, og)) := hocc
          rw [G.missDispatch_full_fifo rands tr cur hocc1] at hinv2 ⊢
          have hih := ih (cur + 1) _ hinv2
          simp only [G.bump] at hih ⊢
          rw [GRes_evict hinv _ hocc] at hih
          have hstep := Belady.opt_step_evict nf (pid, pg) rest (ResOf s.memory)
            (op, og) (mem_ResOf.mpr ⟨s.nextFrame, hocc⟩) hmiss hcard
          omega
        · -- lru: evict the front of the LRU list
          subst hp
          rcases hl : s.lruList with _ | ⟨f0, rest2⟩
          · exfalso
            have h0occ : isOcc s.memory 0 := hfull 0 (by omega)
            have h0mem : 0 ∈ s.lruList := (hinv.lru rfl 0).mpr h0occ
            rw [hl] at h0mem
            cases h0mem
          have hf0occ : isOcc s.memory f0 := (hinv.lru rfl f0).mp
            (by rw [hl]; exact List.mem_cons_self ..)
          rcases hf0occ with ⟨e, hocc⟩
          rcases e with ⟨op, og⟩
          have hlru1 : (G.bump pid s).lruList = f0 :: rest2 := hl
          have hocc1 : (G.bump pid s).memory[f0]? = some (some (op, og)) := hocc
          rw [G.missDispatch_full_lru rands tr cur hfree1 hlru1 hocc1]
            at hinv2 ⊢
          have hih := ih (cur + 1) _ hinv2
          simp only [G.bump] at hih ⊢
          rw [GRes_evict hinv _ hocc] at hih
          have hstep := Belady.opt_step_evict nf (pid, pg) rest (ResOf s.memory)
            (op, og) (mem_ResOf.mpr ⟨f0, hocc⟩) hmiss hcard
          omega
        · -- optimal: evict the frame chosen by the selection loop
          subst hp
          have hframes := hinv.frames
          rcases hnfr : List.range s.memoryFrames with _ | ⟨i0, lrest⟩
          · exfalso
            have h1 := List.length_range s.memoryFrames
            rw [hnfr] at h1
            simp only [List.length_nil] at h1
            omega
          rcases G.optimalLoop_init s.memory tr cur i0 lrest with
            ⟨v, hvmem, hv1, hv2⟩
          have hvlt : v < nf := by
            have h1 : v ∈ List.range s.memoryFrames := by
              rw [hnfr]; exact hvmem
            rw [List.mem_range] at h1
            omega
          rcases hfull v hvlt with ⟨e, hocc⟩
          rcases e with ⟨op, og⟩
          have hoccAt : occAt s.memory v = some (op, og) := occAt_eq_some.mpr hocc
          have hloop : G.optimalLoop s.memory tr cur (List.range s.memoryFrames)
              (-1) (-1) none = ((v : Int), some (op, og)) := by
            rw [hnfr]
            have h2 : (G.optimalLoop s.memory tr cur (i0 :: lrest)
                (-1) (-1) none).2 = some (op, og) := by
              rw [← hv2, hoccAt]
            have h3 : G.optimalLoop s.memory tr cur (i0 :: lrest) (-1) (-1) none =
                ((G.optimalLoop s.memory tr cur (i0 :: lrest) (-1) (-1) none).1,
                 (G.optimalLoop s.memory tr cur (i0 :: lrest) (-1) (-1) none).2) :=
              rfl
            rw [h3, hv1, h2]
          have hloop1 : G.optimalLoop (G.bump pid s).memory tr cur
              (List.range (G.bump pid s).memoryFrames) (-1) (-1) none =
              ((v : Int), some (op, og)) := hloop
          rw [G.missDispatch_full_optimal rands tr cur hfree1 hloop1]
            at hinv2 ⊢
          have hih := ih (cur + 1) _ hinv2
          simp only [G.bump, Int.toNat_natCast] at hih ⊢
          rw [GRes_evict hinv _ hocc] at hih
          have hstep := Belady.opt_step_evict nf (pid, pg) rest (ResOf s.memory)
            (op, og) (mem_ResOf.mpr ⟨v, hocc⟩) hmiss hcard
          omega
        · -- random: evict the drawn frame
          subst hp
          have hmodlt : rands s.randIdx % s.memoryFrames < nf := by
            rw [hinv.frames]
            exact Nat.mod_lt _ (by omega)
          rcases hfull _ hmodlt with ⟨e, hocc⟩
          rcases e with ⟨op, og⟩
          have hocc1 : (G.bump pid s).memory[rands (G.bump pid s).randIdx %
              (G.bump pid s).memoryFrames]? = some (some (op, og)) := hocc
          rw [G.missDispatch_full_random rands tr cur hfree1 hocc1] at hinv2 ⊢
          have hih := ih (cur + 1) _ hinv2
          simp only [G.bump] at hih ⊢
          rw [GRes_evict hinv _ hocc] at hih
          have hstep := Belady.opt_step_evict nf (pid, pg) rest (ResOf s.memory)
            (op, og) (mem_ResOf.mpr ⟨_, hocc⟩) hmiss hcard
          omega
    · -- hit
      rw [G.handleAccess_hit policy rands tr cur hPT] at hinv2 ⊢
      have hhit : ((pid, pg) : Access) ∈ ResOf s.memory := GRes_hit hinv hPT
      rw [Belady.opt_cons_mem _ _ _ _ hhit]
      by_cases hp : policy = "lru"
      · rw [if_pos hp] at hinv2 ⊢
        have hih := ih (cur + 1) _ hinv2
        simp only [G.updateLRU] at hih ⊢
        exact hih
      · rw [if_neg hp] at hinv2 ⊢
        exact ih (cur + 1) _ hinv2

end VMM

namespace VMM

/-- Upper bound: the Global engine under policy optimal pays no more than
the clairvoyant-optimal cost on the remaining accesses, because the victim
selected by the source's loop has the farthest next use (or none at all). -/
theorem g_opt_run (rands : Nat → Nat) (tr : List Access) (nf : Nat)
    (hnf : 1 ≤ nf) :
    ∀ (rest : List Access) (cur : Nat) (s : GState), GInv "optimal" nf s →
      rest = tr.drop cur →
      (G.runFrom "optimal" rands tr cur rest s).globalFaults ≤
        s.globalFaults + Belady.opt nf rest (ResOf s.memory) := by
  intro rest
  induction rest with
  | nil =>
    intro cur s hinv hdrop
    rw [Belady.opt_nil]
    show s.globalFaults ≤ s.globalFaults + 0
    omega
  | cons a rest ih =>
    rcases a with ⟨pid, pg⟩
    intro cur s hinv hdrop
    have hdrop2 : rest = tr.drop (cur + 1) := by
      have h1 : List.drop 1 (List.drop cur tr) = List.drop (cur + 1) tr := by
        rw [List.drop_drop]
      rw [← h1, ← hdrop]
      rfl
    show (G.runFrom "optimal" rands tr (cur + 1) rest
        (G.handleAccess "optimal" rands tr cur pid pg s)).globalFaults ≤
      s.globalFaults + Belady.opt nf ((pid, pg) :: rest) (ResOf s.memory)
    have hinv2 : GInv "optimal" nf (G.handleAccess "optimal" rands tr cur pid pg s) :=
      ginv_handleAccess hinv hnf rands tr cur pid pg
    rcases hPT : s.pageTables pid pg with _ | f
    · -- miss
      rw [G.handleAccess_miss "optimal" rands tr cur hPT] at hinv2 ⊢
      have hmiss : ((pid, pg) : Access) ∉ ResOf s.memory := GRes_miss hinv hPT
      by_cases hfree : s.memory[s.nextFrame]? = some none
      · -- free frame at the cursor
        have hfree1 : (G.bump pid s).memory[(G.bump pid s).nextFrame]? =
            some none := hfree
        rw [G.missDispatch_free "optimal" rands tr cur hfree1] at hinv2 ⊢
        have hclt : (ResOf s.memory).card < nf := by
          have h1 := card_ResOf_lt_of_free hfree
          rw [hinv.len] at h1
          exact h1
        rw [Belady.opt_cons_slack nf _ rest _ hmiss hclt]
        have hih := ih (cur + 1) _ hinv2 hdrop2
        simp only [G.bump] at hih ⊢
        rw [ResOf_set_free _ hfree] at hih
        omega
      · -- pool full: the selection loop picks the victim
        have hfull := full_of_not_free hinv hfree
        have hfree1 : ¬((G.bump pid s).memory[(G.bump pid s).nextFrame]? =
            some none) := hfree
        have hframes := hinv.frames
        obtain ⟨v, op, og, hvlt, hocc, hloop, hOLE⟩ :
            ∃ (v op og : Nat), v < nf ∧ s.memory[v]? = some (some (op, og)) ∧
              G.optimalLoop s.memory tr cur (List.range s.memoryFrames)
                (-1) (-1) none = ((v : Int), some (op, og)) ∧
              ∀ e₀ ∈ ResOf s.memory,
                Belady.oLE (Belady.firstUse rest e₀)
                  (Belady.firstUse rest ((op, og) : Access)) := by
          by_cases hex : ∃ x ∈ List.range s.memoryFrames,
              frameUse s.memory tr cur x = none
          · -- some resident has no future use: the loop breaks at the first one
            rcases G.optimalLoop_first_none s.memory tr cur
              (List.range s.memoryFrames) (List.sorted_lt_range _)
              (-1) (-1) none hex with ⟨v, hvmem, hv1, hvnone, hbefore⟩
            have hvlt : v < nf := by
              rw [List.mem_range, hframes] at hvmem
              exact hvmem
            rcases hfull v hvlt with ⟨e, hocc⟩
            rcases e with ⟨op, og⟩
            have hoccAt : occAt s.memory v = some (op, og) :=
              occAt_eq_some.mpr hocc
            have hnone : nextUseIdx tr cur ((op, og) : Access) = none := by
              unfold frameUse at hvnone
              rw [hoccAt] at hvnone
              simpa using hvnone
            have hloop : G.optimalLoop s.memory tr cur
                (List.range s.memoryFrames) (-1) (-1) none =
                ((v : Int), some (op, og)) := by
              rcases G.optimalLoop_res s.memory tr cur
                (List.range s.memoryFrames) (-1) (-1) none with
                ⟨i, himem, hi1, hi2⟩ | hres
              · rw [hv1] at hi1
                have hiv : i = v := by exact_mod_cast hi1.symm
                subst hiv
                rw [hoccAt] at hi2
                have h3 : G.optimalLoop s.memory tr cur
                    (List.range s.memoryFrames) (-1) (-1) none =
                    ((G.optimalLoop s.memory tr cur (List.range s.memoryFrames)
                      (-1) (-1) none).1,
                     (G.optimalLoop s.memory tr cur (List.range s.memoryFrames)
                      (-1) (-1) none).2) := rfl
                rw [h3, hv1, ← hi2]
              · rw [hres] at hv1
                have h4 : (-1 : Int) = (v : Int) := hv1
                omega
            refine ⟨v, op, og, hvlt, hocc, hloop, ?_⟩
            intro e₀ he₀
            rw [hdrop2]
            exact oLE_of_nextUse (Or.inl hnone)
          · -- every resident is used again: the loop keeps the farthest one
            push_neg at hex
            rcases G.optimalLoop_all_some s.memory tr cur
              (List.range s.memoryFrames) (-1) (-1) none hex with
              ⟨heq, hall⟩ | ⟨v, hvmem, jv, hv1, hv2, hvju, hfi, hmax⟩
            · exfalso
              have h0 : (0 : Nat) ∈ List.range s.memoryFrames := by
                rw [List.mem_range, hframes]
                omega
              rcases hall 0 h0 with ⟨j0, hj0, hj0le⟩
              omega
            · have hvlt : v < nf := by
                rw [List.mem_range, hframes] at hvmem
                exact hvmem
              rcases hfull v hvlt with ⟨e, hocc⟩
              rcases e with ⟨op, og⟩
              have hoccAt : occAt s.memory v = some (op, og) :=
                occAt_eq_some.mpr hocc
              have hnv : nextUseIdx tr cur ((op, og) : Access) = some jv := by
                unfold frameUse at hvju
                rw [hoccAt] at hvju
                simpa using hvju
              have hloop : G.optimalLoop s.memory tr cur
                  (List.range s.memoryFrames) (-1) (-1) none =
                  ((v : Int), some (op, og)) := by
                have h3 : G.optimalLoop s.memory tr cur
                    (List.range s.memoryFrames) (-1) (-1) none =
                    ((G.optimalLoop s.memory tr cur (List.range s.memoryFrames)
                      (-1) (-1) none).1,
                     (G.optimalLoop s.memory tr cur (List.range s.memoryFrames)
                      (-1) (-1) none).2) := rfl
                rw [h3, hv1, hv2, hoccAt]
              refine ⟨v, op, og, hvlt, hocc, hloop, ?_⟩
              intro e₀ he₀
              rcases mem_ResOf.mp he₀ with ⟨fx, hfx⟩
              have hfxlt : fx < nf := by
                have h5 := (List.getElem?_eq_some_iff.mp hfx).1
                rw [hinv.len] at h5
                exact h5
              have hfxmem : fx ∈ List.range s.memoryFrames := by
                rw [List.mem_range, hframes]
                exact hfxlt
              rcases hmax fx hfxmem with ⟨jx, hjx, hjxle⟩
              have hoA : occAt s.memory fx = some e₀ := occAt_eq_some.mpr hfx
              have hnx : nextUseIdx tr cur e₀ = some jx := by
                unfold frameUse at hjx
                rw [hoA] at hjx
                simpa using hjx
              rw [hdrop2]
              exact oLE_of_nextUse (Or.inr ⟨jx, jv, hnx, hnv, hjxle⟩)
        have hloop1 : G.optimalLoop (G.bump pid s).memory tr cur
            (List.range (G.bump pid s).memoryFrames) (-1) (-1) none =
            ((v : Int), some (op, og)) := hloop
        rw [G.missDispatch_full_optimal rands tr cur hfree1 hloop1] at hinv2 ⊢
        have hih := ih (cur + 1) _ hinv2 hdrop2
        simp only [G.bump, Int.toNat_natCast] at hih ⊢
        rw [GRes_evict hinv _ hocc] at hih
        have hCcard : (ResOf s.memory).card = nf := by
          have h1 := card_ResOf_full (m := s.memory)
            (fun f hf => hfull f (hinv.len ▸ hf)) (GRes_inj hinv)
          rw [hinv.len] at h1
          exact h1
        have hw : ((op, og) : Access) ∈ ResOf s.memory := mem_ResOf.mpr ⟨v, hocc⟩
        have hbound : ∀ e₀ ∈ ResOf s.memory,
            Belady.opt nf rest
              (insert (pid, pg) ((ResOf s.memory).erase (op, og))) ≤
            Belady.opt nf rest
              (insert (pid, pg) ((ResOf s.memory).erase e₀)) := by
          intro e₀ he₀
          by_cases heq0 : e₀ = ((op, og) : Access)
          · subst heq0
            exact le_refl _
          · have hY : ((ResOf s.memory).erase (op, og)).erase e₀ =
                ((ResOf s.memory).erase e₀).erase (op, og) :=
              Finset.erase_right_comm
            have he₀w : e₀ ∈ (ResOf s.memory).erase (op, og) :=
              Finset.mem_erase.mpr ⟨heq0, he₀⟩
            have hwe : ((op, og) : Access) ∈ (ResOf s.memory).erase e₀ :=
              Finset.mem_erase.mpr ⟨fun h => heq0 h.symm, hw⟩
            have hk1 : insert ((pid, pg) : Access)
                ((ResOf s.memory).erase (op, og)) =
                insert e₀ (insert (pid, pg)
                  (((ResOf s.memory).erase (op, og)).erase e₀)) := by
              rw [Finset.Insert.comm, Finset.insert_erase he₀w]
            have hk2 : insert ((pid, pg) : Access)
                ((ResOf s.memory).erase e₀) =
                insert ((op, og) : Access) (insert (pid, pg)
                  (((ResOf s.memory).erase (op, og)).erase e₀)) := by
              rw [hY, Finset.Insert.comm, Finset.insert_erase hwe]
            have hex2 := Belady.opt_exchange nf rest
              (insert ((pid, pg) : Access)
                (((ResOf s.memory).erase (op, og)).erase e₀))
              e₀ ((op, og) : Access)
              (by
                simp only [Finset.mem_insert, Finset.mem_erase]
                rintro (h | ⟨h1, h2⟩)
                · exact hmiss (h ▸ he₀)
                · exact h1 rfl)
              (by
                simp only [Finset.mem_insert, Finset.mem_erase]
                rintro (h | ⟨h1, h2⟩)
                · exact hmiss (h ▸ hw)
                · exact h2.1 rfl)
              (by
                rw [← hk1]
                have h1 := Finset.card_insert_le ((pid, pg) : Access)
                  ((ResOf s.memory).erase (op, og))
                have h2 := Finset.card_erase_of_mem hw
                omega)
              (hOLE e₀ he₀)
            rw [← hk1, ← hk2] at hex2
            exact hex2
        have hne : (ResOf s.memory).Nonempty := ⟨(op, og), hw⟩
        have hnotlt : ¬ (ResOf s.memory).card < nf := by
          rw [hCcard]
          omega
        rw [Belady.opt_cons_full nf (pid, pg) rest _ hmiss hnotlt hne]
        have hminb := Finset.le_min'
          ((ResOf s.memory).image (fun e =>
            Belady.opt nf rest (insert (pid, pg) ((ResOf s.memory).erase e))))
          (Finset.image_nonempty.mpr hne)
          (Belady.opt nf rest
            (insert (pid, pg) ((ResOf s.memory).erase (op, og))))
          (by
            intro b hb
            rcases Finset.mem_image.mp hb with ⟨e₀, he₀, rfl⟩
            exact hbound e₀ he₀)
        omega
    · -- hit
      rw [G.handleAccess_hit "optimal" rands tr cur hPT] at hinv2 ⊢
      rw [if_neg (by decide)] at hinv2 ⊢
      have hhit : ((pid, pg) : Access) ∈ ResOf s.memory := GRes_hit hinv hPT
      rw [Belady.opt_cons_mem _ _ _ _ hhit]
      exact ih (cur + 1) _ hinv2 hdrop2

end VMM

namespace VMM

/-- The combined resident set of the four partitions of the Local engine. -/
def resAll (mem : Nat → List (Option (Nat × Nat))) : Finset Access :=
  (Finset.range 4).biUnion (fun pid => ResOf (mem pid))

theorem mem_resAll {mem : Nat → List (Option (Nat × Nat))} {pr : Access} :
    pr ∈ resAll mem ↔ ∃ pid ∈ Finset.range 4, pr ∈ ResOf (mem pid) :=
  Finset.mem_biUnion

theorem resAll_upd_insert {mem : Nat → List (Option (Nat × Nat))} {pid : Nat}
    (hpid : pid < 4) {l : List (Option (Nat × Nat))} {r : Access}
    (hl : ResOf l = insert r (ResOf (mem pid))) :
    resAll (upd mem pid l) = insert r (resAll mem) := by
  ext x
  rw [mem_resAll, Finset.mem_insert, mem_resAll]
  constructor
  · rintro ⟨q, hq, hx⟩
    by_cases hqp : q = pid
    · subst hqp
      rw [upd_self] at hx
      rw [hl, Finset.mem_insert] at hx
      rcases hx with rfl | hx
      · exact Or.inl rfl
      · exact Or.inr ⟨q, hq, hx⟩
    · rw [upd_ne _ _ _ _ hqp] at hx
      exact Or.inr ⟨q, hq, hx⟩
  · rintro (rfl | ⟨q, hq, hx⟩)
    · refine ⟨pid, Finset.mem_range.mpr hpid, ?_⟩
      rw [upd_self, hl]
      exact Finset.mem_insert_self ..
    · by_cases hqp : q = pid
      · subst hqp
        refine ⟨q, hq, ?_⟩
        rw [upd_self, hl]
        exact Finset.mem_insert_of_mem hx
      · refine ⟨q, hq, ?_⟩
        rw [upd_ne _ _ _ _ hqp]
        exact hx

theorem resAll_upd_evict {mem : Nat → List (Option (Nat × Nat))} {pid : Nat}
    (hpid : pid < 4)
    (howner : ∀ (q f : Nat) (pr : Nat × Nat),
      (mem q)[f]? = some (some pr) → pr.1 = q)
    {l : List (Option (Nat × Nat))} {r e : Access} (he1 : e.1 = pid)
    (hl : ResOf l = insert r ((ResOf (mem pid)).erase e)) :
    resAll (upd mem pid l) = insert r ((resAll mem).erase e) := by
  ext x
  rw [mem_resAll, Finset.mem_insert, Finset.mem_erase, mem_resAll]
  constructor
  · rintro ⟨q, hq, hx⟩
    by_cases hqp : q = pid
    · subst hqp
      rw [upd_self] at hx
      rw [hl, Finset.mem_insert, Finset.mem_erase] at hx
      rcases hx with rfl | ⟨hxe, hx⟩
      · exact Or.inl rfl
      · exact Or.inr ⟨hxe, q, hq, hx⟩
    · rw [upd_ne _ _ _ _ hqp] at hx
      have hxq : x.1 = q := by
        rcases mem_ResOf.mp hx with ⟨f, hf⟩
        exact howner q f x hf
      refine Or.inr ⟨?_, q, hq, hx⟩
      intro hxeq
      rw [hxeq, he1] at hxq
      exact hqp hxq.symm
  · rintro (rfl | ⟨hxe, q, hq, hx⟩)
    · refine ⟨pid, Finset.mem_range.mpr hpid, ?_⟩
      rw [upd_self, hl]
      exact Finset.mem_insert_self ..
    · by_cases hqp : q = pid
      · subst hqp
        refine ⟨q, hq, ?_⟩
        rw [upd_self, hl]
        exact Finset.mem_insert_of_mem (Finset.mem_erase.mpr ⟨hxe, hx⟩)
      · refine ⟨q, hq, ?_⟩
        rw [upd_ne _ _ _ _ hqp]
        exact hx

theorem sum_range_four (f : Nat → Nat) :
    ∑ q ∈ Finset.range 4, f q = f 0 + f 1 + f 2 + f 3 := by
  rw [Finset.sum_range_succ, Finset.sum_range_succ, Finset.sum_range_succ,
    Finset.sum_range_one]

theorem card_resAll_le {policy : String} {nf : Nat} {s : LState}
    (hinv : LInv policy nf s) : (resAll s.memory).card ≤ nf := by
  have hble := Finset.card_biUnion_le
    (s := Finset.range 4) (t := fun pid => ResOf (s.memory pid))
  have hq : ∀ q, (ResOf (s.memory q)).card ≤ nf / 4 := by
    intro q
    have h1 := card_ResOf_le (s.memory q)
    rw [hinv.len q] at h1
    exact h1
  have hsum := sum_range_four (fun q => (ResOf (s.memory q)).card)
  have hd : nf / 4 * 4 ≤ nf := Nat.div_mul_le_self nf 4
  have h0 := hq 0
  have h1 := hq 1
  have h2 := hq 2
  have h3 := hq 3
  unfold resAll
  omega

theorem card_resAll_lt_of_free {policy : String} {nf : Nat} {s : LState}
    (hinv : LInv policy nf s) {pid i : Nat} (hpid : pid < 4)
    (hfree : (s.memory pid)[i]? = some none) :
    (resAll s.memory).card < nf := by
  have hble := Finset.card_biUnion_le
    (s := Finset.range 4) (t := fun pid => ResOf (s.memory pid))
  have hq : ∀ q, (ResOf (s.memory q)).card ≤ nf / 4 := by
    intro q
    have h1 := card_ResOf_le (s.memory q)
    rw [hinv.len q] at h1
    exact h1
  have hqp : (ResOf (s.memory pid)).card < nf / 4 := by
    have h1 := card_ResOf_lt_of_free hfree
    rw [hinv.len pid] at h1
    exact h1
  have hsum := sum_range_four (fun q => (ResOf (s.memory q)).card)
  have hd : nf / 4 * 4 ≤ nf := Nat.div_mul_le_self nf 4
  have hd2 : 1 ≤ nf / 4 := (Nat.one_le_div_iff (by omega)).mpr (by
    have := hinv.cursor 0
    omega)
  have h0 := hq 0
  have h1 := hq 1
  have h2 := hq 2
  have h3 := hq 3
  unfold resAll
  interval_cases pid <;> omega

theorem LRes_miss {policy : String} {nf : Nat} {s : LState} (hinv : LInv policy nf s)
    {pid pg : Nat} (hPT : s.pageTables pid pg = none) :
    ((pid, pg) : Access) ∉ resAll s.memory := by
  intro hmem
  rcases mem_resAll.mp hmem with ⟨q, hq, hx⟩
  rcases mem_ResOf.mp hx with ⟨f, hf⟩
  have hqp : pid = q := hinv.owner q f (pid, pg) hf
  subst hqp
  have h2 := (hinv.bij pid pg f).mpr hf
  rw [hPT] at h2
  cases h2

theorem LRes_hit {policy : String} {nf : Nat} {s : LState} (hinv : LInv policy nf s)
    {pid pg f : Nat} (hpid : pid < 4) (hPT : s.pageTables pid pg = some f) :
    ((pid, pg) : Access) ∈ resAll s.memory :=
  mem_resAll.mpr ⟨pid, Finset.mem_range.mpr hpid,
    mem_ResOf.mpr ⟨f, (hinv.bij pid pg f).mp hPT⟩⟩

end VMM

namespace VMM

/-- Lower bound: under any recognized policy the Local engine pays at least
the clairvoyant-optimal cost of a single shared cache of the full capacity,
because its four partitions together never hold more than nf pages. -/
theorem l_lb_single (policy : String)
    (hpol : policy = "fifo" ∨ policy = "lru" ∨ policy = "optimal" ∨
      policy = "random")
    (rands : Nat → Nat) (tr : List Access) (nf : Nat) (hnf : 4 ≤ nf) :
    ∀ (rest : List Access) (cur : Nat) (s : LState), ValidTrace rest →
      LInv policy nf s →
      s.globalFaults + Belady.opt nf rest (resAll s.memory) ≤
        (L.runFrom policy rands tr cur rest s).globalFaults := by
  have hq4 : 1 ≤ nf / 4 := (Nat.one_le_div_iff (by omega)).mpr hnf
  intro rest
  induction rest with
  | nil =>
    intro cur s _ hinv
    rw [Belady.opt_nil]
    show s.globalFaults + 0 ≤ s.globalFaults
    omega
  | cons a rest ih =>
    rcases a with ⟨pid, pg⟩
    intro cur s hval hinv
    have hpid : pid < 4 := hval (pid, pg) (List.mem_cons_self ..)
    have hval2 : ValidTrace rest := fun a ha => hval a (List.mem_cons_of_mem _ ha)
    show s.globalFaults + Belady.opt nf ((pid, pg) :: rest) (resAll s.memory) ≤
      (L.runFrom policy rands tr (cur + 1) rest
        (L.handleAccess policy rands tr cur pid pg s)).globalFaults
    have hinv2 : LInv policy nf (L.handleAccess policy rands tr cur pid pg s) :=
      linv_handleAccess hinv hnf rands tr cur pid pg
    rcases hPT : s.pageTables pid pg with _ | f
    · -- miss
      rw [L.l_handleAccess_miss policy rands tr cur hPT] at hinv2 ⊢
      have hmiss : ((pid, pg) : Access) ∉ resAll s.memory := LRes_miss hinv hPT
      have hcard : (resAll s.memory).card ≤ nf := card_resAll_le hinv
      rcases hfind : (List.range s.memoryFramesPerProcess).find?
          (fun i => decide ((s.memory pid)[i]? = some none)) with _ | i
      · -- partition full: an eviction happens
        have hfull := lfull_of_find_none hinv pid hfind
        have hfind1 : (List.range (L.bump pid s).memoryFramesPerProcess).find?
            (fun i => decide (((L.bump pid s).memory pid)[i]? = some none)) =
            none := hfind
        rcases hpol with hp | hp | hp | hp
        · -- fifo: evict at the partition cursor
          subst hp
          rcases hfull (s.nextFrame pid) (hinv.cursor pid) with ⟨e, hocc⟩
          have he1 : e.1 = pid := hinv.owner pid (s.nextFrame pid) e hocc
          rcases e with ⟨op, og⟩
          have hocc1 : ((L.bump pid s).memory pid)[(L.bump pid s).nextFrame pid]? =
              some (some (op, og)) := hocc
          rw [L.l_missDispatch_full_fifo rands tr cur hfind1 hocc1] at hinv2 ⊢
          have hih := ih (cur + 1) _ hval2 hinv2
          simp only [L.bump] at hih ⊢
          rw [resAll_upd_evict hpid hinv.owner he1 (LRes_evict hinv _ hocc)]
            at hih
          have hstep := Belady.opt_step_evict nf (pid, pg) rest (resAll s.memory)
            (op, og)
            (mem_resAll.mpr ⟨pid, Finset.mem_range.mpr hpid,
              mem_ResOf.mpr ⟨s.nextFrame pid, hocc⟩⟩)
            hmiss hcard
          omega
        · -- lru: evict the front of the partition LRU list
          subst hp
          rcases hl : s.lruList pid with _ | ⟨f0, rest2⟩
          · exfalso
            have h0occ : isOcc (s.memory pid) 0 := hfull 0 (by omega)
            have h0mem : 0 ∈ s.lruList pid := (hinv.lru rfl pid 0).mpr h0occ
            rw [hl] at h0mem
            cases h0mem
          have hf0occ : isOcc (s.memory pid) f0 := (hinv.lru rfl pid f0).mp
            (by rw [hl]; exact List.mem_cons_self ..)
          rcases hf0occ with ⟨e, hocc⟩
          have he1 : e.1 = pid := hinv.owner pid f0 e hocc
          rcases e with ⟨op, og⟩
          have hlru1 : (L.bump pid s).lruList pid = f0 :: rest2 := hl
          have hocc1 : ((L.bump pid s).memory pid)[f0]? = some (some (op, og)) :=
            hocc
          rw [L.l_missDispatch_full_lru rands tr cur hfind1 hlru1 hocc1]
            at hinv2 ⊢
          have hih := ih (cur + 1) _ hval2 hinv2
          simp only [L.bump] at hih ⊢
          rw [resAll_upd_evict hpid hinv.owner he1 (LRes_evict hinv _ hocc)]
            at hih
          have hstep := Belady.opt_step_evict nf (pid, pg) rest (resAll s.memory)
            (op, og)
            (mem_resAll.mpr ⟨pid, Finset.mem_range.mpr hpid,
              mem_ResOf.mpr ⟨f0, hocc⟩⟩)
            hmiss hcard
          omega
        · -- optimal: evict the frame chosen by the selection loop
          subst hp
          have hmfpp := hinv.mfpp
          rcases hnfr : List.range s.memoryFramesPerProcess with _ | ⟨i0, lrest⟩
          · exfalso
            have h1 := List.length_range s.memoryFramesPerProcess
            rw [hnfr] at h1
            simp only [List.length_nil] at h1
            omega
          rcases G.optimalLoop_init (s.memory pid) tr cur i0 lrest with
            ⟨v, hvmem, hv1, hv2⟩
          have hvlt : v < nf / 4 := by
            have h1 : v ∈ List.range s.memoryFramesPerProcess := by
              rw [hnfr]; exact hvmem
            rw [List.mem_range] at h1
            omega
          rcases hfull v hvlt with ⟨e, hocc⟩
          have he1 : e.1 = pid := hinv.owner pid v e hocc
          rcases e with ⟨op, og⟩
          have hoccAt : occAt (s.memory pid) v = some (op, og) :=
            occAt_eq_some.mpr hocc
          have hloop : G.optimalLoop (s.memory pid) tr cur
              (List.range s.memoryFramesPerProcess) (-1) (-1) none =
              ((v : Int), some (op, og)) := by
            rw [hnfr]
            have h2 : (G.optimalLoop (s.memory pid) tr cur (i0 :: lrest)
                (-1) (-1) none).2 = some (op, og) := by
              rw [← hv2, hoccAt]
            have h3 : G.optimalLoop (s.memory pid) tr cur (i0 :: lrest)
                (-1) (-1) none =
                ((G.optimalLoop (s.memory pid) tr cur (i0 :: lrest)
                  (-1) (-1) none).1,
                 (G.optimalLoop (s.memory pid) tr cur (i0 :: lrest)
                  (-1) (-1) none).2) := rfl
            rw [h3, hv1, h2]
          have hloop1 : G.optimalLoop ((L.bump pid s).memory pid) tr cur
              (List.range (L.bump pid s).memoryFramesPerProcess) (-1) (-1) none =
              ((v : Int), some (op, og)) := hloop
          rw [L.l_missDispatch_full_optimal rands tr cur hfind1 hloop1]
            at hinv2 ⊢
          have hih := ih (cur + 1) _ hval2 hinv2
          simp only [L.bump, Int.toNat_natCast] at hih ⊢
          rw [resAll_upd_evict hpid hinv.owner he1 (LRes_evict hinv _ hocc)]
            at hih
          have hstep := Belady.opt_step_evict nf (pid, pg) rest (resAll s.memory)
            (op, og)
            (mem_resAll.mpr ⟨pid, Finset.mem_range.mpr hpid,
              mem_ResOf.mpr ⟨v, hocc⟩⟩)
            hmiss hcard
          omega
        · -- random: evict the drawn frame of the partition
          subst hp
          have hmodlt : rands s.randIdx % s.memoryFramesPerProcess < nf / 4 := by
            rw [hinv.mfpp]
            exact Nat.mod_lt _ (by omega)
          rcases hfull _ hmodlt with ⟨e, hocc⟩
          have he1 : e.1 = pid :=
            hinv.owner pid (rands s.randIdx % s.memoryFramesPerProcess) e hocc
          rcases e with ⟨op, og⟩
          have hocc1 : ((L.bump pid s).memory pid)[rands (L.bump pid s).randIdx %
              (L.bump pid s).memoryFramesPerProcess]? = some (some (op, og)) :=
            hocc
          rw [L.l_missDispatch_full_random rands tr cur hfind1 hocc1] at hinv2 ⊢
          have hih := ih (cur + 1) _ hval2 hinv2
          simp only [L.bump] at hih ⊢
          rw [resAll_upd_evict hpid hinv.owner he1 (LRes_evict hinv _ hocc)]
            at hih
          have hstep := Belady.opt_step_evict nf (pid, pg) rest (resAll s.memory)
            (op, og)
            (mem_resAll.mpr ⟨pid, Finset.mem_range.mpr hpid,
              mem_ResOf.mpr ⟨_, hocc⟩⟩)
            hmiss hcard
          omega
      · -- a free frame of the partition is granted
        have hfree : (s.memory pid)[i]? = some none := by
          have h1 := List.find?_some hfind
          simpa using h1
        have hfind1 : (List.range (L.bump pid s).memoryFramesPerProcess).find?
            (fun i => decide (((L.bump pid s).memory pid)[i]? = some none)) =
            some i := hfind
        rw [L.l_missDispatch_free policy rands tr cur hfind1] at hinv2 ⊢
        have hclt : (resAll s.memory).card < nf :=
          card_resAll_lt_of_free hinv hpid hfree
        rw [Belady.opt_cons_slack nf _ rest _ hmiss hclt]
        have hih := ih (cur + 1) _ hval2 hinv2
        simp only [L.bump] at hih ⊢
        rw [resAll_upd_insert hpid (ResOf_set_free _ hfree)] at hih
        omega
    · -- hit
      rw [L.l_handleAccess_hit policy rands tr cur hPT] at hinv2 ⊢
      have hhit : ((pid, pg) : Access) ∈ resAll s.memory := LRes_hit hinv hpid hPT
      rw [Belady.opt_cons_mem _ _ _ _ hhit]
      by_cases hp : policy = "lru"
      · rw [if_pos hp] at hinv2 ⊢
        exact ih (cur + 1) _ hval2 hinv2
      · rw [if_neg hp] at hinv2 ⊢
        exact ih (cur + 1) _ hval2 hinv2

end VMM

namespace VMM

theorem filter_cons_self (pid pg : Nat) (t : List Access) :
    ((pid, pg) :: t).filter (fun a => a.1 = pid) =
      (pid, pg) :: t.filter (fun a => a.1 = pid) := by
  rw [List.filter_cons, if_pos (by simp)]

theorem filter_cons_ne (pid pg q : Nat) (t : List Access) (h : pid ≠ q) :
    ((pid, pg) :: t).filter (fun a => a.1 = q) =
      t.filter (fun a => a.1 = q) := by
  rw [List.filter_cons, if_neg (by simpa using h)]

theorem sum4_split (F : Nat → Nat) {pid : Nat} (hpid : pid < 4) :
    ∑ q ∈ Finset.range 4, F q =
      F pid + ∑ q ∈ (Finset.range 4).erase pid, F q := by
  rw [Finset.add_sum_erase _ F (Finset.mem_range.mpr hpid)]

/-- The per-process clairvoyant-optimal cost: each partition is an
independent cache of nf / 4 frames serving the subsequence of its owner. -/
def lOptSum (nf : Nat) (rest : List Access)
    (mem : Nat → List (Option (Nat × Nat))) : Nat :=
  ∑ q ∈ Finset.range 4,
    Belady.opt (nf / 4) (rest.filter (fun a => a.1 = q)) (ResOf (mem q))

theorem lOptSum_cons (nf pid pg : Nat) (hpid : pid < 4) (rest : List Access)
    (mem : Nat → List (Option (Nat × Nat))) :
    lOptSum nf ((pid, pg) :: rest) mem =
      Belady.opt (nf / 4) ((pid, pg) :: rest.filter (fun a => a.1 = pid))
        (ResOf (mem pid)) +
      ∑ q ∈ (Finset.range 4).erase pid,
        Belady.opt (nf / 4) (rest.filter (fun a => a.1 = q)) (ResOf (mem q)) := by
  unfold lOptSum
  rw [sum4_split _ hpid]
  congr 1
  · rw [filter_cons_self]
  · refine Finset.sum_congr rfl ?_
    intro q hq
    rcases Finset.mem_erase.mp hq with ⟨hqne, -⟩
    rw [filter_cons_ne _ _ _ _ (fun h => hqne h.symm)]

theorem lOptSum_split (nf : Nat) {pid : Nat} (hpid : pid < 4) (rest : List Access)
    (mem : Nat → List (Option (Nat × Nat))) :
    lOptSum nf rest mem =
      Belady.opt (nf / 4) (rest.filter (fun a => a.1 = pid)) (ResOf (mem pid)) +
      ∑ q ∈ (Finset.range 4).erase pid,
        Belady.opt (nf / 4) (rest.filter (fun a => a.1 = q)) (ResOf (mem q)) := by
  unfold lOptSum
  rw [sum4_split _ hpid]

theorem lOptSum_upd (nf : Nat) {pid : Nat} (hpid : pid < 4) (rest : List Access)
    (mem : Nat → List (Option (Nat × Nat))) (l : List (Option (Nat × Nat))) :
    lOptSum nf rest (upd mem pid l) =
      Belady.opt (nf / 4) (rest.filter (fun a => a.1 = pid)) (ResOf l) +
      ∑ q ∈ (Finset.range 4).erase pid,
        Belady.opt (nf / 4) (rest.filter (fun a => a.1 = q)) (ResOf (mem q)) := by
  unfold lOptSum
  rw [sum4_split _ hpid, upd_self]
  congr 1
  refine Finset.sum_congr rfl ?_
  intro q hq
  rcases Finset.mem_erase.mp hq with ⟨hqne, -⟩
  rw [upd_ne _ _ _ _ hqne]

theorem LRes_miss_part {policy : String} {nf : Nat} {s : LState}
    (hinv : LInv policy nf s) {pid pg : Nat}
    (hPT : s.pageTables pid pg = none) :
    ((pid, pg) : Access) ∉ ResOf (s.memory pid) := by
  intro h
  rcases mem_ResOf.mp h with ⟨f, hf⟩
  have h2 := (hinv.bij pid pg f).mpr hf
  rw [hPT] at h2
  cases h2

theorem LRes_hit_part {policy : String} {nf : Nat} {s : LState}
    (hinv : LInv policy nf s) {pid pg f : Nat}
    (hPT : s.pageTables pid pg = some f) :
    ((pid, pg) : Access) ∈ ResOf (s.memory pid) :=
  mem_ResOf.mpr ⟨f, (hinv.bij pid pg f).mp hPT⟩

namespace Belady

/-- Restricting the trace to a subsequence containing both pages preserves
the order of their first uses. -/
theorem firstUse_filter_mono (p : Access → Bool) :
    ∀ (t : List Access) (u v : Access), p u = true → p v = true →
      oLE (firstUse t u) (firstUse t v) →
      oLE (firstUse (t.filter p) u) (firstUse (t.filter p) v) := by
  intro t
  induction t with
  | nil =>
    intro u v _ _ _
    exact oLE_refl _
  | cons h t ih =>
    intro u v hpu hpv hle
    by_cases hhu : h = u
    · subst hhu
      have hf : (h :: t).filter p = h :: t.filter p := by
        rw [List.filter_cons, if_pos hpu]
      rw [hf]
      have h0 : firstUse (h :: t.filter p) h = some 0 := by
        simp [firstUse]
      rw [h0]
      rcases firstUse (h :: t.filter p) v with _ | b
      · exact oLE_top _
      · show 0 ≤ b
        omega
    by_cases hhv : h = v
    · exfalso
      subst hhv
      rw [firstUse_cons_ne t hhu] at hle
      have h0 : firstUse (h :: t) h = some 0 := by simp [firstUse]
      rw [h0] at hle
      rcases hx : firstUse t u with _ | i
      · rw [hx] at hle
        exact hle
      · rw [hx] at hle
        simp only [Option.map_some'] at hle
        exact absurd hle (by simp [oLE])
    · have hle2 : oLE (firstUse t u) (firstUse t v) := by
        rw [firstUse_cons_ne t hhu, firstUse_cons_ne t hhv] at hle
        exact oLE_shift.mp hle
      have hrec := ih u v hpu hpv hle2
      by_cases hph : p h = true
      · have hf : (h :: t).filter p = h :: t.filter p := by
          rw [List.filter_cons, if_pos hph]
        rw [hf, firstUse_cons_ne _ hhu, firstUse_cons_ne _ hhv]
        exact oLE_shift.mpr hrec
      · have hf : (h :: t).filter p = t.filter p := by
          rw [List.filter_cons, if_neg hph]
        rw [hf]
        exact hrec

end Belady

end VMM

namespace VMM

theorem lOptSum_cons_hit (nf pid pg : Nat) (hpid : pid < 4) (rest : List Access)
    (mem : Nat → List (Option (Nat × Nat)))
    (hhit : ((pid, pg) : Access) ∈ ResOf (mem pid)) :
    lOptSum nf ((pid, pg) :: rest) mem = lOptSum nf rest mem := by
  rw [lOptSum_cons nf pid pg hpid rest mem, Belady.opt_cons_mem _ _ _ _ hhit,
    ← lOptSum_split nf hpid rest mem]

/-- Lower bound: under any recognized policy the Local engine pays at least
the sum of the per-partition clairvoyant-optimal costs, each partition
serving the subsequence of its owning process with nf / 4 frames. -/
theorem l_lb_sum (policy : String)
    (hpol : policy = "fifo" ∨ policy = "lru" ∨ policy = "optimal" ∨
      policy = "random")
    (rands : Nat → Nat) (tr : List Access) (nf : Nat) (hnf : 4 ≤ nf) :
    ∀ (rest : List Access) (cur : Nat) (s : LState), ValidTrace rest →
      LInv policy nf s →
      s.globalFaults + lOptSum nf rest s.memory ≤
        (L.runFrom policy rands tr cur rest s).globalFaults := by
  have hq4 : 1 ≤ nf / 4 := (Nat.one_le_div_iff (by omega)).mpr hnf
  intro rest
  induction rest with
  | nil =>
    intro cur s _ hinv
    have h0 : lOptSum nf [] s.memory = 0 := by
      unfold lOptSum
      refine Finset.sum_eq_zero ?_
      intro q _
      rw [List.filter_nil, Belady.opt_nil]
    rw [h0]
    show s.globalFaults + 0 ≤ s.globalFaults
    omega
  | cons a rest ih =>
    rcases a with ⟨pid, pg⟩
    intro cur s hval hinv
    have hpid : pid < 4 := hval (pid, pg) (List.mem_cons_self ..)
    have hval2 : ValidTrace rest := fun a ha => hval a (List.mem_cons_of_mem _ ha)
    show s.globalFaults + lOptSum nf ((pid, pg) :: rest) s.memory ≤
      (L.runFrom policy rands tr (cur + 1) rest
        (L.handleAccess policy rands tr cur pid pg s)).globalFaults
    have hinv2 : LInv policy nf (L.handleAccess policy rands tr cur pid pg s) :=
      linv_handleAccess hinv hnf rands tr cur pid pg
    rcases hPT : s.pageTables pid pg with _ | f
    · -- miss
      rw [L.l_handleAccess_miss policy rands tr cur hPT] at hinv2 ⊢
      have hmiss : ((pid, pg) : Access) ∉ ResOf (s.memory pid) :=
        LRes_miss_part hinv hPT
      have hcard : (ResOf (s.memory pid)).card ≤ nf / 4 := by
        have h1 := card_ResOf_le (s.memory pid)
        rw [hinv.len pid] at h1
        exact h1
      rw [lOptSum_cons nf pid pg hpid rest s.memory]
      rcases hfind : (List.range s.memoryFramesPerProcess).find?
          (fun i => decide ((s.memory pid)[i]? = some none)) with _ | i
      · -- partition full: an eviction happens
        have hfull := lfull_of_find_none hinv pid hfind
        have hfind1 : (List.range (L.bump pid s).memoryFramesPerProcess).find?
            (fun i => decide (((L.bump pid s).memory pid)[i]? = some none)) =
            none := hfind
        rcases hpol with hp | hp | hp | hp
        · subst hp
          rcases hfull (s.nextFrame pid) (hinv.cursor pid) with ⟨e, hocc⟩
          rcases e with ⟨op, og⟩
          have hocc1 : ((L.bump pid s).memory pid)[(L.bump pid s).nextFrame pid]? =
              some (some (op, og)) := hocc
          rw [L.l_missDispatch_full_fifo rands tr cur hfind1 hocc1] at hinv2 ⊢
          have hih := ih (cur + 1) _ hval2 hinv2
          simp only [L.bump] at hih ⊢
          rw [lOptSum_upd nf hpid rest s.memory _,
            LRes_evict hinv _ hocc] at hih
          have hstep := Belady.opt_step_evict (nf / 4) (pid, pg)
            (rest.filter (fun a => a.1 = pid)) (ResOf (s.memory pid))
            (op, og) (mem_ResOf.mpr ⟨s.nextFrame pid, hocc⟩) hmiss hcard
          omega
        · subst hp
          rcases hl : s.lruList pid with _ | ⟨f0, rest2⟩
          · exfalso
            have h0occ : isOcc (s.memory pid) 0 := hfull 0 (by omega)
            have h0mem : 0 ∈ s.lruList pid := (hinv.lru rfl pid 0).mpr h0occ
            rw [hl] at h0mem
            cases h0mem
          have hf0occ : isOcc (s.memory pid) f0 := (hinv.lru rfl pid f0).mp
            (by rw [hl]; exact List.mem_cons_self ..)
          rcases hf0occ with ⟨e, hocc⟩
          rcases e with ⟨op, og⟩
          have hlru1 : (L.bump pid s).lruList pid = f0 :: rest2 := hl
          have hocc1 : ((L.bump pid s).memory pid)[f0]? = some (some (op, og)) :=
            hocc
          rw [L.l_missDispatch_full_lru rands tr cur hfind1 hlru1 hocc1]
            at hinv2 ⊢
          have hih := ih (cur + 1) _ hval2 hinv2
          simp only [L.bump] at hih ⊢
          rw [lOptSum_upd nf hpid rest s.memory _,
            LRes_evict hinv _ hocc] at hih
          have hstep := Belady.opt_step_evict (nf / 4) (pid, pg)
            (rest.filter (fun a => a.1 = pid)) (ResOf (s.memory pid))
            (op, og) (mem_ResOf.mpr ⟨f0, hocc⟩) hmiss hcard
          omega
        · subst hp
          have hmfpp := hinv.mfpp
          rcases hnfr : List.range s.memoryFramesPerProcess with _ | ⟨i0, lrest⟩
          · exfalso
            have h1 := List.length_range s.memoryFramesPerProcess
            rw [hnfr] at h1
            simp only [List.length_nil] at h1
            omega
          rcases G.optimalLoop_init (s.memory pid) tr cur i0 lrest with
            ⟨v, hvmem, hv1, hv2⟩
          have hvlt : v < nf / 4 := by
            have h1 : v ∈ List.range s.memoryFramesPerProcess := by
              rw [hnfr]; exact hvmem
            rw [List.mem_range] at h1
            omega
          rcases hfull v hvlt with ⟨e, hocc⟩
          rcases e with ⟨op, og⟩
          have hoccAt : occAt (s.memory pid) v = some (op, og) :=
            occAt_eq_some.mpr hocc
          have hloop : G.optimalLoop (s.memory pid) tr cur
              (List.range s.memoryFramesPerProcess) (-1) (-1) none =
              ((v : Int), some (op, og)) := by
            rw [hnfr]
            have h2 : (G.optimalLoop (s.memory pid) tr cur (i0 :: lrest)
                (-1) (-1) none).2 = some (op, og) := by
              rw [← hv2, hoccAt]
            have h3 : G.optimalLoop (s.memory pid) tr cur (i0 :: lrest)
                (-1) (-1) none =
                ((G.optimalLoop (s.memory pid) tr cur (i0 :: lrest)
                  (-1) (-1) none).1,
                 (G.optimalLoop (s.memory pid) tr cur (i0 :: lrest)
                  (-1) (-1) none).2) := rfl
            rw [h3, hv1, h2]
          have hloop1 : G.optimalLoop ((L.bump pid s).memory pid) tr cur
              (List.range (L.bump pid s).memoryFramesPerProcess) (-1) (-1) none =
              ((v : Int), some (op, og)) := hloop
          rw [L.l_missDispatch_full_optimal rands tr cur hfind1 hloop1]
            at hinv2 ⊢
          have hih := ih (cur + 1) _ hval2 hinv2
          simp only [L.bump, Int.toNat_natCast] at hih ⊢
          rw [lOptSum_upd nf hpid rest s.memory _,
            LRes_evict hinv _ hocc] at hih
          have hstep := Belady.opt_step_evict (nf / 4) (pid, pg)
            (rest.filter (fun a => a.1 = pid)) (ResOf (s.memory pid))
            (op, og) (mem_ResOf.mpr ⟨v, hocc⟩) hmiss hcard
          omega
        · subst hp
          have hmodlt : rands s.randIdx % s.memoryFramesPerProcess < nf / 4 := by
            rw [hinv.mfpp]
            exact Nat.mod_lt _ (by omega)
          rcases hfull _ hmodlt with ⟨e, hocc⟩
          rcases e with ⟨op, og⟩
          have hocc1 : ((L.bump pid s).memory pid)[rands (L.bump pid s).randIdx %
              (L.bump pid s).memoryFramesPerProcess]? = some (some (op, og)) :=
            hocc
          rw [L.l_missDispatch_full_random rands tr cur hfind1 hocc1] at hinv2 ⊢
          have hih := ih (cur + 1) _ hval2 hinv2
          simp only [L.bump] at hih ⊢
          rw [lOptSum_upd nf hpid rest s.memory _,
            LRes_evict hinv _ hocc] at hih
          have hstep := Belady.opt_step_evict (nf / 4) (pid, pg)
            (rest.filter (fun a => a.1 = pid)) (ResOf (s.memory pid))
            (op, og) (mem_ResOf.mpr ⟨_, hocc⟩) hmiss hcard
          omega
      · -- a free frame of the partition is granted
        have hfree : (s.memory pid)[i]? = some none := by
          have h1 := List.find?_some hfind
          simpa using h1
        have hfind1 : (List.range (L.bump pid s).memoryFramesPerProcess).find?
            (fun i => decide (((L.bump pid s).memory pid)[i]? = some none)) =
            some i := hfind
        rw [L.l_missDispatch_free policy rands tr cur hfind1] at hinv2 ⊢
        have hclt : (ResOf (s.memory pid)).card < nf / 4 := by
          have h1 := card_ResOf_lt_of_free hfree
          rw [hinv.len pid] at h1
          exact h1
        rw [Belady.opt_cons_slack (nf / 4) _ _ _ hmiss hclt]
        have hih := ih (cur + 1) _ hval2 hinv2
        simp only [L.bump] at hih ⊢
        rw [lOptSum_upd nf hpid rest s.memory _, ResOf_set_free _ hfree] at hih
        omega
    · -- hit
      rw [L.l_handleAccess_hit policy rands tr cur hPT] at hinv2 ⊢
      rw [lOptSum_cons_hit nf pid pg hpid rest s.memory
        (LRes_hit_part hinv hPT)]
      by_cases hp : policy = "lru"
      · rw [if_pos hp] at hinv2 ⊢
        exact ih (cur + 1) _ hval2 hinv2
      · rw [if_neg hp] at hinv2 ⊢
        exact ih (cur + 1) _ hval2 hinv2

end VMM

namespace VMM

/-- Upper bound: the Local engine under policy optimal pays no more than the
sum of the per-partition clairvoyant-optimal costs, because each partition's
loop victim has the farthest next use within its own subsequence. -/
theorem l_opt_run (rands : Nat → Nat) (tr : List Access) (nf : Nat)
    (hnf : 4 ≤ nf) :
    ∀ (rest : List Access) (cur : Nat) (s : LState), ValidTrace rest →
      LInv "optimal" nf s → rest = tr.drop cur →
      (L.runFrom "optimal" rands tr cur rest s).globalFaults ≤
        s.globalFaults + lOptSum nf rest s.memory := by
  have hq4 : 1 ≤ nf / 4 := (Nat.one_le_div_iff (by omega)).mpr hnf
  intro rest
  induction rest with
  | nil =>
    intro cur s _ _ _
    show s.globalFaults ≤ s.globalFaults + lOptSum nf [] s.memory
    omega
  | cons a rest ih =>
    rcases a with ⟨pid, pg⟩
    intro cur s hval hinv hdrop
    have hpid : pid < 4 := hval (pid, pg) (List.mem_cons_self ..)
    have hval2 : ValidTrace rest := fun a ha => hval a (List.mem_cons_of_mem _ ha)
    have hdrop2 : rest = tr.drop (cur + 1) := by
      have h1 : List.drop 1 (List.drop cur tr) = List.drop (cur + 1) tr := by
        rw [List.drop_drop]
      rw [← h1, ← hdrop]
      rfl
    show (L.runFrom "optimal" rands tr (cur + 1) rest
        (L.handleAccess "optimal" rands tr cur pid pg s)).globalFaults ≤
      s.globalFaults + lOptSum nf ((pid, pg) :: rest) s.memory
    have hinv2 : LInv "optimal" nf (L.handleAccess "optimal" rands tr cur pid pg s) :=
      linv_handleAccess hinv hnf rands tr cur pid pg
    rcases hPT : s.pageTables pid pg with _ | f
    · -- miss
      rw [L.l_handleAccess_miss "optimal" rands tr cur hPT] at hinv2 ⊢
      have hmiss : ((pid, pg) : Access) ∉ ResOf (s.memory pid) :=
        LRes_miss_part hinv hPT
      rw [lOptSum_cons nf pid pg hpid rest s.memory]
      rcases hfind : (List.range s.memoryFramesPerProcess).find?
          (fun i => decide ((s.memory pid)[i]? = some none)) with _ | i
      · -- partition full: the selection loop picks the victim
        have hfull := lfull_of_find_none hinv pid hfind
        have hfind1 : (List.range (L.bump pid s).memoryFramesPerProcess).find?
            (fun i => decide (((L.bump pid s).memory pid)[i]? = some none)) =
            none := hfind
        have hmfpp := hinv.mfpp
        obtain ⟨v, op, og, hvlt, hocc, hloop, hOLE⟩ :
            ∃ (v op og : Nat), v < nf / 4 ∧
              (s.memory pid)[v]? = some (some (op, og)) ∧
              G.optimalLoop (s.memory pid) tr cur
                (List.range s.memoryFramesPerProcess) (-1) (-1) none =
                ((v : Int), some (op, og)) ∧
              ∀ e₀ ∈ ResOf (s.memory pid),
                Belady.oLE
                  (Belady.firstUse (rest.filter (fun a => a.1 = pid)) e₀)
                  (Belady.firstUse (rest.filter (fun a => a.1 = pid))
                    ((op, og) : Access)) := by
          by_cases hex : ∃ x ∈ List.range s.memoryFramesPerProcess,
              frameUse (s.memory pid) tr cur x = none
          · rcases G.optimalLoop_first_none (s.memory pid) tr cur
              (List.range s.memoryFramesPerProcess) (List.sorted_lt_range _)
              (-1) (-1) none hex with ⟨v, hvmem, hv1, hvnone, hbefore⟩
            have hvlt : v < nf / 4 := by
              rw [List.mem_range, hmfpp] at hvmem
              exact hvmem
            rcases hfull v hvlt with ⟨e, hocc⟩
            rcases e with ⟨op, og⟩
            have hoccAt : occAt (s.memory pid) v = some (op, og) :=
              occAt_eq_some.mpr hocc
            have hnone : nextUseIdx tr cur ((op, og) : Access) = none := by
              unfold frameUse at hvnone
              rw [hoccAt] at hvnone
              simpa using hvnone
            have hloop : G.optimalLoop (s.memory pid) tr cur
                (List.range s.memoryFramesPerProcess) (-1) (-1) none =
                ((v : Int), some (op, og)) := by
              rcases G.optimalLoop_res (s.memory pid) tr cur
                (List.range s.memoryFramesPerProcess) (-1) (-1) none with
                ⟨i, himem, hi1, hi2⟩ | hres
              · rw [hv1] at hi1
                have hiv : i = v := by exact_mod_cast hi1.symm
                subst hiv
                rw [hoccAt] at hi2
                have h3 : G.optimalLoop (s.memory pid) tr cur
                    (List.range s.memoryFramesPerProcess) (-1) (-1) none =
                    ((G.optimalLoop (s.memory pid) tr cur
                      (List.range s.memoryFramesPerProcess) (-1) (-1) none).1,
                     (G.optimalLoop (s.memory pid) tr cur
                      (List.range s.memoryFramesPerProcess) (-1) (-1) none).2) :=
                  rfl
                rw [h3, hv1, ← hi2]
              · rw [hres] at hv1
                have h4 : (-1 : Int) = (v : Int) := hv1
                omega
            refine ⟨v, op, og, hvlt, hocc, hloop, ?_⟩
            intro e₀ he₀
            have hww : ((op, og) : Access).1 = pid := hinv.owner pid v _ hocc
            have hee : e₀.1 = pid := by
              rcases mem_ResOf.mp he₀ with ⟨fx, hfx⟩
              exact hinv.owner pid fx e₀ hfx
            rw [hdrop2]
            refine Belady.firstUse_filter_mono _ _ _ _
              (by simpa using hee) (by simpa using hww) ?_
            exact oLE_of_nextUse (Or.inl hnone)
          · push_neg at hex
            rcases G.optimalLoop_all_some (s.memory pid) tr cur
              (List.range s.memoryFramesPerProcess) (-1) (-1) none hex with
              ⟨heq, hall⟩ | ⟨v, hvmem, jv, hv1, hv2, hvju, hfi, hmax⟩
            · exfalso
              have h0 : (0 : Nat) ∈ List.range s.memoryFramesPerProcess := by
                rw [List.mem_range, hmfpp]
                omega
              rcases hall 0 h0 with ⟨j0, hj0, hj0le⟩
              omega
            · have hvlt : v < nf / 4 := by
                rw [List.mem_range, hmfpp] at hvmem
                exact hvmem
              rcases hfull v hvlt with ⟨e, hocc⟩
              rcases e with ⟨op, og⟩
              have hoccAt : occAt (s.memory pid) v = some (op, og) :=
                occAt_eq_some.mpr hocc
              have hnv : nextUseIdx tr cur ((op, og) : Access) = some jv := by
                unfold frameUse at hvju
                rw [hoccAt] at hvju
                simpa using hvju
              have hloop : G.optimalLoop (s.memory pid) tr cur
                  (List.range s.memoryFramesPerProcess) (-1) (-1) none =
                  ((v : Int), some (op, og)) := by
                have h3 : G.optimalLoop (s.memory pid) tr cur
                    (List.range s.memoryFramesPerProcess) (-1) (-1) none =
                    ((G.optimalLoop (s.memory pid) tr cur
                      (List.range s.memoryFramesPerProcess) (-1) (-1) none).1,
                     (G.optimalLoop (s.memory pid) tr cur
                      (List.range s.memoryFramesPerProcess) (-1) (-1) none).2) :=
                  rfl
                rw [h3, hv1, hv2, hoccAt]
              refine ⟨v, op, og, hvlt, hocc, hloop, ?_⟩
              intro e₀ he₀
              have hww : ((op, og) : Access).1 = pid := hinv.owner pid v _ hocc
              rcases mem_ResOf.mp he₀ with ⟨fx, hfx⟩
              have hee : e₀.1 = pid := hinv.owner pid fx e₀ hfx
              have hfxlt : fx < nf / 4 := by
                have h5 := (List.getElem?_eq_some_iff.mp hfx).1
                rw [hinv.len pid] at h5
                exact h5
              have hfxmem : fx ∈ List.range s.memoryFramesPerProcess := by
                rw [List.mem_range, hmfpp]
                exact hfxlt
              rcases hmax fx hfxmem with ⟨jx, hjx, hjxle⟩
              have hoA : occAt (s.memory pid) fx = some e₀ :=
                occAt_eq_some.mpr hfx
              have hnx : nextUseIdx tr cur e₀ = some jx := by
                unfold frameUse at hjx
                rw [hoA] at hjx
                simpa using hjx
              rw [hdrop2]
              refine Belady.firstUse_filter_mono _ _ _ _
                (by simpa using hee) (by simpa using hww) ?_
              exact oLE_of_nextUse (Or.inr ⟨jx, jv, hnx, hnv, hjxle⟩)
        have hloop1 : G.optimalLoop ((L.bump pid s).memory pid) tr cur
            (List.range (L.bump pid s).memoryFramesPerProcess) (-1) (-1) none =
            ((v : Int), some (op, og)) := hloop
        rw [L.l_missDispatch_full_optimal rands tr cur hfind1 hloop1]
          at hinv2 ⊢
        have hih := ih (cur + 1) _ hval2 hinv2 hdrop2
        simp only [L.bump, Int.toNat_natCast] at hih ⊢
        rw [lOptSum_upd nf hpid rest s.memory _,
          LRes_evict hinv _ hocc] at hih
        have hCcard : (ResOf (s.memory pid)).card = nf / 4 := by
          have h1 := card_ResOf_full (m := s.memory pid)
            (fun f hf => hfull f (hinv.len pid ▸ hf)) (LRes_inj hinv pid)
          rw [hinv.len pid] at h1
          exact h1
        have hw : ((op, og) : Access) ∈ ResOf (s.memory pid) :=
          mem_ResOf.mpr ⟨v, hocc⟩
        have hbound : ∀ e₀ ∈ ResOf (s.memory pid),
            Belady.opt (nf / 4) (rest.filter (fun a => a.1 = pid))
              (insert (pid, pg) ((ResOf (s.memory pid)).erase (op, og))) ≤
            Belady.opt (nf / 4) (rest.filter (fun a => a.1 = pid))
              (insert (pid, pg) ((ResOf (s.memory pid)).erase e₀)) := by
          intro e₀ he₀
          by_cases heq0 : e₀ = ((op, og) : Access)
          · subst heq0
            exact le_refl _
          · have hY : ((ResOf (s.memory pid)).erase (op, og)).erase e₀ =
                ((ResOf (s.memory pid)).erase e₀).erase (op, og) :=
              Finset.erase_right_comm
            have he₀w : e₀ ∈ (ResOf (s.memory pid)).erase (op, og) :=
              Finset.mem_erase.mpr ⟨heq0, he₀⟩
            have hwe : ((op, og) : Access) ∈ (ResOf (s.memory pid)).erase e₀ :=
              Finset.mem_erase.mpr ⟨fun h => heq0 h.symm, hw⟩
            have hk1 : insert ((pid, pg) : Access)
                ((ResOf (s.memory pid)).erase (op, og)) =
                insert e₀ (insert (pid, pg)
                  (((ResOf (s.memory pid)).erase (op, og)).erase e₀)) := by
              rw [Finset.Insert.comm, Finset.insert_erase he₀w]
            have hk2 : insert ((pid, pg) : Access)
                ((ResOf (s.memory pid)).erase e₀) =
                insert ((op, og) : Access) (insert (pid, pg)
                  (((ResOf (s.memory pid)).erase (op, og)).erase e₀)) := by
              rw [hY, Finset.Insert.comm, Finset.insert_erase hwe]
            have hex2 := Belady.opt_exchange (nf / 4)
              (rest.filter (fun a => a.1 = pid))
              (insert ((pid, pg) : Access)
                (((ResOf (s.memory pid)).erase (op, og)).erase e₀))
              e₀ ((op, og) : Access)
              (by
                simp only [Finset.mem_insert, Finset.mem_erase]
                rintro (h | ⟨h1, h2⟩)
                · exact hmiss (h ▸ he₀)
                · exact h1 rfl)
              (by
                simp only [Finset.mem_insert, Finset.mem_erase]
                rintro (h | ⟨h1, h2⟩)
                · exact hmiss (h ▸ hw)
                · exact h2.1 rfl)
              (by
                rw [← hk1]
                have h1 := Finset.card_insert_le ((pid, pg) : Access)
                  ((ResOf (s.memory pid)).erase (op, og))
                have h2 := Finset.card_erase_of_mem hw
                omega)
              (hOLE e₀ he₀)
            rw [← hk1, ← hk2] at hex2
            exact hex2
        have hne : (ResOf (s.memory pid)).Nonempty := ⟨(op, og), hw⟩
        have hnotlt : ¬ (ResOf (s.memory pid)).card < nf / 4 := by
          rw [hCcard]
          omega
        rw [Belady.opt_cons_full (nf / 4) (pid, pg) _ _ hmiss hnotlt hne]
        have hminb := Finset.le_min'
          ((ResOf (s.memory pid)).image (fun e =>
            Belady.opt (nf / 4) (rest.filter (fun a => a.1 = pid))
              (insert (pid, pg) ((ResOf (s.memory pid)).erase e))))
          (Finset.image_nonempty.mpr hne)
          (Belady.opt (nf / 4) (rest.filter (fun a => a.1 = pid))
            (insert (pid, pg) ((ResOf (s.memory pid)).erase (op, og))))
          (by
            intro b hb
            rcases Finset.mem_image.mp hb with ⟨e₀, he₀, rfl⟩
            exact hbound e₀ he₀)
        omega
      · -- a free frame of the partition is granted
        have hfree : (s.memory pid)[i]? = some none := by
          have h1 := List.find?_some hfind
          simpa using h1
        have hfind1 : (List.range (L.bump pid s).memoryFramesPerProcess).find?
            (fun i => decide (((L.bump pid s).memory pid)[i]? = some none)) =
            some i := hfind
        rw [L.l_missDispatch_free "optimal" rands tr cur hfind1] at hinv2 ⊢
        have hclt : (ResOf (s.memory pid)).card < nf / 4 := by
          have h1 := card_ResOf_lt_of_free hfree
          rw [hinv.len pid] at h1
          exact h1
        rw [Belady.opt_cons_slack (nf / 4) _ _ _ hmiss hclt]
        have hih := ih (cur + 1) _ hval2 hinv2 hdrop2
        simp only [L.bump] at hih ⊢
        rw [lOptSum_upd nf hpid rest s.memory _, ResOf_set_free _ hfree] at hih
        omega
    · -- hit
      rw [L.l_handleAccess_hit "optimal" rands tr cur hPT] at hinv2 ⊢
      rw [if_neg (by decide)] at hinv2 ⊢
      rw [lOptSum_cons_hit nf pid pg hpid rest s.memory
        (LRes_hit_part hinv hPT)]
      exact ih (cur + 1) _ hval2 hinv2 hdrop2

end VMM

namespace VMM

theorem ResOf_replicate (n : Nat) :
    ResOf (List.replicate n (none : Option (Nat × Nat))) = ∅ := by
  ext x
  simp only [Finset.not_mem_empty, iff_false]
  rw [mem_ResOf]
  rintro ⟨f, hf⟩
  rcases lt_or_ge f n with hlt | hge
  · rw [List.getElem?_replicate, if_pos hlt] at hf
    cases hf
  · rw [List.getElem?_eq_none_iff.mpr (by simpa using hge)] at hf
    cases hf

theorem resAll_init (nf : Nat) : resAll (L.init nf).memory = ∅ := by
  refine Finset.eq_empty_iff_forall_not_mem.mpr ?_
  intro x hx
  rcases Finset.mem_biUnion.mp hx with ⟨q, hq, hmem⟩
  have hrep : (L.init nf).memory q = List.replicate (nf / 4) none := rfl
  rw [hrep, ResOf_replicate] at hmem
  exact Finset.not_mem_empty x hmem

/-- C8.  Optimal minimality: for every trace over the four processes, every
frame count on which the engine is well defined, and each engine, the global
fault count produced under policy optimal is at most the count produced
under fifo, under lru, and under random for every stream of random draws,
on the same input. -/
theorem claim_C8 (rands rnd : Nat → Nat) (nf : Nat) (t : List Access)
    (hval : ValidTrace t) :
    (1 ≤ nf →
      (G.runSimulation "optimal" rands nf t).globalFaults ≤
        (G.runSimulation "fifo" rands nf t).globalFaults ∧
      (G.runSimulation "optimal" rands nf t).globalFaults ≤
        (G.runSimulation "lru" rands nf t).globalFaults ∧
      (G.runSimulation "optimal" rands nf t).globalFaults ≤
        (G.runSimulation "random" rnd nf t).globalFaults) ∧
    (4 ≤ nf →
      (L.runSimulation "optimal" rands nf t).globalFaults ≤
        (L.runSimulation "fifo" rands nf t).globalFaults ∧
      (L.runSimulation "optimal" rands nf t).globalFaults ≤
        (L.runSimulation "lru" rands nf t).globalFaults ∧
      (L.runSimulation "optimal" rands nf t).globalFaults ≤
        (L.runSimulation "random" rnd nf t).globalFaults) := by
  constructor
  · intro hnf
    have hub := g_opt_run rands t nf hnf t 0 (G.init nf)
      (ginv_init "optimal" nf hnf) rfl
    refine ⟨?_, ?_, ?_⟩
    · have hlb := g_lb "fifo" (Or.inl rfl) rands t nf hnf t 0 (G.init nf)
        (ginv_init "fifo" nf hnf)
      exact le_trans hub hlb
    · have hlb := g_lb "lru" (Or.inr (Or.inl rfl)) rands t nf hnf t 0
        (G.init nf) (ginv_init "lru" nf hnf)
      exact le_trans hub hlb
    · have hlb := g_lb "random" (Or.inr (Or.inr (Or.inr rfl))) rnd t nf hnf
        t 0 (G.init nf) (ginv_init "random" nf hnf)
      exact le_trans hub hlb
  · intro hnf
    have hub := l_opt_run rands t nf hnf t 0 (L.init nf) hval
      (linv_init "optimal" nf hnf) rfl
    refine ⟨?_, ?_, ?_⟩
    · have hlb := l_lb_sum "fifo" (Or.inl rfl) rands t nf hnf t 0 (L.init nf)
        hval (linv_init "fifo" nf hnf)
      exact le_trans hub hlb
    · have hlb := l_lb_sum "lru" (Or.inr (Or.inl rfl)) rands t nf hnf t 0
        (L.init nf) hval (linv_init "lru" nf hnf)
      exact le_trans hub hlb
    · have hlb := l_lb_sum "random" (Or.inr (Or.inr (Or.inr rfl))) rnd t nf
        hnf t 0 (L.init nf) hval (linv_init "random" nf hnf)
      exact le_trans hub hlb

theorem claim_C8_witness :
    ((G.runSimulation "optimal" (fun _ => 0) 4
        [((0 : Nat), (9 : Nat)), (0, 10), (0, 9)]).globalFaults ≤
      (G.runSimulation "fifo" (fun _ => 0) 4
        [((0 : Nat), (9 : Nat)), (0, 10), (0, 9)]).globalFaults) ∧
    ((L.runSimulation "optimal" (fun _ => 0) 4
        [((0 : Nat), (9 : Nat)), (0, 10), (0, 9)]).globalFaults ≤
      (L.runSimulation "lru" (fun _ => 0) 4
        [((0 : Nat), (9 : Nat)), (0, 10), (0, 9)]).globalFaults) :=
  ⟨((claim_C8 (fun _ => 0) (fun _ => 0) 4
      [((0 : Nat), (9 : Nat)), (0, 10), (0, 9)] (by decide)).1 (by decide)).1,
   ((claim_C8 (fun _ => 0) (fun _ => 0) 4
      [((0 : Nat), (9 : Nat)), (0, 10), (0, 9)] (by decide)).2 (by decide)).2.1⟩

/-- C9 counterexample: on the trace (0,9),(1,1),(1,2),(1,3),(1,4),(1,5),(0,9)
with 4 frames, the Global engine faults 7 times under fifo and under lru
while the Local engine faults only 6 times, refuting Global-vs-Local
dominance for the deterministic policies fifo and lru. -/
theorem claim_C9_counterexample :
    (G.runSimulation "fifo" (fun _ => 0) 4
      [((0 : Nat), (9 : Nat)), (1, 1), (1, 2), (1, 3), (1, 4), (1, 5),
        (0, 9)]).globalFaults = 7 ∧
    (L.runSimulation "fifo" (fun _ => 0) 4
      [((0 : Nat), (9 : Nat)), (1, 1), (1, 2), (1, 3), (1, 4), (1, 5),
        (0, 9)]).globalFaults = 6 ∧
    (G.runSimulation "lru" (fun _ => 0) 4
      [((0 : Nat), (9 : Nat)), (1, 1), (1, 2), (1, 3), (1, 4), (1, 5),
        (0, 9)]).globalFaults = 7 ∧
    (L.runSimulation "lru" (fun _ => 0) 4
      [((0 : Nat), (9 : Nat)), (1, 1), (1, 2), (1, 3), (1, 4), (1, 5),
        (0, 9)]).globalFaults = 6 :=
  ⟨rfl, rfl, rfl, rfl⟩

/-- C9 (amended).  Global-vs-Local dominance holds for policy optimal: for
every trace over the four processes and every frame count of at least 4, the
global fault count of the Global (shared-pool) engine under policy optimal
is at most that of the Local (equal static partition) engine run with the
same arguments.  For fifo and lru the dominance fails, as the recorded
counterexample shows. -/
theorem claim_C9 (rands : Nat → Nat) (nf : Nat) (t : List Access)
    (hval : ValidTrace t) (hnf : 4 ≤ nf) :
    (G.runSimulation "optimal" rands nf t).globalFaults ≤
      (L.runSimulation "optimal" rands nf t).globalFaults := by
  have hnf1 : 1 ≤ nf := by omega
  have hub := g_opt_run rands t nf hnf1 t 0 (G.init nf)
    (ginv_init "optimal" nf hnf1) rfl
  have hlb := l_lb_single "optimal" (Or.inr (Or.inr (Or.inl rfl))) rands t nf
    hnf t 0 (L.init nf) hval (linv_init "optimal" nf hnf)
  have hub2 : (G.runSimulation "optimal" rands nf t).globalFaults ≤
      0 + Belady.opt nf t (ResOf (G.init nf).memory) := hub
  have hlb2 : 0 + Belady.opt nf t (resAll (L.init nf).memory) ≤
      (L.runSimulation "optimal" rands nf t).globalFaults := hlb
  have hG : ResOf (G.init nf).memory = (∅ : Finset Access) := ResOf_replicate nf
  have hL : resAll (L.init nf).memory = (∅ : Finset Access) := resAll_init nf
  rw [hG] at hub2
  rw [hL] at hlb2
  exact le_trans hub2 hlb2

theorem claim_C9_witness :
    (G.runSimulation "optimal" (fun _ => 0) 4
      [((0 : Nat), (9 : Nat)), (1, 1), (1, 2), (1, 3), (1, 4), (1, 5),
        (0, 9)]).globalFaults ≤
    (L.runSimulation "optimal" (fun _ => 0) 4
      [((0 : Nat), (9 : Nat)), (1, 1), (1, 2), (1, 3), (1, 4), (1, 5),
        (0, 9)]).globalFaults :=
  claim_C9 (fun _ => 0) 4
    [((0 : Nat), (9 : Nat)), (1, 1), (1, 2), (1, 3), (1, 4), (1, 5), (0, 9)]
    (by decide) (by decide)

end VMM
